import Mathlib

/-!
Verification of the DBFFile library (dBase .dbf reader/writer).

The development shallowly embeds the TypeScript sources:
  * `src/dbf-file.ts`   — open/create/readRecords/appendRecords
  * `field-descriptor.ts` (validateFieldDescriptor)
  * `utils.ts`          — date/datetime codecs

Files are byte lists (`List Nat`, each < 256).  JavaScript strings are
lists of UTF-16 code units (`JStr`).  JavaScript numbers appearing in
`N`/`F` fields are modelled at the precision the library itself uses for
them — their decimal string — as a canonical pair (mantissa, decimal
exponent); numbers in `B` (double) fields are modelled as their IEEE-754
bit patterns, which is exactly what `writeDoubleLE`/`readDoubleLE`
transport.  The iconv-lite transcoder is external to the repository; it
is modelled concretely for the labels the theorems use ("ISO-8859-1",
"tis620", "utf8"), faithful to the real tables at every point exercised.
`Math.floor(a / b)` for positive `b` is integer floor division, which is
`Int` `/` (Euclidean division) in Lean.
-/

/-! ## Bytes and little-endian integers -/

/-- JavaScript string: list of UTF-16 code units. -/
abbrev JStr := List Nat

/-- `Buffer` byte access; reads past the end yield 0 (our uses stay in bounds). -/
def byteAt (f : List Nat) (i : Nat) : Nat := f.getD i 0

/-- Little-endian byte serialisation of `v`, `k` bytes. -/
def leBytes : Nat → Nat → List Nat
  | 0, _ => []
  | k + 1, v => (v % 256) :: leBytes k (v / 256)

/-- `buf.readUInt8(i)`. -/
def readUInt8 (f : List Nat) (i : Nat) : Nat := byteAt f i

/-- `buf.readUInt16LE(i)`. -/
def readUInt16LE (f : List Nat) (i : Nat) : Nat :=
  byteAt f i + 256 * byteAt f (i + 1)

/-- `buf.readUInt16BE(i)`. -/
def readUInt16BE (f : List Nat) (i : Nat) : Nat :=
  256 * byteAt f i + byteAt f (i + 1)

/-- `buf.readUInt32LE(i)` (unsigned view). -/
def readUInt32LE (f : List Nat) (i : Nat) : Nat :=
  byteAt f i + 256 * byteAt f (i + 1) + 65536 * byteAt f (i + 2) + 16777216 * byteAt f (i + 3)

/-- `buf.readInt32LE(i)`: two's-complement signed view. -/
def readInt32LE (f : List Nat) (i : Nat) : Int :=
  let u := readUInt32LE f i
  if u < 2147483648 then (u : Int) else (u : Int) - 4294967296

/-- `buf.readInt32BE(i)`. -/
def readInt32BE (f : List Nat) (i : Nat) : Int :=
  let u := 16777216 * byteAt f i + 65536 * byteAt f (i + 1) + 256 * byteAt f (i + 2) + byteAt f (i + 3)
  if u < 2147483648 then (u : Int) else (u : Int) - 4294967296

/-- Bytes produced by `buf.writeInt32LE(v)` for `v` in int32 range. -/
def writeInt32LEBytes (v : Int) : List Nat :=
  leBytes 4 (v % 4294967296).toNat

theorem leBytes_length (k v : Nat) : (leBytes k v).length = k := by
  induction k generalizing v with
  | zero => rfl
  | succ k ih => simp [leBytes, ih]

theorem byteAt_leBytes_lt (k v i : Nat) (h : i < k) : byteAt (leBytes k v) i = v / 256 ^ i % 256 := by
  induction k generalizing v i with
  | zero => omega
  | succ k ih =>
    cases i with
    | zero => simp [leBytes, byteAt]
    | succ i =>
      have := ih (v / 256) i (by omega)
      simp only [leBytes, byteAt, List.getD] at *
      simpa [Nat.div_div_eq_div_mul, pow_succ, Nat.mul_comm] using this

theorem readUInt32LE_leBytes (v : Nat) (hv : v < 4294967296) :
    readUInt32LE (leBytes 4 v) 0 = v := by
  unfold readUInt32LE
  rw [byteAt_leBytes_lt 4 v 0 (by omega), byteAt_leBytes_lt 4 v 1 (by omega),
    byteAt_leBytes_lt 4 v 2 (by omega), byteAt_leBytes_lt 4 v 3 (by omega)]
  simp only [pow_zero, pow_one, Nat.div_one]
  omega

/-- Round trip for int32 writes. -/
theorem readInt32LE_writeInt32LE (v : Int) (h1 : -2147483648 ≤ v) (h2 : v < 2147483648) :
    readInt32LE (writeInt32LEBytes v) 0 = v := by
  unfold readInt32LE writeInt32LEBytes
  have hmod : (0:Int) ≤ v % 4294967296 ∧ v % 4294967296 < 4294967296 := by omega
  have htn : ((v % 4294967296).toNat : Int) = v % 4294967296 := Int.toNat_of_nonneg hmod.1
  rw [readUInt32LE_leBytes _ (by omega)]
  simp only []
  split <;> omega

/-! ## The iconv-lite transcoder (external capability, modelled concretely)

Only the behaviour on the labels and code points that the theorems below
exercise matters; at those points the tables agree with iconv-lite. -/

/-- The label "ISO-8859-1". -/
def latin1Label : JStr := [73, 83, 79, 45, 56, 56, 53, 57, 45, 49]

/-- The label "tis620" (Thai, single byte). -/
def tis620Label : JStr := [116, 105, 115, 54, 50, 48]

/-- The label "utf8". -/
def utf8Label : JStr := [117, 116, 102, 56]

/-- UTF-8 encoding of one BMP code unit (as iconv-lite does for non-surrogates). -/
def utf8EncChar (c : Nat) : List Nat :=
  if c < 128 then [c]
  else if c < 2048 then [192 + c / 64, 128 + c % 64]
  else [224 + c / 4096, 128 + c / 64 % 64, 128 + c % 64]

/-- TIS-620 encoding of one code unit. -/
def tis620EncChar (c : Nat) : Nat :=
  if c < 128 then c
  else if 3585 ≤ c ∧ c ≤ 3675 then c - 3424
  else 63

/-- TIS-620 decoding of one byte. -/
def tis620DecByte (b : Nat) : Nat :=
  if b < 128 then b
  else if 161 ≤ b ∧ b ≤ 251 then b + 3424
  else 65533

/-- ISO-8859-1 encoding of one code unit (unmappable → '?'). -/
def latin1EncChar (c : Nat) : Nat := if c < 256 then c else 63

/-- `iconv.encode(s, label)`. -/
def iconvEncode (label : JStr) (s : JStr) : List Nat :=
  if label = utf8Label then s.flatMap utf8EncChar
  else if label = tis620Label then s.map tis620EncChar
  else s.map latin1EncChar

/-- `iconv.decode(bytes, label)` (single-byte labels; the utf8 label is
only ever used on the encode path by the theorems below). -/
def iconvDecode (label : JStr) (bs : List Nat) : JStr :=
  if label = tis620Label then bs.map tis620DecByte
  else bs

/-! ## Decimal digit strings (JavaScript `Number#toString` / `parseFloat`)

`N`/`F` values are canonical decimal pairs `(i, e)` denoting `i / 10^e`
with `e = 0 ∨ ¬(10 ∣ i)`; for the values admitted by an `N` field (those
whose fixed-notation decimal string fits the field), JavaScript renders
exactly this fixed notation and `parseFloat` inverts it. -/

/-- Decimal digits of `n`, least-significant first. -/
def natDigitsRev (n : Nat) : List Nat :=
  if h : n < 10 then [n]
  else (n % 10) :: natDigitsRev (n / 10)
  decreasing_by exact Nat.div_lt_self (by omega) (by omega)

/-- Decimal digits of `n`, most-significant first. -/
def natDigits (n : Nat) : List Nat := (natDigitsRev n).reverse

/-- Value of a least-significant-first digit list. -/
def ofDigitsRev : List Nat → Nat
  | [] => 0
  | d :: ds => d + 10 * ofDigitsRev ds

/-- Value of a most-significant-first digit list. -/
def ofDigits (ds : List Nat) : Nat := ofDigitsRev ds.reverse

theorem ofDigitsRev_natDigitsRev (n : Nat) : ofDigitsRev (natDigitsRev n) = n := by
  induction n using Nat.strong_induction_on with
  | _ n ih =>
    unfold natDigitsRev
    split
    · simp [ofDigitsRev]
    · rename_i h
      rw [ofDigitsRev, ih (n / 10) (Nat.div_lt_self (by omega) (by omega))]
      omega

theorem ofDigits_natDigits (n : Nat) : ofDigits (natDigits n) = n := by
  unfold ofDigits natDigits
  rw [List.reverse_reverse]
  exact ofDigitsRev_natDigitsRev n

theorem natDigitsRev_len_pos (n : Nat) : 0 < (natDigitsRev n).length := by
  unfold natDigitsRev
  split <;> simp

theorem natDigitsRev_lt_10 (n : Nat) : ∀ d ∈ natDigitsRev n, d < 10 := by
  induction n using Nat.strong_induction_on with
  | _ n ih =>
    unfold natDigitsRev
    split
    · simp; omega
    · rename_i h
      intro d hd
      simp only [List.mem_cons] at hd
      rcases hd with hd | hd
      · omega
      · exact ih (n / 10) (Nat.div_lt_self (by omega) (by omega)) d hd

theorem natDigits_lt_10 (n : Nat) : ∀ d ∈ natDigits n, d < 10 := by
  intro d hd
  exact natDigitsRev_lt_10 n d (List.mem_reverse.mp hd)

theorem natDigitsRev_head_ne_zero (n : Nat) (h : 0 < n) :
    (natDigitsRev n).getLast (by have := natDigitsRev_len_pos n; intro hc; simp [hc] at this) ≠ 0 := by
  induction n using Nat.strong_induction_on with
  | _ n ih =>
    unfold natDigitsRev
    split
    · simpa using by omega
    · rename_i hn
      rw [List.getLast_cons (by have := natDigitsRev_len_pos (n / 10); intro hc; simp [hc] at this)]
      exact ih (n / 10) (Nat.div_lt_self (by omega) (by omega)) (by omega)

/-- Is a decimal digit character code. -/
def isDigitCode (c : Nat) : Bool := 48 ≤ c && c ≤ 57

/-- Fixed-notation rendering of the decimal value `n / 10^e`
(`Number#toString` for values in fixed-notation range). -/
def decRender (n : Nat) (e : Nat) : JStr :=
  let ds := natDigits n
  let L := max ds.length (e + 1)
  let ds' := List.replicate (L - ds.length) 0 ++ ds
  (ds'.take (L - e)).map (· + 48) ++ (if e = 0 then [] else 46 :: (ds'.drop (L - e)).map (· + 48))

/-- `Number#toString` on the decimal pair model. -/
def jsNumToString (i : Int) (e : Nat) : JStr :=
  (if i < 0 then [45] else []) ++ decRender i.natAbs e

/-- Drop trailing decimal zeros, so that equal JavaScript numbers give
equal canonical pairs. -/
def canonDec : Nat → Nat → Nat × Nat
  | n, 0 => (n, 0)
  | n, e + 1 => if n = 0 then (0, 0) else if n % 10 = 0 then canonDec (n / 10) e else (n, e + 1)

/-- Magnitude part of `parseFloat`: integer digits and optional fraction. -/
def parseUnsigned (s1 : JStr) : Option (Nat × Nat) :=
  let ip := s1.takeWhile isDigitCode
  let r1 := s1.dropWhile isDigitCode
  let fds := if r1.head? = some 46 then r1.tail.takeWhile isDigitCode else []
  if ip = [] ∧ fds = [] then none
  else some (canonDec (ofDigits ((ip ++ fds).map (· - 48))) fds.length)

/-- `parseFloat` on the strings the library produces and reads (sign,
integer digits, optional fraction; exponent forms never occur in the
number fields this library writes). `none` models `NaN`. -/
def parseFloatJS (s : JStr) : Option (Int × Nat) :=
  if s.head? = some 45 then (parseUnsigned s.tail).map fun p => (-(p.1 : Int), p.2)
  else if s.head? = some 43 then (parseUnsigned s.tail).map fun p => ((p.1 : Int), p.2)
  else (parseUnsigned s).map fun p => ((p.1 : Int), p.2)

/-- Canonical decimal pair: no trailing zeros in the fraction. -/
def IsCanonDec (i : Int) (e : Nat) : Prop := e = 0 ∨ (i ≠ 0 ∧ i.natAbs % 10 ≠ 0)

theorem takeWhile_digit_map (ds : List Nat) (rest : JStr) (h : ∀ d ∈ ds, d < 10) :
    (ds.map (· + 48) ++ rest).takeWhile isDigitCode
      = ds.map (· + 48) ++ rest.takeWhile isDigitCode ∧
    (ds.map (· + 48) ++ rest).dropWhile isDigitCode = rest.dropWhile isDigitCode := by
  induction ds with
  | nil => simp
  | cons d ds ih =>
    have hd : d < 10 := h d (by simp)
    have := ih (fun x hx => h x (by simp [hx]))
    simp only [List.map_cons, List.cons_append, List.takeWhile_cons, List.dropWhile_cons]
    rw [if_pos (by unfold isDigitCode; simp; omega), if_pos (by unfold isDigitCode; simp; omega)]
    simp [this.1, this.2]

theorem ofDigitsRev_append_zeros (l : List Nat) (k : Nat) :
    ofDigitsRev (l ++ List.replicate k 0) = ofDigitsRev l := by
  induction l with
  | nil =>
    induction k with
    | zero => rfl
    | succ k ih => simpa [ofDigitsRev, List.replicate_succ] using ih
  | cons d ds ih => simp [ofDigitsRev, ih]

theorem ofDigits_replicate_append (k : Nat) (ds : List Nat) :
    ofDigits (List.replicate k 0 ++ ds) = ofDigits ds := by
  unfold ofDigits
  rw [List.reverse_append, List.reverse_replicate]
  exact ofDigitsRev_append_zeros ds.reverse k

theorem map_sub_map_add (ds : List Nat) : (ds.map (· + 48)).map (· - 48) = ds := by
  induction ds with
  | nil => rfl
  | cons d t ih => simp [ih]

theorem canonDec_no_trailing (n e : Nat) (h : e = 0 ∨ (0 < n ∧ n % 10 ≠ 0)) :
    canonDec n e = (n, e) := by
  cases e with
  | zero => rfl
  | succ e =>
    rcases h with h | ⟨h1, h2⟩
    · omega
    · unfold canonDec
      rw [if_neg (by omega), if_neg h2]

/-- `parseFloat`'s magnitude parse inverts fixed-notation rendering. -/
theorem parseUnsigned_decRender (n e : Nat) (h : e = 0 ∨ (0 < n ∧ n % 10 ≠ 0)) :
    parseUnsigned (decRender n e) = some (n, e) := by
  unfold decRender
  simp only []
  set ds := natDigits n with hds
  set L := max ds.length (e + 1) with hL
  set ds' := List.replicate (L - ds.length) 0 ++ ds with hds'
  have hdslen : 0 < ds.length := by
    rw [hds]; unfold natDigits; simpa using natDigitsRev_len_pos n
  have hlen' : ds'.length = L := by
    rw [hds']; simp only [List.length_append, List.length_replicate]; omega
  have hddig : ∀ d ∈ ds', d < 10 := by
    intro d hd
    rw [hds'] at hd
    rcases List.mem_append.mp hd with hd | hd
    · have := List.eq_of_mem_replicate hd; omega
    · exact natDigits_lt_10 n d hd
  have hvds' : ofDigits ds' = n := by
    rw [hds', ofDigits_replicate_append, hds, ofDigits_natDigits]
  have hipdig : ∀ d ∈ ds'.take (L - e), d < 10 :=
    fun d hd => hddig d (List.take_subset _ _ hd)
  have hfrdig : ∀ d ∈ ds'.drop (L - e), d < 10 :=
    fun d hd => hddig d (List.drop_subset _ _ hd)
  have htklen : (ds'.take (L - e)).length = L - e := by
    rw [List.length_take, hlen']; omega
  have hipne : ds'.take (L - e) ≠ [] := by
    intro hc
    rw [hc] at htklen
    simp [hL] at htklen
    omega
  rcases Nat.eq_zero_or_pos e with he | he
  · -- no decimal point
    subst he
    rw [if_pos rfl]
    simp only [Nat.sub_zero, List.append_nil]
    rw [List.take_of_length_le (le_of_eq hlen')]
    unfold parseUnsigned
    have hTW := takeWhile_digit_map ds' [] hddig
    simp only [List.append_nil, List.takeWhile_nil, List.dropWhile_nil] at hTW
    simp only [hTW.1, hTW.2, List.head?_nil, List.append_nil]
    have hne : ds' ≠ [] := by
      intro hc
      have h0 : ds'.length = 0 := by rw [hc]; rfl
      rw [hlen'] at h0
      omega
    rw [if_neg (by
      simp only [List.map_eq_nil_iff]
      intro hcc
      exact absurd hcc.1 hne)]
    simp [map_sub_map_add, hvds', canonDec_no_trailing n 0 (Or.inl rfl)]
    have hcomp : List.map ((fun x => x - 48) ∘ fun x => x + 48) ds' = ds' := by
      rw [show ((fun x => x - 48) ∘ fun x : Nat => x + 48) = id from by funext x; simp]
      exact List.map_id ds'
    rw [hcomp, hvds']
    rfl
  · -- with decimal point
    rw [if_neg (by omega)]
    unfold parseUnsigned
    have hTW := takeWhile_digit_map (ds'.take (L - e)) (46 :: (ds'.drop (L - e)).map (· + 48)) hipdig
    have h46 : isDigitCode 46 = false := by unfold isDigitCode; simp
    simp only [List.takeWhile_cons, h46, Bool.false_eq_true, if_false, List.dropWhile_cons] at hTW
    simp only [hTW.1, hTW.2, List.append_nil, List.head?_cons, List.tail_cons]
    have hTW2 := takeWhile_digit_map (ds'.drop (L - e)) [] hfrdig
    simp only [List.append_nil, List.takeWhile_nil] at hTW2
    simp only [if_true, hTW2.1]
    rw [if_neg (by
      simp only [List.map_eq_nil_iff]
      intro hcc
      exact absurd hcc.1 hipne)]
    rw [← List.map_append, map_sub_map_add, List.take_append_drop, hvds']
    have hfrlen : ((ds'.drop (L - e)).map (· + 48)).length = e := by
      rw [List.length_map, List.length_drop, hlen']
      omega
    rw [hfrlen, canonDec_no_trailing n e h]

/-- `parseFloat` inverts `Number#toString` on canonical decimal pairs. -/
theorem parseFloatJS_jsNumToString (i : Int) (e : Nat) (h : IsCanonDec i e) :
    parseFloatJS (jsNumToString i e) = some (i, e) := by
  have hcore : e = 0 ∨ (0 < i.natAbs ∧ i.natAbs % 10 ≠ 0) := by
    rcases h with h | ⟨h1, h2⟩
    · exact Or.inl h
    · exact Or.inr ⟨by omega, h2⟩
  have hdig_head : ∀ c, (decRender i.natAbs e).head? = some c → 48 ≤ c ∧ c ≤ 57 := by
    intro c hc
    unfold decRender at hc
    simp only [] at hc
    set ds := natDigits i.natAbs with hds
    set L := max ds.length (e + 1) with hL
    set ds' := List.replicate (L - ds.length) 0 ++ ds with hds'
    have hdslen : 0 < ds.length := by
      rw [hds]; unfold natDigits; simpa using natDigitsRev_len_pos i.natAbs
    have hlen' : ds'.length = L := by
      rw [hds']; simp only [List.length_append, List.length_replicate]; omega
    have htklen : (ds'.take (L - e)).length = L - e := by
      rw [List.length_take, hlen']; omega
    obtain ⟨d0, ip', hip⟩ := List.exists_cons_of_ne_nil
      (l := ds'.take (L - e)) (by intro hcc; rw [hcc] at htklen; simp [hL] at htklen; omega)
    rw [hip] at hc
    simp only [List.map_cons, List.cons_append, List.head?_cons, Option.some.injEq] at hc
    have hd0 : d0 < 10 := by
      have hmem : d0 ∈ ds' := List.take_subset _ _ (by rw [hip]; simp)
      rw [hds'] at hmem
      rcases List.mem_append.mp hmem with hm | hm
      · have := List.eq_of_mem_replicate hm; omega
      · exact natDigits_lt_10 _ _ hm
    omega
  unfold jsNumToString
  rcases lt_or_ge i 0 with hneg | hpos
  · rw [if_pos hneg]
    unfold parseFloatJS
    simp only [List.cons_append, List.nil_append, List.head?_cons, List.tail_cons, if_true]
    rw [parseUnsigned_decRender _ _ hcore]
    simp only [Option.map_some']
    have hcast : -((i.natAbs : Int)) = i := by omega
    rw [hcast]
  · rw [if_neg (by omega)]
    simp only [List.nil_append]
    unfold parseFloatJS
    rw [if_neg ?h45, if_neg ?h43]
    case h45 =>
      intro hc
      have := hdig_head 45 hc
      omega
    case h43 =>
      intro hc
      have := hdig_head 43 hc
      omega
    rw [parseUnsigned_decRender _ _ hcore]
    simp only [Option.map_some']
    have hcast : ((i.natAbs : Int)) = i := by omega
    rw [hcast]

/-! ## Calendar codecs

`parseVfpDateTime` (imported by `dbf-file.ts` from `utils.ts`) computes a
civil date from a Julian day by the Hatcher/Meeus integer algorithm; the
spec pins the exact formula.  `daysFromCivil` models the ECMAScript
`Date.UTC`/`MakeDay` day-number computation used on the write side
(`julian_day = floor(ms_epoch / 86_400_000) + 2_440_588`); `MakeDay` on
in-range arguments equals the standard era-based civil-to-day formula
below.  `Math.floor` of a quotient with positive divisor is `Int`
division. -/

set_option maxHeartbeats 1000000


theorem hat_n (era yoe doy s1 : Int)
    (hyoe : 0 ≤ yoe) (hyoe2 : yoe ≤ 399) (hdoy0 : 0 ≤ doy)
    (hdoy : doy ≤ 364 ∨ (doy = 365 ∧ (yoe + 1) % 4 = 0 ∧ ((yoe + 1) % 100 ≠ 0 ∨ yoe = 399)))
    (hs1 : s1 = era * 146097 + (yoe * 365 + yoe / 4 - yoe / 100 + doy) + 1789689) :
    4 * s1 / 146097 = 4 * era + 49 + yoe / 100 := by
  rcases hdoy with h | ⟨h, h4, h100 | h400⟩
  · omega
  · have hne : yoe ≠ 99 ∧ yoe ≠ 199 ∧ yoe ≠ 299 ∧ yoe ≠ 399 := by omega
    have hb : 0 ≤ yoe / 100 ∧ yoe / 100 ≤ 3 := by omega
    have hc : yoe / 100 = 0 ∨ yoe / 100 = 1 ∨ yoe / 100 = 2 ∨ yoe / 100 = 3 := by omega
    rcases hc with hc | hc | hc | hc <;> omega
  · omega

theorem hat_i (yc doy s2 : Int)
    (hyc : 0 ≤ yc) (hyc2 : yc ≤ 99) (hdoy0 : 0 ≤ doy)
    (hdoy : doy ≤ 364 ∨ (doy = 365 ∧ yc % 4 = 3))
    (hs2 : s2 = 365 * yc + yc / 4 + doy) :
    4000 * (s2 + 1) / 1461001 = yc := by
  rcases hdoy with h | ⟨h, h4⟩ <;> omega

theorem hat_month (mp d K s3 : Int)
    (hmp : 0 ≤ mp) (hmp2 : mp ≤ 11) (hd : 1 ≤ d)
    (hK : K = (153 * mp + 2) / 5)
    (hdim : d ≤ 31) (hdim3 : mp = 11 → d ≤ 29)
    (hdim2 : mp ≠ 11 → d ≤ (153 * (mp + 1) + 2) / 5 - K)
    (hs3 : s3 = K + d + 30) :
    80 * s3 / 2447 = mp + 1 := by omega

theorem hat_day (mp : Int) (hmp : 0 ≤ mp) (hmp2 : mp ≤ 11) :
    2447 * (mp + 1) / 80 = (153 * mp + 2) / 5 + 30 := by omega

def daysFromCivil (y m d : Int) : Int :=
  let y' : Int := if m ≤ 2 then y - 1 else y
  let era : Int := y' / 400
  let yoe : Int := y' - era * 400
  let mp : Int := if 2 < m then m - 3 else m + 9
  let doy : Int := (153 * mp + 2) / 5 + d - 1
  let doe : Int := yoe * 365 + yoe / 4 - yoe / 100 + doy
  era * 146097 + doe - 719468

def hatcherDate (J : Int) : Int × Int × Int :=
  let s1 : Int := J + 68569
  let n : Int := 4 * s1 / 146097
  let s2 : Int := s1 - (146097 * n + 3) / 4
  let i : Int := 4000 * (s2 + 1) / 1461001
  let s3 : Int := s2 - 1461 * i / 4 + 31
  let q : Int := 80 * s3 / 2447
  let s4 : Int := q / 11
  (100 * (n - 49) + i + s4, q + 2 - 12 * s4, s3 - 2447 * q / 80)

def isLeap (y : Int) : Bool :=
  (y % 4 == 0 && y % 100 != 0) || y % 400 == 0

def daysInMonth (y m : Int) : Int :=
  if m = 2 then (if isLeap y then 29 else 28)
  else if m = 4 ∨ m = 6 ∨ m = 9 ∨ m = 11 then 30
  else 31

theorem hat_s2 (era yoe X : Int) (hyoe : 0 ≤ yoe) (hyoe2 : yoe ≤ 399) :
    era * 146097 + (yoe * 365 + yoe / 4 - yoe / 100 + X) + 1721120 + 68569
      - (146097 * (4 * era + 49 + yoe / 100) + 3) / 4
      = 365 * (yoe % 100) + yoe % 100 / 4 + X := by
  have hc : yoe / 100 = 0 ∨ yoe / 100 = 1 ∨ yoe / 100 = 2 ∨ yoe / 100 = 3 := by omega
  rcases hc with hc | hc | hc | hc <;> omega

/-- Flat, marchized statement of the round trip. -/
theorem hatcher_flat (era yoe mp d : Int)
    (hyoe : 0 ≤ yoe) (hyoe2 : yoe ≤ 399)
    (hmp : 0 ≤ mp) (hmp2 : mp ≤ 11)
    (hd : 1 ≤ d)
    (hdim : (mp = 11 ∧ ((d ≤ 28) ∨ (d = 29 ∧ (yoe + 1) % 4 = 0 ∧ ((yoe + 1) % 100 ≠ 0 ∨ yoe = 399))))
          ∨ (mp ≠ 11 ∧ d ≤ (153 * (mp + 1) + 2) / 5 - (153 * mp + 2) / 5)) :
    hatcherDate (era * 146097 + (yoe * 365 + yoe / 4 - yoe / 100
        + ((153 * mp + 2) / 5 + d - 1)) - 719468 + 2440588)
      = (400 * era + yoe + (if 10 ≤ mp then 1 else 0),
         (if 10 ≤ mp then mp - 9 else mp + 3), d) := by
  have hdle : d ≤ 31 := by rcases hdim with ⟨h, h'⟩ | ⟨h, h'⟩ <;> omega
  have hJ : era * 146097 + (yoe * 365 + yoe / 4 - yoe / 100
      + ((153 * mp + 2) / 5 + d - 1)) - 719468 + 2440588
      = era * 146097 + (yoe * 365 + yoe / 4 - yoe / 100
      + ((153 * mp + 2) / 5 + d - 1)) + 1721120 := by omega
  rw [hJ]
  unfold hatcherDate
  simp only []
  have hdoy : (153 * mp + 2) / 5 + d - 1 ≤ 364 ∨
      ((153 * mp + 2) / 5 + d - 1 = 365 ∧ (yoe + 1) % 4 = 0 ∧ ((yoe + 1) % 100 ≠ 0 ∨ yoe = 399)) := by
    rcases hdim with ⟨hmp11, hdc | ⟨hd29, hrest⟩⟩ | ⟨hmpne, hdc⟩ <;> omega
  have hn : 4 * (era * 146097 + (yoe * 365 + yoe / 4 - yoe / 100
      + ((153 * mp + 2) / 5 + d - 1)) + 1721120 + 68569) / 146097
      = 4 * era + 49 + yoe / 100 := by
    apply hat_n era yoe ((153 * mp + 2) / 5 + d - 1) _ hyoe hyoe2 (by omega) hdoy
    omega
  rw [hn]
  clear hn
  have hs2 := hat_s2 era yoe ((153 * mp + 2) / 5 + d - 1) hyoe hyoe2
  rw [hs2]
  have hi : 4000 * (365 * (yoe % 100) + yoe % 100 / 4 + ((153 * mp + 2) / 5 + d - 1) + 1) / 1461001
      = yoe % 100 := by
    apply hat_i (yoe % 100) ((153 * mp + 2) / 5 + d - 1) _ (by omega) (by omega) (by omega) _ rfl
    rcases hdoy with h | ⟨h, h4, h100⟩
    · exact Or.inl h
    · exact Or.inr ⟨h, by omega⟩
  rw [hi]
  have hs3 : 365 * (yoe % 100) + yoe % 100 / 4 + ((153 * mp + 2) / 5 + d - 1)
      - 1461 * (yoe % 100) / 4 + 31 = (153 * mp + 2) / 5 + d + 30 := by omega
  rw [hs3]
  have hq : 80 * ((153 * mp + 2) / 5 + d + 30) / 2447 = mp + 1 := by
    apply hat_month mp d ((153 * mp + 2) / 5) _ hmp hmp2 hd rfl hdle _ _ rfl
    · rcases hdim with ⟨h, h'⟩ | ⟨h, h'⟩ <;> omega
    · rcases hdim with ⟨h, h'⟩ | ⟨h, h'⟩
      · intro hc; exact absurd h hc
      · intro _; exact h'
  rw [hq]
  have hday := hat_day mp hmp hmp2
  rw [hday]
  have hs4 : (mp + 1) / 11 = (if 10 ≤ mp then 1 else 0) := by
    split <;> omega
  rw [hs4]
  refine Prod.ext ?_ (Prod.ext ?_ ?_) <;> simp only [] <;> (try split) <;> omega

/-- The round trip: Hatcher recovers any valid civil date from its own
day number, years 1-9999. -/
theorem hatcherDate_daysFromCivil (y m d : Int)
    (hm : 1 ≤ m) (hm2 : m ≤ 12)
    (hd : 1 ≤ d) (hd2 : d ≤ daysInMonth y m) :
    hatcherDate (daysFromCivil y m d + 2440588) = (y, m, d) := by
  unfold daysInMonth isLeap at hd2
  unfold daysFromCivil
  simp only []
  rcases le_or_lt m 2 with hm2' | hm2'
  · -- January / February: y' = y - 1, mp = m + 9
    rw [if_pos hm2', if_neg (by omega)]
    have h0 : 0 ≤ y - 1 - (y - 1) / 400 * 400 ∧ (y - 1) - (y - 1) / 400 * 400 ≤ 399 := by omega
    have key := hatcher_flat ((y - 1) / 400) (y - 1 - (y - 1) / 400 * 400) (m + 9) d
      h0.1 h0.2 (by omega) (by omega) hd ?_
    · rw [show (y - 1) / 400 * 146097 +
          ((y - 1 - (y - 1) / 400 * 400) * 365 + (y - 1 - (y - 1) / 400 * 400) / 4
            - (y - 1 - (y - 1) / 400 * 400) / 100 + ((153 * (m + 9) + 2) / 5 + d - 1)) - 719468
          = (y - 1) / 400 * 146097 + ((y - 1 - (y - 1) / 400 * 400) * 365
            + (y - 1 - (y - 1) / 400 * 400) / 4 - (y - 1 - (y - 1) / 400 * 400) / 100
            + ((153 * (m + 9) + 2) / 5 + d - 1)) - 719468 from rfl] at key
      rw [key]
      have hy400 : 400 * ((y - 1) / 400) + (y - 1 - (y - 1) / 400 * 400) = y - 1 := by omega
      rcases eq_or_lt_of_le hm2' with hmeq | hmlt
      · rw [if_pos (by omega), if_pos (by omega)]
        refine Prod.ext ?_ (Prod.ext ?_ ?_) <;> simp only [] <;> omega
      · rw [if_pos (by omega), if_pos (by omega)]
        refine Prod.ext ?_ (Prod.ext ?_ ?_) <;> simp only [] <;> omega
    · rcases eq_or_lt_of_le hm2' with hmeq | hmlt
      · -- m = 2
        left
        constructor
        · omega
        · rw [if_pos (by omega : m = 2)] at hd2
          split at hd2
          · rename_i hleap
            simp only [Bool.or_eq_true, Bool.and_eq_true, beq_iff_eq, bne_iff_ne] at hleap
            rcases Int.le_or_lt d 28 with h | h
            · exact Or.inl h
            · refine Or.inr ⟨by omega, ?_, ?_⟩ <;> omega
          · exact Or.inl hd2
      · -- m = 1
        right
        constructor
        · omega
        · have : m = 1 := by omega
          subst this
          rw [if_neg (by omega), if_neg (by omega)] at hd2
          omega
  · -- March .. December: y' = y, mp = m - 3
    rw [if_neg (by omega), if_pos hm2']
    have h0 : 0 ≤ y - y / 400 * 400 ∧ y - y / 400 * 400 ≤ 399 := by omega
    have key := hatcher_flat (y / 400) (y - y / 400 * 400) (m - 3) d
      h0.1 h0.2 (by omega) (by omega) hd ?_
    · rw [key]
      rw [if_neg (by omega), if_neg (by omega)]
      refine Prod.ext ?_ (Prod.ext ?_ ?_) <;> simp only [] <;> omega
    · right
      constructor
      · omega
      · rw [if_neg (by omega)] at hd2
        interval_cases m <;> simp_all

/-! ## Values and records -/

/-- A JavaScript value as stored in a record.  Numbers are split by how
the library transports them: `vnum` is the decimal-string view used by
`N`/`F` (and integer `I`) fields, `vdbl` the IEEE-754 bit pattern that
`writeDoubleLE`/`readDoubleLE` move byte-for-byte, `vnan` is `NaN`.
`vdate` is a `Date` as a UTC civil tuple. -/
inductive Value where
  | vnull
  | vstr (s : JStr)
  | vnum (i : Int) (e : Nat)
  | vnan
  | vdbl (bits : Nat)
  | vbool (b : Bool)
  | vdate (y m d hh mi ss : Int)
  deriving DecidableEq

/-- Modelled from the spec: `parseVfpDateTime` is imported by
`dbf-file.ts` from `./utils`, but that revision of `utils.ts` is not in
the sources.  Spec §4.3: civil date from `julian_day` by the Hatcher
algorithm, `hours = ⌊ms/3_600_000⌋`, `minutes = ⌊(ms mod 3_600_000)/60_000⌋`,
`seconds = ⌊(ms mod 60_000)/1000⌋`, composed as a UTC datetime. -/
def parseVfpDateTime (julianDay msSinceMidnight : Int) : Value :=
  let c := hatcherDate julianDay
  Value.vdate c.1 c.2.1 c.2.2 (msSinceMidnight / 3600000)
    (msSinceMidnight % 3600000 / 60000) (msSinceMidnight % 60000 / 1000)

/-- Modelled from the spec: `formatVfpDateTime` (from the missing
`utils.ts` revision).  Spec §4.3: `julian_day = floor(ms_epoch / 86_400_000)
+ 2_440_588` and `ms_since_midnight = ((H·60+M)·60+S)·1000`; `ms_epoch` is
the ECMAScript time value of the UTC civil tuple. -/
def formatVfpDateTime (y m d hh mi ss : Int) : Int × Int :=
  let msEpoch := daysFromCivil y m d * 86400000 + ((hh * 60 + mi) * 60 + ss) * 1000
  (msEpoch / 86400000 + 2440588, ((hh * 60 + mi) * 60 + ss) * 1000)

/-- Zero-padded decimal rendering (character codes), width `w`. -/
def padDigits (w n : Nat) : JStr :=
  List.replicate (w - (natDigits n).length) 48 ++ (natDigits n).map (· + 48)

/-- Modelled from the spec: `format8CharDate` (missing `utils.ts`
revision) renders the date as 'YYYYMMDD'. -/
def format8CharDate (y m d : Int) : JStr :=
  padDigits 4 y.toNat ++ padDigits 2 m.toNat ++ padDigits 2 d.toNat

/-- Modelled from the spec: `parse8CharDate` (missing `utils.ts`
revision) decodes 8 bytes 'YYYYMMDD' into a calendar date (UTC midnight). -/
def parse8CharDate (s : JStr) : Value :=
  Value.vdate (ofDigits ((s.take 4).map (· - 48))) (ofDigits (((s.drop 4).take 2).map (· - 48)))
    (ofDigits (((s.drop 6).take 2).map (· - 48))) 0 0 0

theorem padDigits_length (w n : Nat) (h : (natDigits n).length ≤ w) :
    (padDigits w n).length = w := by
  unfold padDigits
  simp only [List.length_append, List.length_replicate, List.length_map]
  omega

theorem natDigits_length_le (n k : Nat) (h : n < 10 ^ k) (hk : 0 < k) :
    (natDigits n).length ≤ k := by
  unfold natDigits
  rw [List.length_reverse]
  induction k generalizing n with
  | zero => omega
  | succ k ih =>
    unfold natDigitsRev
    split
    · simpa using by omega
    · rename_i hn
      simp only [List.length_cons]
      have hk' : 0 < k := by
        by_contra hc
        have : k = 0 := by omega
        subst this
        simp at h
        omega
      have := ih (n / 10) (by
        have : n < 10 * 10 ^ k := by rw [← pow_succ']; exact h
        omega) hk'
      omega

theorem ofDigits_padDigits (w n : Nat) : ofDigits ((padDigits w n).map (· - 48)) = n := by
  unfold padDigits
  rw [List.map_append]
  have h1 : (List.replicate (w - (natDigits n).length) 48).map (· - 48)
      = List.replicate (w - (natDigits n).length) 0 := by
    simp [List.map_replicate]
  rw [h1, map_sub_map_add, ofDigits_replicate_append, ofDigits_natDigits]

/-- `parse8CharDate` inverts `format8CharDate` on dates with 4-digit
years. -/
theorem parse8CharDate_format8CharDate (y m d : Int)
    (hy : 0 ≤ y) (hy2 : y ≤ 9999) (hm : 0 ≤ m) (hm2 : m ≤ 99) (hd : 0 ≤ d) (hd2 : d ≤ 99) :
    parse8CharDate (format8CharDate y m d) = Value.vdate y m d 0 0 0 := by
  unfold parse8CharDate format8CharDate
  have hylen : (natDigits y.toNat).length ≤ 4 := natDigits_length_le _ 4 (by omega) (by omega)
  have hmlen : (natDigits m.toNat).length ≤ 2 := natDigits_length_le _ 2 (by omega) (by omega)
  have hdlen : (natDigits d.toNat).length ≤ 2 := natDigits_length_le _ 2 (by omega) (by omega)
  have hyl : (padDigits 4 y.toNat).length = 4 := padDigits_length _ _ hylen
  have hml : (padDigits 2 m.toNat).length = 2 := padDigits_length _ _ hmlen
  have hdl : (padDigits 2 d.toNat).length = 2 := padDigits_length _ _ hdlen
  have htake : ((padDigits 4 y.toNat ++ (padDigits 2 m.toNat ++ padDigits 2 d.toNat)).take 4)
      = padDigits 4 y.toNat := List.take_left' hyl
  have hdrop4 : ((padDigits 4 y.toNat ++ (padDigits 2 m.toNat ++ padDigits 2 d.toNat)).drop 4)
      = padDigits 2 m.toNat ++ padDigits 2 d.toNat := List.drop_left' hyl
  have hdrop6 : ((padDigits 4 y.toNat ++ (padDigits 2 m.toNat ++ padDigits 2 d.toNat)).drop 6)
      = padDigits 2 d.toNat := by
    rw [← List.append_assoc]
    exact List.drop_left' (by rw [List.length_append]; omega)
  rw [List.append_assoc, htake, hdrop4, hdrop6, List.take_left' hml]
  rw [List.take_of_length_le (le_of_eq hdl)]
  rw [ofDigits_padDigits, ofDigits_padDigits, ofDigits_padDigits]
  rw [Int.toNat_of_nonneg hy, Int.toNat_of_nonneg hm, Int.toNat_of_nonneg hd]

/-- Reading a `T` frame back: `dbf-file.ts` adds 1 to the stored
milliseconds before calling `parseVfpDateTime`; at whole-second values
this recovers the civil datetime exactly. -/
theorem parseVfpDateTime_formatVfpDateTime (y m d hh mi ss : Int)
    (hm : 1 ≤ m) (hm2 : m ≤ 12) (hd : 1 ≤ d) (hd2 : d ≤ daysInMonth y m)
    (hhh : 0 ≤ hh) (hhh2 : hh ≤ 23) (hmi : 0 ≤ mi) (hmi2 : mi ≤ 59) (hss : 0 ≤ ss) (hss2 : ss ≤ 59) :
    parseVfpDateTime (formatVfpDateTime y m d hh mi ss).1
      ((formatVfpDateTime y m d hh mi ss).2 + 1) = Value.vdate y m d hh mi ss := by
  unfold formatVfpDateTime
  simp only []
  have hjd : (daysFromCivil y m d * 86400000 + ((hh * 60 + mi) * 60 + ss) * 1000) / 86400000
      + 2440588 = daysFromCivil y m d + 2440588 := by omega
  rw [hjd]
  unfold parseVfpDateTime
  rw [hatcherDate_daysFromCivil y m d hm hm2 hd hd2]
  simp only [Value.vdate.injEq]
  refine ⟨trivial, trivial, trivial, by omega, by omega, by omega⟩

/-! ## Field descriptors and validation (`field-descriptor.ts`) -/

/-- A field descriptor; `type` is the character code of the type letter
(C=67, N=78, F=70, L=76, D=68, I=73, M=77, T=84, B=66). -/
structure FieldDescriptor where
  name : JStr
  type : Nat
  size : Nat
  decimalPlaces : Option Nat
  deriving DecidableEq

/-- The typed errors thrown by the library (spec §7). -/
inductive DbfErr where
  | nameTooShort
  | nameTooLong
  | typeUnsupported
  | sizeTooSmall
  | sizeTooLarge
  | sizeInvalid
  | decimalsTooLarge
  | tooManyFields
  | duplicateField (name : JStr)
  | badTerminator
  | wrongRecordLength
  | unsupportedVersion (v : Nat)
  | missingMemoFile
  | valueTypeMismatch (name : JStr)
  | textTooLong (name : JStr)
  | memoWriteUnsupported
  | memoReadPastEnd
  | typeNotSupported (t : Nat)
  | rangeErr
  | outOfFuel
  deriving DecidableEq

/-- The closed set of supported type letters (`FieldTypes` in
`field-descriptor.ts`): C, N, F, L, D, I, M, T, B. -/
def FieldTypes : List Nat := [67, 78, 70, 76, 68, 73, 77, 84, 66]

/-- `validateFieldDescriptor(version, field)` from `field-descriptor.ts`,
check for check in source order (each `throw` exits early, hence the
else-chain). -/
def validateFieldDescriptor (version : Nat) (field : FieldDescriptor) : Except DbfErr Unit :=
  if field.name.length < 1 then .error .nameTooShort
  else if field.name.length > 10 then .error .nameTooLong
  else if ¬ (field.type ∈ FieldTypes) then .error .typeUnsupported
  else if field.size < 1 then .error .sizeTooSmall
  else if field.type = 67 ∧ field.size > 255 then .error .sizeTooLarge
  else if field.type = 78 ∧ field.size > 20 then .error .sizeTooLarge
  else if field.type = 70 ∧ field.size > 20 then .error .sizeTooLarge
  else if field.type = 76 ∧ field.size ≠ 1 then .error .sizeInvalid
  else if field.type = 68 ∧ field.size ≠ 8 then .error .sizeInvalid
  else if field.type = 77 ∧ field.size ≠ 10 then .error .sizeInvalid
  else if field.type = 84 ∧ field.size ≠ 8 then .error .sizeInvalid
  else if field.type = 66 ∧ field.size ≠ 8 then .error .sizeInvalid
  else
    match field.decimalPlaces with
    | none => .ok ()
    | some dcs =>
      if dcs ≠ 0 ∧ dcs > (if version = 139 then 18 else 15) then .error .decimalsTooLarge
      else .ok ()

/-- `validateFieldDescriptors` from `dbf-file.ts`. -/
def validateFieldDescriptors (version : Nat) (fields : List FieldDescriptor) : Except DbfErr Unit := do
  if fields.length > 2046 then throw .tooManyFields
  fields.forM (validateFieldDescriptor version)

/-- `calculateRecordLengthInBytes` from `dbf-file.ts`: one deleted-flag
byte plus the field sizes. -/
def calculateRecordLengthInBytes (fields : List FieldDescriptor) : Nat :=
  1 + (fields.map (·.size)).sum

/-- What passing validation guarantees.  Note: no size constraint for
type `I` (code 73) appears, because the source checks none. -/
theorem validateFieldDescriptor_ok_implies (version : Nat) (f : FieldDescriptor)
    (h : validateFieldDescriptor version f = .ok ()) :
    1 ≤ f.name.length ∧ f.name.length ≤ 10 ∧ f.type ∈ FieldTypes ∧ 1 ≤ f.size ∧
    (f.type = 67 → f.size ≤ 255) ∧ (f.type = 78 → f.size ≤ 20) ∧ (f.type = 70 → f.size ≤ 20) ∧
    (f.type = 76 → f.size = 1) ∧ (f.type = 68 → f.size = 8) ∧ (f.type = 77 → f.size = 10) ∧
    (f.type = 84 → f.size = 8) ∧ (f.type = 66 → f.size = 8) := by
  unfold validateFieldDescriptor at h
  by_cases h1 : f.name.length < 1
  · rw [if_pos h1] at h; exact Except.noConfusion h
  rw [if_neg h1] at h
  by_cases h2 : f.name.length > 10
  · rw [if_pos h2] at h; exact Except.noConfusion h
  rw [if_neg h2] at h
  by_cases h3 : ¬ (f.type ∈ FieldTypes)
  · rw [if_pos h3] at h; exact Except.noConfusion h
  rw [if_neg h3] at h
  by_cases h4 : f.size < 1
  · rw [if_pos h4] at h; exact Except.noConfusion h
  rw [if_neg h4] at h
  by_cases h5 : f.type = 67 ∧ f.size > 255
  · rw [if_pos h5] at h; exact Except.noConfusion h
  rw [if_neg h5] at h
  by_cases h6 : f.type = 78 ∧ f.size > 20
  · rw [if_pos h6] at h; exact Except.noConfusion h
  rw [if_neg h6] at h
  by_cases h7 : f.type = 70 ∧ f.size > 20
  · rw [if_pos h7] at h; exact Except.noConfusion h
  rw [if_neg h7] at h
  by_cases h8 : f.type = 76 ∧ f.size ≠ 1
  · rw [if_pos h8] at h; exact Except.noConfusion h
  rw [if_neg h8] at h
  by_cases h9 : f.type = 68 ∧ f.size ≠ 8
  · rw [if_pos h9] at h; exact Except.noConfusion h
  rw [if_neg h9] at h
  by_cases h10 : f.type = 77 ∧ f.size ≠ 10
  · rw [if_pos h10] at h; exact Except.noConfusion h
  rw [if_neg h10] at h
  by_cases h11 : f.type = 84 ∧ f.size ≠ 8
  · rw [if_pos h11] at h; exact Except.noConfusion h
  rw [if_neg h11] at h
  by_cases h12 : f.type = 66 ∧ f.size ≠ 8
  · rw [if_pos h12] at h; exact Except.noConfusion h
  rw [if_neg h12] at h
  exact ⟨by omega, by omega, not_not.mp h3, by omega, by omega, by omega, by omega,
    by omega, by omega, by omega, by omega, by omega⟩

theorem validateFieldDescriptor_I_ok (version : Nat) (name : JStr) (size : Nat)
    (hn1 : 1 ≤ name.length) (hn2 : name.length ≤ 10) (hs : 1 ≤ size) :
    validateFieldDescriptor version ⟨name, 73, size, none⟩ = .ok () := by
  unfold validateFieldDescriptor
  have hmem : ¬ ¬ ((73:Nat) ∈ FieldTypes) := by decide
  rw [if_neg (show ¬ (name.length < 1) by omega),
    if_neg (show ¬ (name.length > 10) by omega),
    if_neg hmem,
    if_neg (show ¬ (size < 1) by omega),
    if_neg (show ¬ ((73:Nat) = 67 ∧ size > 255) by omega),
    if_neg (show ¬ ((73:Nat) = 78 ∧ size > 20) by omega),
    if_neg (show ¬ ((73:Nat) = 70 ∧ size > 20) by omega),
    if_neg (show ¬ ((73:Nat) = 76 ∧ size ≠ 1) by omega),
    if_neg (show ¬ ((73:Nat) = 68 ∧ size ≠ 8) by omega),
    if_neg (show ¬ ((73:Nat) = 77 ∧ size ≠ 10) by omega),
    if_neg (show ¬ ((73:Nat) = 84 ∧ size ≠ 8) by omega),
    if_neg (show ¬ ((73:Nat) = 66 ∧ size ≠ 8) by omega)]

/-! ## Records, encoding resolution, record validation -/

/-- A record: JavaScript object mapping field names to values. -/
def RecordData := List (JStr × Value)

instance : DecidableEq RecordData := fun a b => List.hasDecEq a b

/-- `record[name]`: an absent key is `undefined`, which the library
treats exactly like `null`. -/
def recGet (r : RecordData) (n : JStr) : Value :=
  match r.find? (fun p => p.1 == n) with
  | some p => p.2
  | none => Value.vnull

/-- The `Encoding` option: a single label, or a per-field map with a
required default. -/
inductive EncodingOpt where
  | single (label : JStr)
  | perField (dflt : JStr) (m : List (JStr × JStr))
  deriving DecidableEq

/-- `getEncoding(encoding, field?)` from `dbf-file.ts`:
`encoding[field?.name ?? 'default'] || encoding.default` (a missing or
empty entry falls back to the default). -/
def getEncoding (enc : EncodingOpt) (field : Option FieldDescriptor) : JStr :=
  match enc with
  | .single l => l
  | .perField dflt m =>
    match field with
    | some f =>
      match m.find? (fun p => p.1 == f.name) with
      | some p => if p.2 = [] then dflt else p.2
      | none => dflt
    | none => dflt

/-- Per-field part of `validateRecord` from `dbf-file.ts`.  `vnum`,
`vnan` and `vdbl` are all JavaScript numbers, so all pass the
`typeof value === 'number'` check. -/
def validateRecordField (f : FieldDescriptor) (record : RecordData) : Except DbfErr Unit :=
  let value := recGet record f.name
  if value = .vnull then .ok ()
  else if f.type = 67 then
    match value with
    | .vstr s => if s.length > 255 then .error (.textTooLong f.name) else .ok ()
    | _ => .error (.valueTypeMismatch f.name)
  else if f.type = 78 ∨ f.type = 70 ∨ f.type = 73 then
    match value with
    | .vnum _ _ => .ok ()
    | .vnan => .ok ()
    | .vdbl _ => .ok ()
    | _ => .error (.valueTypeMismatch f.name)
  else if f.type = 68 then
    match value with
    | .vdate _ _ _ _ _ _ => .ok ()
    | _ => .error (.valueTypeMismatch f.name)
  else if f.type = 76 then
    match value with
    | .vbool _ => .ok ()
    | _ => .error (.valueTypeMismatch f.name)
  else .ok ()

/-- `validateRecord` from `dbf-file.ts`. -/
def validateRecord (fields : List FieldDescriptor) (record : RecordData) : Except DbfErr Unit :=
  fields.forM (validateRecordField · record)

/-! ## Encoding one record (`appendRecordsToDBF`, inner `switch`) -/

/-- One field's bytes as the append loop writes them.  The incoming
value has been defaulted: `null`/`undefined` became `''` before the
switch.  Paths that a validated record can never reach (for example a
boolean in an `N` field) return `rangeErr`. -/
def encodeFieldBytes (encLabel : JStr) (f : FieldDescriptor) (v0 : Value) : Except DbfErr (List Nat) :=
  let value := if v0 = .vnull then Value.vstr [] else v0
  if f.type = 67 then  -- 'C': encode, truncate to size, right-pad with 0x20
    match value with
    | .vstr s =>
      let b := iconvEncode encLabel s
      .ok ((List.range f.size).map fun k => if k < b.length then b.getD k 0 else 32)
    | _ => .error .rangeErr
  else if f.type = 78 ∨ f.type = 70 then  -- 'N'/'F': decimal string, left-truncate, left-pad
    match (match value with
      | .vstr [] => Except.ok ([] : JStr)
      | .vnum i e => Except.ok (jsNumToString i e)
      | .vnan => Except.ok [78, 97, 78]
      | _ => Except.error DbfErr.rangeErr) with
    | .error e => .error e
    | .ok s =>
      let s1 := s.take f.size
      let s2 := List.replicate (f.size - s1.length) 32 ++ s1
      let b := iconvEncode encLabel s2
      .ok (b.take f.size ++ List.replicate (f.size - b.length) 0)
  else if f.type = 76 then  -- 'L'
    match value with
    | .vstr [] => .ok [32]
    | .vbool true => .ok [84]
    | .vbool false => .ok [70]
    | _ => .error .rangeErr
  else if f.type = 84 then  -- 'T'
    match value with
    | .vstr [] => .ok (List.replicate 8 32)
    | .vdate y m d hh mi ss =>
      let p := formatVfpDateTime y m d hh mi ss
      if -2147483648 ≤ p.1 ∧ p.1 < 2147483648 ∧ -2147483648 ≤ p.2 ∧ p.2 < 2147483648 then
        .ok (writeInt32LEBytes p.1 ++ writeInt32LEBytes p.2)
      else .error .rangeErr
    | _ => .error .rangeErr
  else if f.type = 68 then  -- 'D'
    match value with
    | .vstr [] => .ok (List.replicate 8 32)
    | .vdate y m d _ _ _ =>
      if 0 ≤ y ∧ y ≤ 9999 ∧ 0 ≤ m ∧ m ≤ 99 ∧ 0 ≤ d ∧ d ≤ 99 then
        .ok (iconvEncode encLabel (format8CharDate y m d))
      else .error .rangeErr
    | _ => .error .rangeErr
  else if f.type = 66 then  -- 'B': IEEE bytes verbatim; `+'' = 0` for null
    match value with
    | .vdbl bits => if bits < 18446744073709551616 then .ok (leBytes 8 bits) else .error .rangeErr
    | .vstr [] => .ok (leBytes 8 0)
    | _ => .error .rangeErr
  else if f.type = 73 then  -- 'I': int32, after JS number coercion
    match value with
    | .vstr [] => .ok (writeInt32LEBytes 0)
    | .vnum i e =>
      if -2147483648 * (10:Int) ^ e ≤ i ∧ i ≤ 2147483647 * (10:Int) ^ e then
        .ok (writeInt32LEBytes (Int.tdiv i ((10:Int) ^ e)))
      else .error .rangeErr
    | _ => .error .rangeErr
  else if f.type = 77 then .error .memoWriteUnsupported  -- 'M'
  else .error (.typeNotSupported f.type)

/-- The full record frame the append loop writes: deleted flag `0x20`
followed by each field's bytes in declared order. -/
def encodeRecordFrame (encCfg : EncodingOpt) (fields : List FieldDescriptor)
    (record : RecordData) : Except DbfErr (List Nat) :=
  (fields.foldlM (fun acc f => do
    let b ← encodeFieldBytes (getEncoding encCfg (some f)) f (recGet record f.name)
    pure (acc ++ b)) ([] : List Nat)).map (32 :: ·)

/-! ## The file model and the append path (`appendRecordsToDBF`) -/

/-- `fs.write(fd, buffer, 0, data.len, pos)`: overwrite bytes at `pos`,
zero-filling any gap beyond the current end (sparse-file semantics). -/
def writeAt (file : List Nat) (pos : Nat) (data : List Nat) : List Nat :=
  file.take pos ++ List.replicate (pos - file.length) 0 ++ data ++ file.drop (pos + data.length)

/-- The persistent open state (`DBFFile` instance fields). -/
structure DBFFileState where
  recordCount : Nat
  fields : List FieldDescriptor
  loose : Bool
  encoding : EncodingOpt
  includeDeletedRecords : Bool
  recordsRead : Nat
  headerLength : Nat
  recordLength : Nat
  memoPresent : Bool
  version : Nat
  deriving DecidableEq

/-- The append loop: validate then write each record frame; stop at the
first error, leaving already-written frames on disk. -/
def appendRecordsGo (encCfg : EncodingOpt) (fields : List FieldDescriptor) (recordLength : Nat) :
    List RecordData → List Nat → Nat → List (Nat × List Nat) →
    List Nat × Nat × List (Nat × List Nat) × Option DbfErr
  | [], file, pos, trace => (file, pos, trace, none)
  | r :: rs, file, pos, trace =>
    match validateRecord fields r with
    | .error e => (file, pos, trace, some e)
    | .ok () =>
      match encodeRecordFrame encCfg fields r with
      | .error e => (file, pos, trace, some e)
      | .ok frame =>
        appendRecordsGo encCfg fields recordLength rs (writeAt file pos frame)
          (pos + recordLength) (trace ++ [(pos, frame)])

/-- `appendRecordsToDBF`: returns the final file, the write trace
(position, bytes written), and the updated handle or the thrown error.
The EOF marker and the new header record count are written only after
every record was written; on an error, both the in-memory and on-disk
record counts are untouched. -/
def appendRecordsToDBF (dbf : DBFFileState) (records : List RecordData) (file : List Nat) :
    List Nat × List (Nat × List Nat) × Except DbfErr DBFFileState :=
  let recordLength := calculateRecordLengthInBytes dbf.fields
  let pos0 := dbf.headerLength + dbf.recordCount * recordLength
  match appendRecordsGo dbf.encoding dbf.fields recordLength records file pos0 [] with
  | (file1, _, trace, some e) => (file1, trace, .error e)
  | (file1, pos1, trace, none) =>
    let file2 := writeAt file1 pos1 [26]
    let newCount := dbf.recordCount + records.length
    let file3 := writeAt file2 4 (writeInt32LEBytes newCount)
    (file3, trace ++ [(pos1, [26]), (4, writeInt32LEBytes newCount)],
      .ok { dbf with recordCount := newCount })

/-! ## File creation (`createDBF`) -/

/-- One 32-byte field descriptor as `createDBF` writes it: the
ISO-8859-1-encoded name NUL-padded to 11 bytes, the type letter, the
size and decimal count, work-area id 1 at offset 0x14, zeros elsewhere. -/
def descriptorBytes (f : FieldDescriptor) : List Nat :=
  iconvEncode latin1Label f.name ++ List.replicate (11 - f.name.length) 0
    ++ [f.type, 0, 0, 0, 0, f.size % 256, (f.decimalPlaces.getD 0) % 256,
        0, 0, 1, 0, 0, 0, 0, 0, 0, 0, 0, 0, 0, 0]

/-- `createDBF`: validate, then emit the 32-byte header, the field
descriptors, and the terminator/padding/EOF bytes `0x0D 0x00 0x1A`.
Bound checks model the `RangeError`s Node's `writeUIntNN` throw.
`nowYY/nowMM/nowDD` are the date bytes the source computes from `now`. -/
def createDBF (fields : List FieldDescriptor) (version : Nat) (encCfg : EncodingOpt)
    (nowYY nowMM nowDD : Nat) : Except DbfErr (List Nat × DBFFileState) := do
  match validateFieldDescriptors version fields with
  | .error e => throw e
  | .ok () =>
  if fields.any (fun f => f.type = 77) then throw .memoWriteUnsupported
  let headerLength := 34 + fields.length * 32
  let recordLength := calculateRecordLengthInBytes fields
  if headerLength ≥ 65536 ∨ recordLength ≥ 65536 then throw .rangeErr
  if fields.any (fun f => f.size > 255 ∨ f.decimalPlaces.getD 0 > 255) then throw .rangeErr
  let header := [version % 256, nowYY % 256, nowMM % 256, nowDD % 256]
      ++ leBytes 4 0 ++ leBytes 2 headerLength ++ leBytes 2 recordLength ++ List.replicate 20 0
  let file := header ++ (fields.map descriptorBytes).flatten ++ [13, 0, 26]
  pure (file, (⟨0, fields, false, encCfg, false, 0, headerLength, recordLength, false,
    version⟩ : DBFFileState))

/-! ## The read path (`readRecordsFromDBF`) -/

/-- `parseInt(s)` at radix 10: skip leading whitespace, optional sign,
then digits; `none` is `NaN`. -/
def parseIntJS (s : JStr) : Option Int :=
  let s0 := s.dropWhile (fun c => c == 32 || c == 9 || c == 10 || c == 13)
  let (neg, s1) : Bool × JStr :=
    if s0.head? = some 45 then (true, s0.tail)
    else if s0.head? = some 43 then (false, s0.tail)
    else (false, s0)
  let ds := s1.takeWhile isDigitCode
  if ds = [] then none
  else some (if neg then -(ofDigits (ds.map (· - 48)) : Int) else (ofDigits (ds.map (· - 48)) : Int))

/-- `fs.read(fd, buf, 0, len, pos)`: fill `buf` from the file; bytes past
end-of-file are unavailable, so the tail of the buffer keeps its previous
contents. -/
def fsReadInto (file : List Nat) (pos len : Nat) (buf : List Nat) : List Nat :=
  let avail := min len (file.length - pos)
  ((file.drop pos).take avail) ++ buf.drop avail

/-- Mutable memo-side state threaded through a read call: the reusable
block buffer, and the trace of byte offsets passed to `fs.read` on the
memo file. -/
structure MemoSt where
  buf : List Nat
  reads : List Int
  deriving DecidableEq

/-- The memo block loop from the `M` case of `readRecordsFromDBF`.
One iteration reads the block at `blockIndex`, then runs the
version-specific framing; only when the loop continues does it increment
the index and apply the overflow guard
`if (blockIndex * memoBlockSize > memoFileSize) throw`. -/
def memoLoop (version : Nat) (memo : List Nat) (blockSize fileSize : Nat) (encLabel : JStr) :
    Nat → Int → Int → List Nat → MemoSt → Except DbfErr (JStr × MemoSt)
  | 0, _, _, _, _ => .error .outOfFuel
  | fuel + 1, blockIndex, len, merged, mst =>
    if blockIndex * blockSize < 0 then .error .rangeErr
    else
      let buf := fsReadInto memo (blockIndex * blockSize).toNat blockSize mst.buf
      let mst' : MemoSt := ⟨buf, mst.reads ++ [blockIndex * blockSize]⟩
      let cont : Int → List Nat → Except DbfErr (JStr × MemoSt) := fun len' merged' =>
        if (blockIndex + 1) * blockSize > fileSize then .error .memoReadPastEnd
        else memoLoop version memo blockSize fileSize encLabel fuel (blockIndex + 1) len' merged' mst'
      if version = 131 then  -- dBase III 0x83: scan for a single 0x1A
        match buf.findIdx? (fun b => b == 26) with
        | some eos => .ok (iconvDecode encLabel (merged ++ buf.take eos), mst')
        | none => cont len (merged ++ buf.take blockSize)
      else if version = 139 then  -- dBase IV 0x8b: FF FF 08 00 then length
        let isFirst := readInt32LE buf 0 = 589823  -- 0x0008FFFF
        let len1 : Int := if isFirst then (readUInt32LE buf 4 : Int) - 8 else len
        let skip : Nat := if isFirst then 8 else 0
        let take : Int := min len1 ((blockSize : Int) - skip)
        let merged' := merged ++ (buf.drop skip).take take.toNat
        let len2 := len1 - take
        if len2 = 0 then .ok (iconvDecode encLabel merged', mst')
        else cont len2 merged'
      else if version = 48 then  -- VFP9 0x30: BE type and length
        if merged.length = 0 then
          if readInt32BE buf 0 ≠ 1 then .ok ([], mst')  -- not text: `break` with value ''
          else
            let len1 := readInt32BE buf 4
            let take : Int := min len1 ((blockSize : Int) - 8)
            let merged' := (buf.drop 8).take take.toNat
            let len2 := len1 - take
            if len2 = 0 then .ok (iconvDecode encLabel merged', mst')
            else cont len2 merged'
        else
          let take : Int := min len ((blockSize : Int) - 0)
          let merged' := merged ++ buf.take take.toNat
          let len2 := len - take
          if len2 = 0 then .ok (iconvDecode encLabel merged', mst')
          else cont len2 merged'
      else .error (.unsupportedVersion version)

/-- The memo environment available during one read call: memo file
bytes, block size, and `stat` file size. -/
structure MemoEnv where
  bytes : List Nat
  blockSize : Nat
  fileSize : Nat
  deriving DecidableEq

/-- Decode one field from the chunk buffer at `offset` (the per-type
`switch` of `readRecordsFromDBF`).  Returns `none` for fields the loose
mode skips (`continue`), otherwise the decoded value, together with the
next offset and memo state. -/
def decodeFieldValue (version : Nat) (loose : Bool) (encCfg : EncodingOpt)
    (memoEnv : Option MemoEnv) (chunk : List Nat) (offset : Nat) (f : FieldDescriptor)
    (mst : MemoSt) : Except DbfErr (Option Value × Nat × MemoSt) :=
  let encoding := getEncoding encCfg (some f)
  if f.type = 67 then  -- 'C': trim trailing 0x20 then transcode
    let raw := (chunk.drop offset).take f.size
    let trimmed := (raw.reverse.dropWhile (fun b => b == 32)).reverse
    .ok (some (.vstr (iconvDecode encoding trimmed)), offset + f.size, mst)
  else if f.type = 78 ∨ f.type = 70 then  -- 'N'/'F': skip leading 0x20, parseFloat
    let raw := (chunk.drop offset).take f.size
    let t := raw.dropWhile (fun b => b == 32)
    let v := if 0 < t.length then
        (match parseFloatJS (iconvDecode encoding t) with
         | some (i, e) => Value.vnum i e
         | none => Value.vnan)
      else Value.vnull
    .ok (some v, offset + f.size, mst)
  else if f.type = 76 then  -- 'L'
    let c := byteAt chunk offset
    .ok (some (if c = 84 ∨ c = 116 ∨ c = 89 ∨ c = 121 then .vbool true
      else if c = 70 ∨ c = 102 ∨ c = 78 ∨ c = 110 then .vbool false else .vnull),
      offset + 1, mst)
  else if f.type = 84 then  -- 'T': 0x20 → null; else two int32 LE, ms + 1
    let v := if byteAt chunk offset = 32 then Value.vnull
      else parseVfpDateTime (readInt32LE chunk offset) (readInt32LE chunk (offset + 4) + 1)
    .ok (some v, offset + 8, mst)
  else if f.type = 68 then  -- 'D'
    let v := if byteAt chunk offset = 32 then Value.vnull
      else parse8CharDate (iconvDecode encoding ((chunk.drop offset).take 8))
    .ok (some v, offset + 8, mst)
  else if f.type = 66 then  -- 'B': readDoubleLE, bit-for-bit
    let bits := readUInt32LE chunk offset + 4294967296 * readUInt32LE chunk (offset + 4)
    .ok (some (.vdbl bits), offset + f.size, mst)
  else if f.type = 73 then  -- 'I'
    .ok (some (.vnum (readInt32LE chunk offset) 0), offset + f.size, mst)
  else if f.type = 77 then  -- 'M'
    let biOpt : Option Int :=
      if version = 48 then some (readInt32LE chunk offset)
      else parseIntJS (iconvDecode encoding ((chunk.drop offset).take f.size))
    let offset' := offset + f.size
    match biOpt with
    | none => .ok (some .vnull, offset', mst)
    | some bi =>
      if bi = 0 then .ok (some .vnull, offset', mst)
      else
        match memoEnv with
        | none => .ok (none, offset', mst)  -- loose mode with missing memo: `continue`
        | some env =>
          match memoLoop version env.bytes env.blockSize env.fileSize encoding
              (env.fileSize + 2) bi f.size [] mst with
          | .error e => .error e
          | .ok (s, mst') => .ok (some (.vstr s), offset', mst')
  else
    if ¬ loose then .error (.typeNotSupported f.type)
    else .ok (none, offset + f.size, mst)

/-- Decode all fields of one record, threading the buffer offset (which
starts just after the deleted-flag byte) and the memo state. -/
def decodeFieldsGo (version : Nat) (loose : Bool) (encCfg : EncodingOpt)
    (memoEnv : Option MemoEnv) (chunk : List Nat) :
    List FieldDescriptor → Nat → MemoSt → List (JStr × Value) →
    Except DbfErr (List (JStr × Value) × Nat × MemoSt)
  | [], offset, mst, acc => .ok (acc, offset, mst)
  | f :: fs, offset, mst, acc =>
    match decodeFieldValue version loose encCfg memoEnv chunk offset f mst with
    | .error e => .error e
    | .ok (none, offset', mst') => decodeFieldsGo version loose encCfg memoEnv chunk fs offset' mst' acc
    | .ok (some v, offset', mst') =>
      decodeFieldsGo version loose encCfg memoEnv chunk fs offset' mst' (acc ++ [(f.name, v)])

/-- A decoded record: the name/value entries plus the `DELETED` marker. -/
structure RecOut where
  entries : List (JStr × Value)
  deleted : Bool
  deriving DecidableEq

/-- Parse `n` record frames from the chunk buffer.  The offset persists
across records exactly as in the source loop; a deleted record that is
not included advances the offset by the whole record length. -/
def parseChunk (version : Nat) (loose : Bool) (encCfg : EncodingOpt) (includeDel : Bool)
    (memoEnv : Option MemoEnv) (fields : List FieldDescriptor) (recordLength : Nat)
    (chunk : List Nat) :
    Nat → Nat → MemoSt → List RecOut → Except DbfErr (List RecOut × MemoSt)
  | 0, _, mst, acc => .ok (acc, mst)
  | n + 1, offset, mst, acc =>
    let isDeleted := byteAt chunk offset = 42
    if isDeleted ∧ ¬ includeDel then
      parseChunk version loose encCfg includeDel memoEnv fields recordLength chunk
        n (offset + recordLength) mst acc
    else
      match decodeFieldsGo version loose encCfg memoEnv chunk fields (offset + 1) mst [] with
      | .error e => .error e
      | .ok (entries, offset', mst') =>
        parseChunk version loose encCfg includeDel memoEnv fields recordLength chunk
          n offset' mst' (acc ++ [⟨entries, isDeleted⟩])

/-- The chunked read loop of `readRecordsFromDBF`: in each round read
`min(remaining-in-file, remaining-in-request, 1000)` frames, advance the
cursor by that many, and parse them.  On a parse error the cursor has
already advanced over the whole chunk, which the error carries. -/
def readLoop (dbf : DBFFileState) (file : List Nat) (memoEnv : Option MemoEnv) (maxCount : Nat) :
    Nat → Nat → List RecOut → MemoSt → Except (DbfErr × Nat) (List RecOut × Nat × MemoSt)
  | 0, recordsRead, _, _ => .error (.outOfFuel, recordsRead)
  | fuel + 1, recordsRead, records, mst =>
    let maxRecords1 := dbf.recordCount - recordsRead
    let maxRecords2 := maxCount - records.length
    let recordCountToRead := min (min maxRecords1 maxRecords2) 1000
    if recordCountToRead = 0 then .ok (records, recordsRead, mst)
    else
      let pos := dbf.headerLength + dbf.recordLength * recordsRead
      let chunk := (file.drop pos).take (dbf.recordLength * recordCountToRead)
      match parseChunk dbf.version dbf.loose dbf.encoding dbf.includeDeletedRecords memoEnv
          dbf.fields dbf.recordLength chunk recordCountToRead 0 mst records with
      | .error e => .error (e, recordsRead + recordCountToRead)
      | .ok (records', mst') => readLoop dbf file memoEnv maxCount fuel
          (recordsRead + recordCountToRead) records' mst'

/-- `readRecordsFromDBF`: block-size discovery on the memo file, then the
chunked loop.  Returns the records and the final handle state (with the
advanced cursor); an error carries the advanced cursor value. -/
def readRecordsFromDBF (dbf : DBFFileState) (file : List Nat) (memo : Option (List Nat))
    (maxCount : Nat) : Except (DbfErr × Nat) (List RecOut × DBFFileState) :=
  let envE : Except DbfErr (Option MemoEnv × MemoSt) :=
    match memo with
    | none => .ok (none, ⟨[], []⟩)
    | some mb =>
      let bs : Int :=
        if dbf.version = 48 then
          (if readUInt16BE mb 6 = 0 then 512 else readUInt16BE mb 6)
        else
          (let v := if dbf.version = 139 then readInt32LE mb 4 else 0
           if v = 0 then 512 else v)
      if bs < 0 then .error .rangeErr
      else .ok (some ⟨mb, bs.toNat, mb.length⟩, ⟨List.replicate bs.toNat 0, []⟩)
  match envE with
  | .error e => .error (e, dbf.recordsRead)
  | .ok (memoEnv, mst0) =>
    match readLoop dbf file memoEnv maxCount (dbf.recordCount + 1) dbf.recordsRead [] mst0 with
    | .error p => .error p
    | .ok (records, recordsRead', _) =>
      .ok (records, { dbf with recordsRead := recordsRead' })

/-! ## Opening a file (`openDBF`) -/

/-- Modelled from the spec: `isValidFileVersion` lives in
`file-version.ts`, which is not among the sources; spec §3 gives the
closed set {0x03, 0x83, 0x8B, 0x30}. -/
def isValidFileVersion (v : Nat) : Bool :=
  v = 3 || v = 131 || v = 139 || v = 48

/-- `buf.readInt16LE(i)`. -/
def readInt16LE (f : List Nat) (i : Nat) : Int :=
  let u := readUInt16LE f i
  if u < 32768 then (u : Int) else (u : Int) - 65536

/-- The field-descriptor parse loop of `openDBF`: while the header has
room, read the next 32 bytes; stop at a 0x0D byte; decode the name with
the configured data encoding (`getEncoding(options.encoding)` — not a
fixed ISO-8859-1); validate and reject duplicates unless loose. -/
def parseFieldsLoop (file : List Nat) (encLabel : JStr) (loose : Bool) (version : Nat)
    (headerLength : Int) : Nat → List FieldDescriptor → Except DbfErr (List FieldDescriptor)
  | 0, _ => .error .outOfFuel
  | fuel + 1, acc =>
    if headerLength > 32 + acc.length * 32 then
      let buffer := (file.drop (32 + acc.length * 32)).take 32
      if readUInt8 buffer 0 = 13 then .ok acc
      else
        let field : FieldDescriptor :=
          ⟨(iconvDecode encLabel (buffer.take 10)).takeWhile (· ≠ 0),
            byteAt buffer 11, readUInt8 buffer 16, some (readUInt8 buffer 17)⟩
        if ¬ loose then
          match validateFieldDescriptor version field with
          | .error e => .error e
          | .ok () =>
            if acc.any (fun f => f.name == field.name) then .error (.duplicateField field.name)
            else parseFieldsLoop file encLabel loose version headerLength fuel (acc ++ [field])
        else parseFieldsLoop file encLabel loose version headerLength fuel (acc ++ [field])
    else .ok acc

/-- `openDBF`: header fields, version check, memo location (the `stat`
probe is abstracted to `memoFound`), descriptor parse, terminator and
record-length checks.  The cursor `recordsRead` starts at 0. -/
def openDBF (file : List Nat) (encCfg : EncodingOpt) (loose : Bool) (includeDel : Bool)
    (memoFound : Bool) : Except DbfErr DBFFileState :=
  let fileVersion := readUInt8 file 0
  let recordCount := readInt32LE file 4
  let headerLength := readInt16LE file 8
  let recordLength := readInt16LE file 10
  if ¬ loose ∧ ¬ isValidFileVersion fileVersion then .error (.unsupportedVersion fileVersion)
  else
    let memoPresent := ((fileVersion = 131 ∨ fileVersion = 139 ∨ fileVersion = 48) ∧ memoFound)
    if (fileVersion = 131 ∨ fileVersion = 139) ∧ ¬ loose ∧ ¬ memoFound then .error .missingMemoFile
    else
      match parseFieldsLoop file (getEncoding encCfg none) loose fileVersion headerLength
          (headerLength.toNat + 1) [] with
      | .error e => .error e
      | .ok fields =>
        if readUInt8 file (32 + fields.length * 32) ≠ 13 then .error .badTerminator
        else
          let computed := calculateRecordLengthInBytes fields
          let recordLength' : Int := if loose then (computed : Int) else recordLength
          if recordLength' ≠ (computed : Int) then .error .wrongRecordLength
          else .ok ⟨recordCount.toNat, fields, loose, encCfg, includeDel, 0,
            headerLength.toNat, computed, memoPresent, fileVersion⟩

/-! ## Byte-access helper lemmas -/

theorem byteAt_append_right (a b : List Nat) (i : Nat) :
    byteAt (a ++ b) (a.length + i) = byteAt b i := by
  unfold byteAt
  rw [List.getD_append_right a b 0 (a.length + i) (by omega)]
  congr 1
  omega

theorem byteAt_append_left (a b : List Nat) (i : Nat) (h : i < a.length) :
    byteAt (a ++ b) i = byteAt a i :=
  List.getD_append a b 0 i h

theorem byteAt_drop (l : List Nat) (n k : Nat) : byteAt (l.drop n) k = byteAt l (n + k) := by
  unfold byteAt
  simp [List.getD, List.getElem?_drop]

theorem byteAt_take (l : List Nat) (t k : Nat) (h : k < t) :
    byteAt (l.take t) k = byteAt l k := by
  unfold byteAt
  rcases Nat.lt_or_ge k l.length with hk | hk
  · simp [List.getD, List.getElem?_take, h]
  · have h1 : l[k]? = none := List.getElem?_eq_none hk
    have h2 : (l.take t)[k]? = none := List.getElem?_eq_none (by simp; omega)
    simp [List.getD, h1, h2]

theorem drop_take_drop (l : List Nat) (p t o : Nat) :
    ((l.drop p).take t).drop o = (l.drop (p + o)).take (t - o) := by
  rw [List.drop_take, List.drop_drop]

/-- Bytes written by `writeAt` read back as written. -/
theorem byteAt_writeAt_inside (file : List Nat) (pos : Nat) (data : List Nat) (i : Nat)
    (h : i < data.length) (hpos : pos <= file.length) :
    byteAt (writeAt file pos data) (pos + i) = byteAt data i := by
  unfold writeAt
  rw [List.append_assoc, List.append_assoc]
  have hlen : pos = (file.take pos).length := by simp; omega
  have hrep : (List.replicate (pos - file.length) 0 : List Nat) = [] := by
    rw [List.replicate_eq_nil_iff]; omega
  rw [hrep, List.nil_append]
  rw [show pos + i = (file.take pos).length + i by omega]
  rw [byteAt_append_right]
  exact byteAt_append_left _ _ i h

/-- Bytes before the written region are unchanged. -/
theorem byteAt_writeAt_before (file : List Nat) (pos : Nat) (data : List Nat) (i : Nat)
    (h : i < pos) (hpos : pos <= file.length) :
    byteAt (writeAt file pos data) i = byteAt file i := by
  unfold writeAt
  rw [List.append_assoc, List.append_assoc]
  rw [byteAt_append_left _ _ i (by simp; omega)]
  exact byteAt_take file pos i h

theorem writeAt_length (file : List Nat) (pos : Nat) (data : List Nat) (h : pos <= file.length) :
    (writeAt file pos data).length = max file.length (pos + data.length) := by
  unfold writeAt
  simp
  omega

/-! ## Claim C5: the per-type size table of field validation -/

/-- C5 (amended): `validateFieldDescriptor` enforces the per-type size
table for C (1–255), N/F (1–20), L (exactly 1), D (exactly 8), M
(exactly 10), T (exactly 8) and B (exactly 8); but, contrary to the
claim, it enforces no size bound at all for type I (code 73): any
type-I descriptor with a well-formed name and size ≥ 1 passes. -/
theorem c5_validation_size_table :
    (∀ (version : Nat) (f : FieldDescriptor), validateFieldDescriptor version f = .ok () →
      (f.type = 67 → 1 ≤ f.size ∧ f.size ≤ 255) ∧
      (f.type = 78 → 1 ≤ f.size ∧ f.size ≤ 20) ∧
      (f.type = 70 → 1 ≤ f.size ∧ f.size ≤ 20) ∧
      (f.type = 76 → f.size = 1) ∧
      (f.type = 68 → f.size = 8) ∧
      (f.type = 77 → f.size = 10) ∧
      (f.type = 84 → f.size = 8) ∧
      (f.type = 66 → f.size = 8)) ∧
    (∀ (version : Nat) (name : JStr) (size : Nat), 1 ≤ name.length → name.length ≤ 10 →
      1 ≤ size → validateFieldDescriptor version ⟨name, 73, size, none⟩ = .ok ()) := by
  constructor
  · intro version f h
    obtain ⟨_, _, _, h4, h5, h6, h7, h8, h9, h10, h11, h12⟩ :=
      validateFieldDescriptor_ok_implies version f h
    exact ⟨fun ht => ⟨h4, h5 ht⟩, fun ht => ⟨h4, h6 ht⟩, fun ht => ⟨h4, h7 ht⟩,
      h8, h9, h10, h11, h12⟩
  · exact validateFieldDescriptor_I_ok

/-- C5 witness: a concrete type-I descriptor of size 9 passes, and a
concrete type-L descriptor that passes has size 1. -/
theorem c5_witness :
    validateFieldDescriptor 3 ⟨[65, 66], 73, 9, none⟩ = .ok () ∧
    ((⟨[65], 76, 1, none⟩ : FieldDescriptor).type = 76 →
      (⟨[65], 76, 1, none⟩ : FieldDescriptor).size = 1) :=
  ⟨c5_validation_size_table.2 3 [65, 66] 9 (by decide) (by decide) (by decide),
   (c5_validation_size_table.1 3 ⟨[65], 76, 1, none⟩ (by rfl)).2.2.2.1⟩

/-- C5 counterexample: a type-I descriptor of size 7 — not 4 — passes
validation, refuting "for every field descriptor of type I, validation
fails unless size = 4". -/
theorem c5_counterexample :
    validateFieldDescriptor 3 ⟨[65], 73, 7, none⟩ = .ok () ∧ (7 : Nat) ≠ 4 :=
  ⟨by rfl, by decide⟩

/-! ## Claim C2: decoding a `T` (VFP datetime) frame -/

/-- C2 (amended): on a `T` field the decoder reads two little-endian
int32s and computes the civil date from the julian day by exactly the
Hatcher integer algorithm of the spec, and a leading byte 0x20 yields
null — but the hours/minutes/seconds formulas are applied to
`ms_since_midnight + 1`, not to the value as read from the frame. -/
theorem c2_t_decode (version : Nat) (loose : Bool) (encCfg : EncodingOpt)
    (memoEnv : Option MemoEnv) (chunk : List Nat) (offset : Nat)
    (f : FieldDescriptor) (mst : MemoSt) (hf : f.type = 84) :
    (byteAt chunk offset = 32 →
      decodeFieldValue version loose encCfg memoEnv chunk offset f mst =
        .ok (some .vnull, offset + 8, mst)) ∧
    (byteAt chunk offset ≠ 32 →
      decodeFieldValue version loose encCfg memoEnv chunk offset f mst =
        .ok (some (
          let J : Int := readInt32LE chunk offset
          let ms : Int := readInt32LE chunk (offset + 4) + 1
          let s1 : Int := J + 68569
          let n : Int := 4 * s1 / 146097
          let s2 : Int := s1 - (146097 * n + 3) / 4
          let i : Int := 4000 * (s2 + 1) / 1461001
          let s3 : Int := s2 - 1461 * i / 4 + 31
          let q : Int := 80 * s3 / 2447
          let s4 : Int := q / 11
          Value.vdate (100 * (n - 49) + i + s4) (q + 2 - 12 * s4) (s3 - 2447 * q / 80)
            (ms / 3600000) (ms % 3600000 / 60000) (ms % 60000 / 1000)),
          offset + 8, mst)) := by
  constructor
  · intro h32
    simp only [decodeFieldValue, hf]
    norm_num [h32]
  · intro h32
    simp only [decodeFieldValue, hf]
    norm_num [h32]
    rfl

/-- C2 witness: the stored pair (julian 2440588, ms 999) decodes to
1970-01-01 00:00:01 UTC (the stored 999 ms became 1000, hence one whole
second), and the frame's leading byte is not 0x20. -/
theorem c2_witness :
    decodeFieldValue 48 false (.single latin1Label) none
        (writeInt32LEBytes 2440588 ++ writeInt32LEBytes 999) 0 ⟨[69], 84, 8, none⟩ ⟨[], []⟩ =
      .ok (some (Value.vdate 1970 1 1 0 0 1), 8, ⟨[], []⟩) := by
  have h := (c2_t_decode 48 false (.single latin1Label) none
    (writeInt32LEBytes 2440588 ++ writeInt32LEBytes 999) 0 ⟨[69], 84, 8, none⟩ ⟨[], []⟩ rfl).2
    (by decide)
  rw [h]
  rfl

/-- C2 counterexample: the claim derives seconds from the ms value as
read.  For the frame storing (julian 2440588, ms 999) the code yields
seconds 1, while the claim's formula `floor((ms mod 60000)/1000)` on the
value as read (999) yields 0. -/
theorem c2_counterexample :
    decodeFieldValue 48 false (.single latin1Label) none
        (writeInt32LEBytes 2440588 ++ writeInt32LEBytes 999) 0 ⟨[69], 84, 8, none⟩ ⟨[], []⟩ =
      .ok (some (Value.vdate 1970 1 1 0 0 1), 8, ⟨[], []⟩) ∧
    readInt32LE (writeInt32LEBytes 2440588 ++ writeInt32LEBytes 999) 4 = 999 ∧
    (999 : Int) % 60000 / 1000 = 0 ∧ (0 : Int) ≠ 1 :=
  ⟨by rfl, by rfl, by decide, by decide⟩

/-! ## Claim C3: field-name encoding on open and create -/

theorem iconvEncode_latin1 (s : JStr) : iconvEncode latin1Label s = s.map latin1EncChar := by
  unfold iconvEncode
  rw [if_neg (by decide), if_neg (by decide)]

theorem descriptorBytes_length (f : FieldDescriptor) (h : f.name.length ≤ 11) :
    (descriptorBytes f).length = 32 := by
  unfold descriptorBytes
  rw [iconvEncode_latin1]
  simp
  omega

/-- The descriptor the open loop builds from the 32 bytes at `base`. -/
def parsedFieldAt (file : List Nat) (encLabel : JStr) (base : Nat) : FieldDescriptor :=
  ⟨(iconvDecode encLabel (((file.drop base).take 32).take 10)).takeWhile (· ≠ 0),
    byteAt ((file.drop base).take 32) 11, readUInt8 ((file.drop base).take 32) 16,
    some (readUInt8 ((file.drop base).take 32) 17)⟩

theorem parseFieldsLoop_succ (file : List Nat) (encLabel : JStr) (loose : Bool)
    (version : Nat) (headerLength : Int) (fuel : Nat) (acc : List FieldDescriptor) :
    parseFieldsLoop file encLabel loose version headerLength (fuel + 1) acc =
    (if headerLength > 32 + acc.length * 32 then
      if readUInt8 ((file.drop (32 + acc.length * 32)).take 32) 0 = 13 then .ok acc
      else
        if ¬ loose then
          match validateFieldDescriptor version
              (parsedFieldAt file encLabel (32 + acc.length * 32)) with
          | .error e => .error e
          | .ok () =>
            if acc.any (fun f =>
                f.name == (parsedFieldAt file encLabel (32 + acc.length * 32)).name) then
              .error (.duplicateField (parsedFieldAt file encLabel (32 + acc.length * 32)).name)
            else parseFieldsLoop file encLabel loose version headerLength fuel
              (acc ++ [parsedFieldAt file encLabel (32 + acc.length * 32)])
        else parseFieldsLoop file encLabel loose version headerLength fuel
          (acc ++ [parsedFieldAt file encLabel (32 + acc.length * 32)])
     else .ok acc) := rfl

/-- Every field the open loop returns has its name decoded, with the
loop's encoding label, from the 10 name bytes of its own descriptor. -/
theorem parseFieldsLoop_names (file : List Nat) (encLabel : JStr) (loose : Bool)
    (version : Nat) (headerLength : Int) :
    ∀ (fuel : Nat) (acc fields : List FieldDescriptor),
      parseFieldsLoop file encLabel loose version headerLength fuel acc = .ok fields →
      (∀ (k : Nat) (f : FieldDescriptor), acc[k]? = some f →
        f.name = (iconvDecode encLabel ((file.drop (32 + k * 32)).take 10)).takeWhile (· ≠ 0)) →
      ∀ (k : Nat) (f : FieldDescriptor), fields[k]? = some f →
        f.name = (iconvDecode encLabel ((file.drop (32 + k * 32)).take 10)).takeWhile (· ≠ 0) := by
  intro fuel
  induction fuel with
  | zero =>
    intro acc fields h
    exact absurd h (by simp [parseFieldsLoop])
  | succ fuel ih =>
    intro acc fields h hacc
    rw [parseFieldsLoop_succ] at h
    by_cases h1 : headerLength > 32 + acc.length * 32
    case neg =>
      rw [if_neg h1] at h
      cases h
      exact hacc
    rw [if_pos h1] at h
    by_cases h2 : readUInt8 ((file.drop (32 + acc.length * 32)).take 32) 0 = 13
    case pos =>
      rw [if_pos h2] at h
      cases h
      exact hacc
    rw [if_neg h2] at h
    have hnew : ∀ (k : Nat) (f : FieldDescriptor),
        (acc ++ [parsedFieldAt file encLabel (32 + acc.length * 32)])[k]? = some f →
        f.name = (iconvDecode encLabel ((file.drop (32 + k * 32)).take 10)).takeWhile (· ≠ 0) := by
      intro k f hk
      rcases Nat.lt_trichotomy k acc.length with hlt | heq | hgt
      · rw [List.getElem?_append, if_pos hlt] at hk
        exact hacc k f hk
      · subst heq
        rw [List.getElem?_concat_length] at hk
        cases hk
        show (parsedFieldAt file encLabel (32 + acc.length * 32)).name = _
        unfold parsedFieldAt
        rw [List.take_take]
        norm_num
      · rw [List.getElem?_eq_none (by simp; omega)] at hk
        exact Option.noConfusion hk
    by_cases h3 : ¬ loose
    case neg =>
      rw [if_neg h3] at h
      exact ih _ _ h hnew
    rw [if_pos h3] at h
    cases hval : validateFieldDescriptor version (parsedFieldAt file encLabel (32 + acc.length * 32)) with
    | error e =>
      rw [hval] at h
      exact Except.noConfusion h
    | ok u =>
      cases u
      rw [hval] at h
      by_cases h4 : acc.any (fun f =>
          f.name == (parsedFieldAt file encLabel (32 + acc.length * 32)).name)
      · rw [if_pos h4] at h
        exact Except.noConfusion h
      · rw [if_neg h4] at h
        exact ih _ _ h hnew

theorem forM_except_ok (g : FieldDescriptor → Except DbfErr Unit) :
    ∀ (l : List FieldDescriptor), l.forM g = .ok () → ∀ x ∈ l, g x = .ok () := by
  intro l
  induction l with
  | nil => intro _ x hx; cases hx
  | cons a l ih =>
    intro h x hx
    have hstep : (a :: l).forM g = g a >>= fun _ => l.forM g := rfl
    rw [hstep] at h
    cases hga : g a with
    | error e =>
      rw [hga] at h
      exact Except.noConfusion h
    | ok u =>
      cases u
      rw [hga] at h
      simp only [bind, Except.bind] at h
      rcases List.mem_cons.mp hx with hxa | hxl
      · rw [hxa]; exact hga
      · exact ih h x hxl

theorem validateFieldDescriptors_ok (version : Nat) (fields : List FieldDescriptor)
    (h : validateFieldDescriptors version fields = .ok ()) :
    ∀ f ∈ fields, validateFieldDescriptor version f = .ok () := by
  unfold validateFieldDescriptors at h
  by_cases h1 : fields.length > 2046
  · simp only [h1, if_true, throw, throwThe, MonadExceptOf.throw, bind, Except.bind] at h
    exact Except.noConfusion h
  · simp only [h1, if_false, pure, bind, Except.bind, Except.pure] at h
    exact forM_except_ok _ fields h

/-- What a successful `openDBF` guarantees about the returned state. -/
theorem openDBF_ok (file : List Nat) (encCfg : EncodingOpt) (loose includeDel memoFound : Bool)
    (st : DBFFileState) (h : openDBF file encCfg loose includeDel memoFound = .ok st) :
    parseFieldsLoop file (getEncoding encCfg none) loose (readUInt8 file 0)
      (readInt16LE file 8) ((readInt16LE file 8).toNat + 1) [] = .ok st.fields ∧
    st.recordsRead = 0 ∧ st.recordCount = (readInt32LE file 4).toNat ∧
    st.headerLength = (readInt16LE file 8).toNat ∧
    st.recordLength = calculateRecordLengthInBytes st.fields ∧
    st.loose = loose ∧ st.encoding = encCfg ∧
    st.includeDeletedRecords = includeDel ∧ st.version = readUInt8 file 0 ∧
    readUInt8 file (32 + st.fields.length * 32) = 13 := by
  unfold openDBF at h
  by_cases h1 : ¬ loose ∧ ¬ isValidFileVersion (readUInt8 file 0)
  · rw [if_pos h1] at h; exact Except.noConfusion h
  rw [if_neg h1] at h
  by_cases h2 : (readUInt8 file 0 = 131 ∨ readUInt8 file 0 = 139) ∧ ¬ loose ∧ ¬ memoFound
  · rw [if_pos h2] at h; exact Except.noConfusion h
  rw [if_neg h2] at h
  cases hp : parseFieldsLoop file (getEncoding encCfg none) loose (readUInt8 file 0)
      (readInt16LE file 8) ((readInt16LE file 8).toNat + 1) [] with
  | error e =>
    rw [hp] at h
    dsimp only [] at h
    exact Except.noConfusion h
  | ok fields =>
    rw [hp] at h
    dsimp only [] at h
    by_cases h3 : readUInt8 file (32 + fields.length * 32) ≠ 13
    · rw [if_pos h3] at h; exact Except.noConfusion h
    rw [if_neg h3] at h
    by_cases h4 : (if loose then ((calculateRecordLengthInBytes fields : Nat) : Int)
        else readInt16LE file 10) ≠ (calculateRecordLengthInBytes fields : Int)
    · rw [if_pos h4] at h; exact Except.noConfusion h
    rw [if_neg h4] at h
    rw [Except.ok.injEq] at h
    subst h
    dsimp only []
    exact ⟨rfl, rfl, rfl, rfl, rfl, rfl, rfl, rfl, rfl, not_not.mp h3⟩

/-- What a successful `createDBF` guarantees: validation passed and the
file is header ++ descriptors ++ terminator bytes. -/
theorem createDBF_ok (fields : List FieldDescriptor) (version : Nat) (encCfg : EncodingOpt)
    (yy mm dd : Nat) (file : List Nat) (st : DBFFileState)
    (h : createDBF fields version encCfg yy mm dd = .ok (file, st)) :
    validateFieldDescriptors version fields = .ok () ∧
    34 + fields.length * 32 < 65536 ∧ calculateRecordLengthInBytes fields < 65536 ∧
    file = ([version % 256, yy % 256, mm % 256, dd % 256] ++ leBytes 4 0
        ++ leBytes 2 (34 + fields.length * 32)
        ++ leBytes 2 (calculateRecordLengthInBytes fields) ++ List.replicate 20 0)
      ++ (fields.map descriptorBytes).flatten ++ [13, 0, 26] ∧
    st = ⟨0, fields, false, encCfg, false, 0, 34 + fields.length * 32,
      calculateRecordLengthInBytes fields, false, version⟩ := by
  unfold createDBF at h
  cases hval : validateFieldDescriptors version fields with
  | error e =>
    rw [hval] at h
    dsimp only [] at h
    simp only [throw, throwThe, MonadExceptOf.throw] at h
    exact Except.noConfusion h
  | ok u =>
    cases u
    rw [hval] at h
    dsimp only [] at h
    by_cases h1 : fields.any (fun f => f.type = 77)
    · simp only [h1, if_true, throw, throwThe, MonadExceptOf.throw, bind, Except.bind] at h
      exact Except.noConfusion h
    · simp only [h1, if_false, Bool.false_eq_true, pure, bind, Except.bind, Except.pure] at h
      by_cases h2 : 34 + fields.length * 32 ≥ 65536 ∨ calculateRecordLengthInBytes fields ≥ 65536
      · simp only [h2, if_true, throw, throwThe, MonadExceptOf.throw, bind, Except.bind] at h
        exact Except.noConfusion h
      · simp only [h2, if_false, pure, bind, Except.bind, Except.pure] at h
        by_cases h3 : fields.any (fun f => f.size > 255 ∨ f.decimalPlaces.getD 0 > 255)
        · simp only [h3, if_true, throw, throwThe, MonadExceptOf.throw, bind, Except.bind] at h
          exact Except.noConfusion h
        · simp only [h3, if_false, Bool.false_eq_true, pure, bind, Except.bind, Except.pure] at h
          rw [Except.ok.injEq] at h
          have hfile : file = _ := congrArg Prod.fst h.symm
          have hst : st = _ := congrArg Prod.snd h.symm
          refine ⟨rfl, by omega, by omega, ?_, ?_⟩
          · rw [hfile]
          · rw [hst]

/-- Indexing the flattened descriptor area: dropping `k * 32` bytes
lands at the start of descriptor `k`. -/
theorem drop_flatten_descriptors :
    ∀ (fs : List FieldDescriptor) (k : Nat) (f : FieldDescriptor) (suffix : List Nat),
      (∀ g ∈ fs, (descriptorBytes g).length = 32) → fs[k]? = some f →
      ((fs.map descriptorBytes).flatten ++ suffix).drop (k * 32) =
        descriptorBytes f ++ (((fs.drop (k + 1)).map descriptorBytes).flatten ++ suffix) := by
  intro fs
  induction fs with
  | nil =>
    intro k f suffix _ hk
    simp at hk
  | cons g gs ih =>
    intro k f suffix hlen hk
    cases k with
    | zero =>
      simp only [List.getElem?_cons_zero, Option.some.injEq] at hk
      subst hk
      simp [List.append_assoc]
    | succ k =>
      simp only [List.map_cons, List.flatten_cons]
      have hg : (descriptorBytes g).length = 32 := hlen g (by simp)
      rw [List.append_assoc, show (k + 1) * 32 = (descriptorBytes g).length + k * 32 by omega,
        List.drop_append]
      simpa using ih k f suffix (fun g' hg' => hlen g' (by simp [hg'])) (by simpa using hk)

/-- C3 (amended): on `open`, the descriptor name bytes are decoded with
the configured data encoding (`getEncoding(options.encoding)`), not a
fixed ISO-8859-1; on `create`, the name bytes written into each
descriptor are the ISO-8859-1 encoding of the name, NUL-padded. -/
theorem c3_field_name_encoding :
    (∀ (file : List Nat) (encCfg : EncodingOpt) (loose includeDel memoFound : Bool)
        (st : DBFFileState), openDBF file encCfg loose includeDel memoFound = .ok st →
      ∀ (k : Nat) (f : FieldDescriptor), st.fields[k]? = some f →
        f.name = (iconvDecode (getEncoding encCfg none)
          ((file.drop (32 + k * 32)).take 10)).takeWhile (· ≠ 0)) ∧
    (∀ (fields : List FieldDescriptor) (version : Nat) (encCfg : EncodingOpt)
        (yy mm dd : Nat) (file : List Nat) (st : DBFFileState),
      createDBF fields version encCfg yy mm dd = .ok (file, st) →
      ∀ (k : Nat) (f : FieldDescriptor), fields[k]? = some f →
        (file.drop (32 + k * 32)).take 11 =
          iconvEncode latin1Label f.name ++ List.replicate (11 - f.name.length) 0) := by
  constructor
  · intro file encCfg loose includeDel memoFound st h k f hk
    obtain ⟨hp, -⟩ := openDBF_ok file encCfg loose includeDel memoFound st h
    exact parseFieldsLoop_names file (getEncoding encCfg none) loose (readUInt8 file 0)
      (readInt16LE file 8) ((readInt16LE file 8).toNat + 1) [] st.fields hp
      (by intro k f hk; simp at hk) k f hk
  · intro fields version encCfg yy mm dd file st h k f hk
    obtain ⟨hval, -, -, hfile, -⟩ := createDBF_ok fields version encCfg yy mm dd file st h
    have hmem : f ∈ fields := List.getElem?_mem hk
    have hfok := validateFieldDescriptors_ok version fields hval f hmem
    have hname : f.name.length ≤ 10 := (validateFieldDescriptor_ok_implies version f hfok).2.1
    have hlens : ∀ g ∈ fields, (descriptorBytes g).length = 32 := by
      intro g hg
      exact descriptorBytes_length g
        (le_trans (validateFieldDescriptors_ok version fields hval g hg |>
          validateFieldDescriptor_ok_implies version g |>.2.1) (by omega))
    have hhdr : ([version % 256, yy % 256, mm % 256, dd % 256] ++ leBytes 4 0
        ++ leBytes 2 (34 + fields.length * 32)
        ++ leBytes 2 (calculateRecordLengthInBytes fields) ++ List.replicate 20 0).length = 32 := by
      simp [leBytes_length]
    rw [hfile, List.append_assoc, show 32 + k * 32 = ([version % 256, yy % 256, mm % 256, dd % 256]
        ++ leBytes 4 0 ++ leBytes 2 (34 + fields.length * 32)
        ++ leBytes 2 (calculateRecordLengthInBytes fields) ++ List.replicate 20 0).length + k * 32
      by rw [hhdr], List.drop_append]
    rw [drop_flatten_descriptors fields k f [13, 0, 26] hlens hk]
    unfold descriptorBytes
    rw [List.append_assoc]
    refine List.take_left' ?_
    rw [iconvEncode_latin1]
    simp
    omega

/-- A concrete 69-byte version-0x03 file: one C(1) field whose
descriptor name byte is 0xA1, one record. -/
def c3file : List Nat :=
  [3, 114, 4, 14] ++ leBytes 4 1 ++ leBytes 2 66 ++ leBytes 2 2 ++ List.replicate 20 0
  ++ descriptorBytes ⟨[161], 67, 1, none⟩
  ++ [13, 0] ++ [32, 65] ++ [26]

/-- C3 witness: on the concrete file, opening with the tis620 data
encoding yields the name decoded via tis620 (0xA1 ↦ U+0E01), and a
created file carries the ISO-8859-1 bytes of the name. -/
theorem c3_witness :
    (([3585] : JStr) = (iconvDecode (getEncoding (.single tis620Label) none)
      ((c3file.drop (32 + 0 * 32)).take 10)).takeWhile (· ≠ 0)) ∧
    ((((createDBF [⟨[161], 67, 1, none⟩] 3 (.single tis620Label) 1 2 3).toOption.getD
          ([], ⟨0, [], false, .single [], false, 0, 0, 0, false, 0⟩)).1.drop (32 + 0 * 32)).take 11 =
      iconvEncode latin1Label [161] ++ List.replicate (11 - ([161] : JStr).length) 0) :=
  ⟨c3_field_name_encoding.1 c3file (.single tis620Label) false false false
      ⟨1, [⟨[3585], 67, 1, some 0⟩], false, .single tis620Label, false, 0, 66, 2, false, 3⟩
      (by rfl) 0 ⟨[3585], 67, 1, some 0⟩ (by rfl),
   c3_field_name_encoding.2 [⟨[161], 67, 1, none⟩] 3 (.single tis620Label) 1 2 3
      ((createDBF [⟨[161], 67, 1, none⟩] 3 (.single tis620Label) 1 2 3).toOption.getD
          ([], ⟨0, [], false, .single [], false, 0, 0, 0, false, 0⟩)).1
      ((createDBF [⟨[161], 67, 1, none⟩] 3 (.single tis620Label) 1 2 3).toOption.getD
          ([], ⟨0, [], false, .single [], false, 0, 0, 0, false, 0⟩)).2
      (by rfl) 0 ⟨[161], 67, 1, none⟩ (by rfl)⟩

/-- C3 counterexample: the same concrete file opened with the tis620
data encoding yields field name [0x0E01], but ISO-8859-1 decoding of the
name bytes yields [0xA1]; the name decode depends on the data encoding,
refuting "decoded via ISO-8859-1 regardless of the encoding option
supplied for the data". -/
theorem c3_counterexample :
    (openDBF c3file (.single tis620Label) false false false).map (fun st =>
      st.fields.map (fun f => f.name)) = .ok [[3585]] ∧
    iconvDecode latin1Label [161] = [161] ∧ ([3585] : JStr) ≠ [161] :=
  ⟨by rfl, by rfl, by decide⟩

/-! ## Claim C4: the memo overflow guard -/

/-- C4 (amended): in every successful memo lookup the block named by the
record is read unguarded — its starting offset `block_index * block_size`
is passed to `fs.read` unconditionally, even at or past end-of-file —
and the guard (`>` after incrementing the index) only stops the loop
from continuing to a block that starts strictly past end-of-file: every
read after the first is at an offset ≤ the memo file size. -/
theorem c4_memo_guard (version : Nat) (memo : List Nat) (blockSize fileSize : Nat)
    (encLabel : JStr) :
    ∀ (fuel : Nat) (blockIndex len : Int) (merged : List Nat) (mst : MemoSt)
      (out : JStr × MemoSt),
      memoLoop version memo blockSize fileSize encLabel fuel blockIndex len merged mst =
        .ok out →
      ∃ new : List Int, out.2.reads = mst.reads ++ new ∧
        new.head? = some (blockIndex * blockSize) ∧
        ∀ p ∈ new.tail, p ≤ (fileSize : Int) := by
  intro fuel
  induction fuel with
  | zero =>
    intro bi len merged mst out h
    exact absurd h (by simp [memoLoop])
  | succ fuel ih =>
    intro bi len merged mst out h
    rw [memoLoop] at h
    dsimp only [] at h
    have hfin : ∀ (s : JStr),
        (Except.ok (s, (⟨fsReadInto memo (bi * (blockSize : Int)).toNat blockSize mst.buf,
          mst.reads ++ [bi * (blockSize : Int)]⟩ : MemoSt)) : Except DbfErr (JStr × MemoSt)) =
          Except.ok out →
        ∃ new : List Int, out.2.reads = mst.reads ++ new ∧
          new.head? = some (bi * blockSize) ∧ ∀ p ∈ new.tail, p ≤ (fileSize : Int) := by
      intro s hh
      rw [Except.ok.injEq] at hh
      subst hh
      exact ⟨[bi * (blockSize : Int)], rfl, rfl, by simp⟩
    have hrec : ∀ (len' : Int) (merged' : List Nat),
        memoLoop version memo blockSize fileSize encLabel fuel (bi + 1) len' merged'
          ⟨fsReadInto memo (bi * (blockSize : Int)).toNat blockSize mst.buf,
            mst.reads ++ [bi * (blockSize : Int)]⟩ = .ok out →
        ¬ ((bi + 1) * (blockSize : Int) > (fileSize : Int)) →
        ∃ new : List Int, out.2.reads = mst.reads ++ new ∧
          new.head? = some (bi * blockSize) ∧ ∀ p ∈ new.tail, p ≤ (fileSize : Int) := by
      intro len' merged' hm hg
      obtain ⟨new', h1, h2, h3⟩ := ih (bi + 1) len' merged' _ out hm
      cases new' with
      | nil => exact absurd h2 (by simp)
      | cons a t =>
        simp only [List.head?_cons, Option.some.injEq] at h2
        subst h2
        refine ⟨bi * (blockSize : Int) :: (bi + 1) * (blockSize : Int) :: t, ?_, rfl, ?_⟩
        · rw [h1]
          simp
        · intro p hp
          rcases List.mem_cons.mp hp with rfl | hpt
          · omega
          · exact h3 p (by simpa using hpt)
    split at h
    · exact Except.noConfusion h
    split at h
    · -- version 131
      split at h
      · exact hfin _ h
      · split at h
        · exact Except.noConfusion h
        · rename_i hg
          exact hrec _ _ h hg
    split at h
    · -- version 139 (the split on the first-block marker comes first)
      split at h
      · split at h
        · exact hfin _ h
        · split at h
          · exact Except.noConfusion h
          · rename_i hg
            exact hrec _ _ h hg
      · split at h
        · exact hfin _ h
        · split at h
          · exact Except.noConfusion h
          · rename_i hg
            exact hrec _ _ h hg
    split at h
    · -- version 48
      split at h
      · split at h
        · exact hfin _ h
        · split at h
          · exact hfin _ h
          · split at h
            · exact Except.noConfusion h
            · rename_i hg
              exact hrec _ _ h hg
      · split at h
        · exact hfin _ h
        · split at h
          · exact Except.noConfusion h
          · rename_i hg
            exact hrec _ _ h hg
    exact Except.noConfusion h

set_option maxRecDepth 100000 in
/-- C4 witness: a two-block dBase III memo lookup starting at block 0;
the reads are [0, 512], the first unguarded, the second within the
1024-byte file. -/
theorem c4_witness :
    ∃ new : List Int,
      ((memoLoop 131 (List.replicate 512 65 ++ 26 :: List.replicate 511 65) 512 1024
          latin1Label 10 0 0 [] ⟨List.replicate 512 0, []⟩).toOption.getD
        ([], ⟨[], []⟩)).2.reads = ([] : List Int) ++ new ∧
      new.head? = some (0 * (512 : Nat)) ∧
      ∀ p ∈ new.tail, p ≤ ((1024 : Nat) : Int) :=
  c4_memo_guard 131 (List.replicate 512 65 ++ 26 :: List.replicate 511 65) 512 1024
    latin1Label 10 0 0 [] ⟨List.replicate 512 0, []⟩
    (((memoLoop 131 (List.replicate 512 65 ++ 26 :: List.replicate 511 65) 512 1024
        latin1Label 10 0 0 [] ⟨List.replicate 512 0, []⟩).toOption.getD
      ([], ⟨[], []⟩))) (by rfl)

set_option maxRecDepth 100000 in
/-- C4 counterexample: a VFP9 memo lookup whose block starts at offset
2560, at or past the 1024-byte end of the memo file, succeeds (with the
stale zero buffer) and issues the read at 2560 — refuting "the read
fails with MemoReadPastEnd" and "no block whose starting offset is at or
past end-of-file is ever read". -/
theorem c4_counterexample :
    memoLoop 48 (List.replicate 1024 7) 512 1024 latin1Label 1000 5 10 []
        ⟨List.replicate 512 0, []⟩ =
      .ok ([], ⟨List.replicate 512 0, [2560]⟩) ∧
    (5 * 512 : Nat) ≥ 1024 :=
  ⟨by rfl, by decide⟩

/-! ## Claim C6: the created file's header -/

theorem readUInt16LE_append_leBytes (a b : List Nat) (v : Nat) (hv : v < 65536) :
    readUInt16LE (a ++ (leBytes 2 v ++ b)) a.length = v := by
  unfold readUInt16LE
  have h0 : byteAt (a ++ (leBytes 2 v ++ b)) a.length = v % 256 := by
    have hr := byteAt_append_right a (leBytes 2 v ++ b) 0
    rw [Nat.add_zero] at hr
    rw [hr, byteAt_append_left _ _ 0 (by rw [leBytes_length]; omega),
      byteAt_leBytes_lt 2 v 0 (by omega)]
    simp
  have h1 : byteAt (a ++ (leBytes 2 v ++ b)) (a.length + 1) = v / 256 % 256 := by
    rw [byteAt_append_right, byteAt_append_left _ _ 1 (by rw [leBytes_length]; omega),
      byteAt_leBytes_lt 2 v 1 (by omega)]
    norm_num
  rw [h0, h1]
  omega

/-- C6 (confirmed): a file produced by `create` with field list `F` has
`header_length = 34 + 32·|F|` at offset 8, `record_length = 1 + Σ size`
at offset 10 (both little-endian uint16), and the bytes 0x0D, 0x00, 0x1A
immediately after the last field descriptor. -/
theorem c6_create_header (fields : List FieldDescriptor) (version : Nat) (encCfg : EncodingOpt)
    (yy mm dd : Nat) (file : List Nat) (st : DBFFileState)
    (h : createDBF fields version encCfg yy mm dd = .ok (file, st)) :
    readUInt16LE file 8 = 34 + 32 * fields.length ∧
    readUInt16LE file 10 = 1 + (fields.map (fun f => f.size)).sum ∧
    byteAt file (32 + 32 * fields.length) = 13 ∧
    byteAt file (32 + 32 * fields.length + 1) = 0 ∧
    byteAt file (32 + 32 * fields.length + 2) = 26 := by
  obtain ⟨hval, hhl, hrl, hfile, -⟩ := createDBF_ok fields version encCfg yy mm dd file st h
  have hlens : ∀ g ∈ fields, (descriptorBytes g).length = 32 := by
    intro g hg
    exact descriptorBytes_length g
      (le_trans (validateFieldDescriptors_ok version fields hval g hg |>
        validateFieldDescriptor_ok_implies version g |>.2.1) (by omega))
  have hflat : ((fields.map descriptorBytes).flatten).length = 32 * fields.length := by
    rw [List.length_flatten]
    have : (fields.map descriptorBytes).map List.length
        = fields.map (fun _ => 32) := by
      rw [List.map_map]
      exact List.map_congr_left (fun g hg => hlens g hg)
    rw [this]
    simp [Nat.mul_comm]
  subst hfile
  refine ⟨?_, ?_, ?_, ?_, ?_⟩
  · rw [show ([version % 256, yy % 256, mm % 256, dd % 256] ++ leBytes 4 0
        ++ leBytes 2 (34 + fields.length * 32)
        ++ leBytes 2 (calculateRecordLengthInBytes fields) ++ List.replicate 20 0)
        ++ (fields.map descriptorBytes).flatten ++ [13, 0, 26]
      = ([version % 256, yy % 256, mm % 256, dd % 256] ++ leBytes 4 0)
        ++ (leBytes 2 (34 + fields.length * 32)
          ++ (leBytes 2 (calculateRecordLengthInBytes fields) ++ List.replicate 20 0
            ++ ((fields.map descriptorBytes).flatten ++ [13, 0, 26]))) from by
        simp [List.append_assoc]]
    rw [show (8 : Nat)
        = ([version % 256, yy % 256, mm % 256, dd % 256] ++ leBytes 4 0).length from by
        simp [leBytes_length]]
    rw [readUInt16LE_append_leBytes _ _ _ (by omega)]
    ring
  · rw [show ([version % 256, yy % 256, mm % 256, dd % 256] ++ leBytes 4 0
        ++ leBytes 2 (34 + fields.length * 32)
        ++ leBytes 2 (calculateRecordLengthInBytes fields) ++ List.replicate 20 0)
        ++ (fields.map descriptorBytes).flatten ++ [13, 0, 26]
      = ([version % 256, yy % 256, mm % 256, dd % 256] ++ leBytes 4 0
          ++ leBytes 2 (34 + fields.length * 32))
        ++ (leBytes 2 (calculateRecordLengthInBytes fields)
          ++ (List.replicate 20 0 ++ ((fields.map descriptorBytes).flatten ++ [13, 0, 26]))) from by
        simp [List.append_assoc]]
    rw [show (10 : Nat)
        = ([version % 256, yy % 256, mm % 256, dd % 256] ++ leBytes 4 0
          ++ leBytes 2 (34 + fields.length * 32)).length from by
        simp [leBytes_length]]
    rw [readUInt16LE_append_leBytes _ _ _ (by omega)]
    rfl
  · rw [show (32 + 32 * fields.length : Nat)
        = (([version % 256, yy % 256, mm % 256, dd % 256] ++ leBytes 4 0
          ++ leBytes 2 (34 + fields.length * 32)
          ++ leBytes 2 (calculateRecordLengthInBytes fields) ++ List.replicate 20 0)
          ++ (fields.map descriptorBytes).flatten).length + 0 from by
        simp [leBytes_length, hflat]
        omega]
    rw [byteAt_append_right]
    rfl
  · rw [show (32 + 32 * fields.length + 1 : Nat)
        = (([version % 256, yy % 256, mm % 256, dd % 256] ++ leBytes 4 0
          ++ leBytes 2 (34 + fields.length * 32)
          ++ leBytes 2 (calculateRecordLengthInBytes fields) ++ List.replicate 20 0)
          ++ (fields.map descriptorBytes).flatten).length + 1 from by
        simp [leBytes_length, hflat]
        omega]
    rw [byteAt_append_right]
    rfl
  · rw [show (32 + 32 * fields.length + 2 : Nat)
        = (([version % 256, yy % 256, mm % 256, dd % 256] ++ leBytes 4 0
          ++ leBytes 2 (34 + fields.length * 32)
          ++ leBytes 2 (calculateRecordLengthInBytes fields) ++ List.replicate 20 0)
          ++ (fields.map descriptorBytes).flatten).length + 2 from by
        simp [leBytes_length, hflat]
        omega]
    rw [byteAt_append_right]
    rfl

/-- C6 witness: the header facts evaluated on a concrete two-field
create. -/
theorem c6_witness :
    readUInt16LE ((createDBF [⟨[65], 67, 5, none⟩, ⟨[66], 76, 1, none⟩] 3
        (.single latin1Label) 1 2 3).toOption.getD
      ([], ⟨0, [], false, .single [], false, 0, 0, 0, false, 0⟩)).1 8 = 34 + 32 * 2 ∧
    readUInt16LE ((createDBF [⟨[65], 67, 5, none⟩, ⟨[66], 76, 1, none⟩] 3
        (.single latin1Label) 1 2 3).toOption.getD
      ([], ⟨0, [], false, .single [], false, 0, 0, 0, false, 0⟩)).1 10 = 1 + 6 ∧
    byteAt ((createDBF [⟨[65], 67, 5, none⟩, ⟨[66], 76, 1, none⟩] 3
        (.single latin1Label) 1 2 3).toOption.getD
      ([], ⟨0, [], false, .single [], false, 0, 0, 0, false, 0⟩)).1 (32 + 32 * 2) = 13 ∧
    byteAt ((createDBF [⟨[65], 67, 5, none⟩, ⟨[66], 76, 1, none⟩] 3
        (.single latin1Label) 1 2 3).toOption.getD
      ([], ⟨0, [], false, .single [], false, 0, 0, 0, false, 0⟩)).1 (32 + 32 * 2 + 1) = 0 ∧
    byteAt ((createDBF [⟨[65], 67, 5, none⟩, ⟨[66], 76, 1, none⟩] 3
        (.single latin1Label) 1 2 3).toOption.getD
      ([], ⟨0, [], false, .single [], false, 0, 0, 0, false, 0⟩)).1 (32 + 32 * 2 + 2) = 26 :=
  c6_create_header [⟨[65], 67, 5, none⟩, ⟨[66], 76, 1, none⟩] 3 (.single latin1Label) 1 2 3
    ((createDBF [⟨[65], 67, 5, none⟩, ⟨[66], 76, 1, none⟩] 3
        (.single latin1Label) 1 2 3).toOption.getD
      ([], ⟨0, [], false, .single [], false, 0, 0, 0, false, 0⟩)).1
    ((createDBF [⟨[65], 67, 5, none⟩, ⟨[66], 76, 1, none⟩] 3
        (.single latin1Label) 1 2 3).toOption.getD
      ([], ⟨0, [], false, .single [], false, 0, 0, 0, false, 0⟩)).2 (by rfl)

/-! ## Claim C9: `C` field encoding pads/truncates on encoded bytes -/

theorem range_map_pad (b : List Nat) : ∀ n : Nat,
    (List.range n).map (fun k => if k < b.length then b[k]?.getD 0 else 32) =
      b.take n ++ List.replicate (n - b.length) 32 := by
  intro n
  induction n with
  | zero => simp
  | succ n ih =>
    rw [List.range_succ, List.map_append, ih]
    by_cases hn : n < b.length
    · have h1 : n + 1 - b.length = 0 := by omega
      have h2 : n - b.length = 0 := by omega
      rw [h1, h2, List.take_succ]
      simp [hn, List.getElem?_eq_getElem hn]
    · rw [List.take_of_length_le (by omega), List.take_of_length_le (by omega),
        show n + 1 - b.length = (n - b.length) + 1 by omega, List.replicate_succ']
      simp [hn]

/-- C9 (confirmed): on a `C` field the append path writes exactly `size`
bytes: the transcoded bytes of the value truncated to `size`, right-padded
with 0x20; the padding count is measured on the encoded byte length, not
the source character count. -/
theorem c9_c_field_padding (encLabel : JStr) (f : FieldDescriptor) (s : JStr)
    (hf : f.type = 67) :
    encodeFieldBytes encLabel f (.vstr s) =
      .ok ((iconvEncode encLabel s).take f.size
        ++ List.replicate (f.size - (iconvEncode encLabel s).length) 32) ∧
    ((iconvEncode encLabel s).take f.size
      ++ List.replicate (f.size - (iconvEncode encLabel s).length) 32).length = f.size := by
  constructor
  · simp only [encodeFieldBytes, hf]
    norm_num
    rw [show (if Value.vstr s = Value.vnull then Value.vstr [] else Value.vstr s)
      = Value.vstr s from if_neg (by simp)]
    dsimp only []
    rw [range_map_pad]
  · simp only [List.length_append, List.length_take, List.length_replicate]
    omega

/-- C9 witness: a single Thai character (U+0E01) in a UTF-8-encoded C(5)
field occupies three encoded bytes, so only two 0x20 pads follow — the
pad count uses the byte length, not the character count. -/
theorem c9_witness :
    encodeFieldBytes utf8Label ⟨[65], 67, 5, none⟩ (.vstr [3585]) =
      .ok ((iconvEncode utf8Label [3585]).take 5
        ++ List.replicate (5 - (iconvEncode utf8Label [3585]).length) 32) ∧
    ((iconvEncode utf8Label [3585]).take 5
      ++ List.replicate (5 - (iconvEncode utf8Label [3585]).length) 32).length = 5 :=
  c9_c_field_padding utf8Label ⟨[65], 67, 5, none⟩ [3585] rfl

/-! ## Claim C10: a failed append leaves the record count untouched -/

/-- `writeAt` never changes bytes before the write position (even when
the write extends the file). -/
theorem byteAt_writeAt_before_all (file : List Nat) (pos : Nat) (data : List Nat) (i : Nat)
    (h : i < pos) : byteAt (writeAt file pos data) i = byteAt file i := by
  unfold writeAt
  rw [List.append_assoc, List.append_assoc]
  rcases Nat.lt_or_ge i (min pos file.length) with hi | hi
  · rw [byteAt_append_left _ _ i (by simp; omega)]
    exact byteAt_take file pos i h
  · have hfl : file.length ≤ i := by omega
    have h1 : byteAt file i = 0 := by
      unfold byteAt
      exact List.getD_eq_default _ _ hfl
    rw [h1]
    have h2 : (file.take pos).length = file.length := by simp; omega
    rw [show i = (file.take pos).length + (i - file.length) from by omega]
    rw [byteAt_append_right]
    rw [byteAt_append_left _ _ _ (by simp only [List.length_replicate]; omega)]
    have h3 : i - file.length < pos - file.length := by omega
    unfold byteAt
    simp [List.getD, List.getElem?_replicate, h3]

/-- The append loop only ever appends to the write trace. -/
theorem appendRecordsGo_trace_prefix (encCfg : EncodingOpt) (fields : List FieldDescriptor)
    (recordLength : Nat) :
    ∀ (rs : List RecordData) (file : List Nat) (pos : Nat) (trace : List (Nat × List Nat)),
      ∃ extra, (appendRecordsGo encCfg fields recordLength rs file pos trace).2.2.1 =
        trace ++ extra := by
  intro rs
  induction rs with
  | nil =>
    intro file pos trace
    exact ⟨[], by simp [appendRecordsGo]⟩
  | cons r rs ih =>
    intro file pos trace
    cases hv : validateRecord fields r with
    | error e => exact ⟨[], by simp [appendRecordsGo, hv]⟩
    | ok u =>
      cases u
      cases he : encodeRecordFrame encCfg fields r with
      | error e => exact ⟨[], by simp [appendRecordsGo, hv, he]⟩
      | ok frame =>
        obtain ⟨extra, hex⟩ := ih (writeAt file pos frame) (pos + recordLength)
          (trace ++ [(pos, frame)])
        refine ⟨(pos, frame) :: extra, ?_⟩
        simp only [appendRecordsGo, hv, he]
        rw [hex]
        simp

/-- Where the append loop stops when record `pre.length` fails
validation: the error is reported, exactly the frames of `pre` were
written (at consecutive slots from the start position), and bytes below
the start position are untouched. -/
theorem appendRecordsGo_fail (encCfg : EncodingOpt) (fields : List FieldDescriptor)
    (recordLength : Nat) (e : DbfErr) (bad : RecordData) (rest : List RecordData) :
    ∀ (pre : List RecordData) (file : List Nat) (pos : Nat) (trace : List (Nat × List Nat)),
      (∀ r ∈ pre, validateRecord fields r = .ok () ∧
        ∃ frame, encodeRecordFrame encCfg fields r = .ok frame) →
      validateRecord fields bad = .error e →
      ∃ (file' : List Nat) (newtr : List (Nat × List Nat)),
        appendRecordsGo encCfg fields recordLength (pre ++ bad :: rest) file pos trace =
          (file', pos + pre.length * recordLength, trace ++ newtr, some e) ∧
        newtr.map Prod.fst = (List.range pre.length).map (fun j => pos + j * recordLength) ∧
        ∀ i < pos, byteAt file' i = byteAt file i := by
  intro pre
  induction pre with
  | nil =>
    intro file pos trace _ hbad
    refine ⟨file, [], ?_, by simp, fun i _ => rfl⟩
    simp [appendRecordsGo, hbad]
  | cons r pre ih =>
    intro file pos trace hpre hbad
    obtain ⟨hv, frame, he⟩ := hpre r (by simp)
    obtain ⟨file', newtr, heq, hmap, hpres⟩ := ih (writeAt file pos frame)
      (pos + recordLength) (trace ++ [(pos, frame)])
      (fun r' hr' => hpre r' (by simp [hr'])) hbad
    refine ⟨file', (pos, frame) :: newtr, ?_, ?_, ?_⟩
    · show appendRecordsGo encCfg fields recordLength
        (r :: (pre ++ bad :: rest)) file pos trace = _
      simp only [appendRecordsGo, hv, he]
      rw [heq]
      simp only [List.append_assoc, List.singleton_append, List.length_cons]
      rw [show pos + recordLength + pre.length * recordLength
        = pos + (pre.length + 1) * recordLength from by ring]
    · rw [List.map_cons, hmap]
      simp only [List.length_cons]
      rw [List.range_succ_eq_map, List.map_cons, List.map_map]
      rw [show pos + 0 * recordLength = pos from by ring]
      congr 1
      apply List.map_congr_left
      intro j hj
      simp only [Function.comp, Nat.succ_eq_add_one]
      ring
    · intro i hi
      rw [hpres i (by omega)]
      exact byteAt_writeAt_before_all file pos frame i hi

/-- C10 (confirmed): when some record of an append batch fails value
validation, `appendRecordsToDBF` reports that error without returning an
updated handle (the in-memory `recordCount` is only set on the success
path), every header byte — in particular the int32 record count at
offset 4 — is unchanged, and only the frames of the records before the
offending one were written, at consecutive slots starting at
`header_length + record_count · record_length`; a subsequent append
starts at exactly that same position, overwriting them. -/
theorem c10_append_failure_atomic (dbf : DBFFileState) (pre : List RecordData)
    (bad : RecordData) (rest : List RecordData) (file : List Nat) (e : DbfErr)
    (hpre : ∀ r ∈ pre, validateRecord dbf.fields r = .ok () ∧
      ∃ frame, encodeRecordFrame dbf.encoding dbf.fields r = .ok frame)
    (hbad : validateRecord dbf.fields bad = .error e) :
    ∃ (file' : List Nat) (newtr : List (Nat × List Nat)),
      appendRecordsToDBF dbf (pre ++ bad :: rest) file = (file', newtr, .error e) ∧
      (∀ i < dbf.headerLength, byteAt file' i = byteAt file i) ∧
      (8 ≤ dbf.headerLength → readInt32LE file' 4 = readInt32LE file 4) ∧
      newtr.map Prod.fst = (List.range pre.length).map (fun j =>
        dbf.headerLength + dbf.recordCount * calculateRecordLengthInBytes dbf.fields
          + j * calculateRecordLengthInBytes dbf.fields) ∧
      (∀ (r2 : RecordData) (rs2 : List RecordData) (frame2 : List Nat),
        validateRecord dbf.fields r2 = .ok () →
        encodeRecordFrame dbf.encoding dbf.fields r2 = .ok frame2 →
        (appendRecordsToDBF dbf (r2 :: rs2) file').2.1.head? =
          some (dbf.headerLength + dbf.recordCount * calculateRecordLengthInBytes dbf.fields,
            frame2)) := by
  obtain ⟨file', newtr, heq, hmap, hpres⟩ := appendRecordsGo_fail dbf.encoding dbf.fields
    (calculateRecordLengthInBytes dbf.fields) e bad rest pre file
    (dbf.headerLength + dbf.recordCount * calculateRecordLengthInBytes dbf.fields) [] hpre hbad
  have hpres' : ∀ i < dbf.headerLength, byteAt file' i = byteAt file i := by
    intro i hi
    exact hpres i (by omega)
  refine ⟨file', newtr, ?_, hpres', ?_, ?_, ?_⟩
  · simp only [appendRecordsToDBF]
    rw [heq]
    simp
  · intro h8
    unfold readInt32LE readUInt32LE
    rw [hpres' 4 (by omega), hpres' 5 (by omega), hpres' 6 (by omega), hpres' 7 (by omega)]
  · simpa using hmap
  · intro r2 rs2 frame2 hv2 he2
    simp only [appendRecordsToDBF]
    obtain ⟨extra, hex⟩ := appendRecordsGo_trace_prefix dbf.encoding dbf.fields
      (calculateRecordLengthInBytes dbf.fields) rs2
      (writeAt file' (dbf.headerLength + dbf.recordCount * calculateRecordLengthInBytes dbf.fields)
        frame2)
      (dbf.headerLength + dbf.recordCount * calculateRecordLengthInBytes dbf.fields
        + calculateRecordLengthInBytes dbf.fields)
      [(dbf.headerLength + dbf.recordCount * calculateRecordLengthInBytes dbf.fields, frame2)]
    rcases hres : appendRecordsGo dbf.encoding dbf.fields
        (calculateRecordLengthInBytes dbf.fields) rs2
        (writeAt file'
          (dbf.headerLength + dbf.recordCount * calculateRecordLengthInBytes dbf.fields) frame2)
        (dbf.headerLength + dbf.recordCount * calculateRecordLengthInBytes dbf.fields
          + calculateRecordLengthInBytes dbf.fields)
        [(dbf.headerLength + dbf.recordCount * calculateRecordLengthInBytes dbf.fields, frame2)]
      with ⟨f1, p1, tr, err⟩
    rw [hres] at hex
    simp only [] at hex
    show (match appendRecordsGo dbf.encoding dbf.fields
        (calculateRecordLengthInBytes dbf.fields) (r2 :: rs2) file'
        (dbf.headerLength + dbf.recordCount * calculateRecordLengthInBytes dbf.fields) [] with
      | (file1, _, trace, some e) => (file1, trace, Except.error e)
      | (file1, pos1, trace, none) =>
        (writeAt (writeAt file1 pos1 [26]) 4
            (writeInt32LEBytes (dbf.recordCount + (r2 :: rs2).length)),
          trace ++ [(pos1, [26]),
            (4, writeInt32LEBytes (dbf.recordCount + (r2 :: rs2).length))],
          Except.ok { dbf with recordCount := dbf.recordCount + (r2 :: rs2).length }))
      |>.2.1.head? = _
    simp only [appendRecordsGo, hv2, he2]
    simp only [List.nil_append]
    rw [hres]
    cases err with
    | some e' =>
      simp only []
      rw [hex]
      rfl
    | none =>
      simp only []
      rw [hex]
      rfl

/-- C10 witness: one valid L record followed by a type-mismatched one;
the call fails with ValueTypeMismatch, the header is untouched, exactly
one frame (slot 0) was written, and the next append starts at that same
slot. -/
theorem c10_witness :
    ∃ (file' : List Nat) (newtr : List (Nat × List Nat)),
      appendRecordsToDBF ⟨0, [⟨[65], 76, 1, none⟩], false, .single latin1Label, false, 0, 33, 2,
          false, 3⟩ ([[([65], Value.vbool true)]] ++ [([65], Value.vstr [66])] :: [])
        (List.replicate 33 0) = (file', newtr, .error (.valueTypeMismatch [65])) ∧
      (∀ i < (33 : Nat), byteAt file' i = byteAt (List.replicate 33 0) i) ∧
      ((8 : Nat) ≤ 33 → readInt32LE file' 4 = readInt32LE (List.replicate 33 0) 4) ∧
      newtr.map Prod.fst = (List.range 1).map (fun j => 33 + 0 * 2 + j * 2) ∧
      (∀ (r2 : RecordData) (rs2 : List RecordData) (frame2 : List Nat),
        validateRecord [⟨[65], 76, 1, none⟩] r2 = .ok () →
        encodeRecordFrame (.single latin1Label) [⟨[65], 76, 1, none⟩] r2 = .ok frame2 →
        (appendRecordsToDBF ⟨0, [⟨[65], 76, 1, none⟩], false, .single latin1Label, false, 0, 33, 2,
            false, 3⟩ (r2 :: rs2) file').2.1.head? = some (33 + 0 * 2, frame2)) :=
  c10_append_failure_atomic
    ⟨0, [⟨[65], 76, 1, none⟩], false, .single latin1Label, false, 0, 33, 2, false, 3⟩
    [[([65], Value.vbool true)]] [([65], Value.vstr [66])] [] (List.replicate 33 0)
    (.valueTypeMismatch [65])
    (by
      intro r hr
      simp only [List.mem_singleton] at hr
      subst hr
      exact ⟨by rfl, [32, 84], by rfl⟩)
    (by rfl)

/-! ## The read loop in terms of absolute record slots

The chunked loop reads each record frame out of a buffer that holds
`recordCountToRead` frames; the lemmas below re-express a successful
parse in terms of the file bytes at absolute offsets. -/

theorem byteAt_chunk (file : List Nat) (pos L k : Nat) (hk : k < L) :
    byteAt ((file.drop pos).take L) k = byteAt file (pos + k) := by
  rw [byteAt_take _ _ _ hk, byteAt_drop]

theorem slice_chunk (file : List Nat) (pos L k t : Nat) (hkt : k + t ≤ L) :
    (((file.drop pos).take L).drop k).take t = (file.drop (pos + k)).take t := by
  rw [drop_take_drop, List.take_take]
  congr 1
  omega

theorem readUInt32LE_chunk (file : List Nat) (pos L k : Nat) (hk : k + 4 ≤ L) :
    readUInt32LE ((file.drop pos).take L) k = readUInt32LE file (pos + k) := by
  unfold readUInt32LE
  rw [byteAt_chunk file pos L k (by omega), byteAt_chunk file pos L (k + 1) (by omega),
    byteAt_chunk file pos L (k + 2) (by omega), byteAt_chunk file pos L (k + 3) (by omega)]
  rw [show pos + (k + 1) = pos + k + 1 by omega, show pos + (k + 2) = pos + k + 2 by omega,
    show pos + (k + 3) = pos + k + 3 by omega]

theorem readInt32LE_chunk (file : List Nat) (pos L k : Nat) (hk : k + 4 ≤ L) :
    readInt32LE ((file.drop pos).take L) k = readInt32LE file (pos + k) := by
  unfold readInt32LE
  rw [readUInt32LE_chunk file pos L k hk]

/-- On success, decoding a validated field advances the offset by
exactly the field's declared size. -/
theorem decodeFieldValue_consume (version : Nat) (loose : Bool) (encCfg : EncodingOpt)
    (memoEnv : Option MemoEnv) (buf : List Nat) (o : Nat) (f : FieldDescriptor) (mst : MemoSt)
    (v : Option Value) (o' : Nat) (mst' : MemoSt)
    (hval : validateFieldDescriptor version f = .ok ())
    (h : decodeFieldValue version loose encCfg memoEnv buf o f mst = .ok (v, o', mst')) :
    o' = o + f.size := by
  obtain ⟨-, -, htype, -, -, -, -, hL, hD, hM, hT, hB⟩ :=
    validateFieldDescriptor_ok_implies version f hval
  simp only [FieldTypes, List.mem_cons, List.not_mem_nil, or_false] at htype
  rcases htype with ht | ht | ht | ht | ht | ht | ht | ht | ht
  · simp only [decodeFieldValue, ht] at h
    norm_num at h
    omega
  · simp only [decodeFieldValue, ht] at h
    norm_num at h
    omega
  · simp only [decodeFieldValue, ht] at h
    norm_num at h
    omega
  · -- L
    simp only [decodeFieldValue, ht] at h
    norm_num at h
    rw [hL ht]
    omega
  · -- D
    simp only [decodeFieldValue, ht] at h
    norm_num at h
    rw [hD ht]
    omega
  · -- I
    simp only [decodeFieldValue, ht] at h
    norm_num at h
    omega
  · -- M
    simp only [decodeFieldValue, ht] at h
    norm_num at h
    rcases hbi : (if version = 48 then some (readInt32LE buf o)
        else parseIntJS (iconvDecode (getEncoding encCfg (some f)) ((buf.drop o).take f.size)))
      with - | bi
    · rw [hbi] at h
      dsimp only [] at h
      simp only [Except.ok.injEq, Prod.mk.injEq] at h
      omega
    · rw [hbi] at h
      dsimp only [] at h
      by_cases hz : bi = 0
      · rw [if_pos hz] at h
        simp only [Except.ok.injEq, Prod.mk.injEq] at h
        omega
      · rw [if_neg hz] at h
        cases memoEnv with
        | none =>
          dsimp only [] at h
          simp only [Except.ok.injEq, Prod.mk.injEq] at h
          omega
        | some env =>
          dsimp only [] at h
          rcases hml : memoLoop version env.bytes env.blockSize env.fileSize
              (getEncoding encCfg (some f)) (env.fileSize + 2) bi f.size [] mst with e | p
          · rw [hml] at h
            exact Except.noConfusion h
          · rw [hml] at h
            dsimp only [] at h
            simp only [Except.ok.injEq, Prod.mk.injEq] at h
            omega
  · -- T
    simp only [decodeFieldValue, ht] at h
    norm_num at h
    rw [hT ht]
    omega
  · -- B
    simp only [decodeFieldValue, ht] at h
    norm_num at h
    omega

/-- Decoding a validated field from the chunk buffer equals decoding it
from the file at the absolute offset (every byte the decoder touches
lies inside the chunk). -/
theorem decodeFieldValue_shift (version : Nat) (loose : Bool) (encCfg : EncodingOpt)
    (memoEnv : Option MemoEnv) (file : List Nat) (pos L : Nat) (f : FieldDescriptor)
    (o : Nat) (mst : MemoSt)
    (hval : validateFieldDescriptor version f = .ok ()) (hI : f.type = 73 → f.size = 4)
    (ho : o + f.size ≤ L) :
    decodeFieldValue version loose encCfg memoEnv ((file.drop pos).take L) o f mst =
      (decodeFieldValue version loose encCfg memoEnv file (pos + o) f mst).map
        (fun r => (r.1, r.2.1 - pos, r.2.2)) := by
  obtain ⟨-, -, htype, hsz1, hC, hN, hF, hL, hD, hM, hT, hB⟩ :=
    validateFieldDescriptor_ok_implies version f hval
  simp only [FieldTypes, List.mem_cons, List.not_mem_nil, or_false] at htype
  rcases htype with ht | ht | ht | ht | ht | ht | ht | ht | ht
  · -- C
    simp only [decodeFieldValue, ht]
    norm_num
    rw [slice_chunk file pos L o f.size (by omega)]
    simp only [Except.map]
    rw [show pos + o + f.size - pos = o + f.size from by omega]
  · -- N
    simp only [decodeFieldValue, ht]
    norm_num
    rw [slice_chunk file pos L o f.size (by omega)]
    simp only [Except.map]
    rw [show pos + o + f.size - pos = o + f.size from by omega]
  · -- F
    simp only [decodeFieldValue, ht]
    norm_num
    rw [slice_chunk file pos L o f.size (by omega)]
    simp only [Except.map]
    rw [show pos + o + f.size - pos = o + f.size from by omega]
  · -- L
    have h1 := hL ht
    simp only [decodeFieldValue, ht]
    norm_num
    rw [byteAt_chunk file pos L o (by omega)]
    simp only [Except.map]
    rw [show pos + o + 1 - pos = o + 1 from by omega]
  · -- D
    have h8 := hD ht
    simp only [decodeFieldValue, ht]
    norm_num
    rw [byteAt_chunk file pos L o (by omega), slice_chunk file pos L o 8 (by omega)]
    simp only [Except.map]
    rw [show pos + o + 8 - pos = o + 8 from by omega]
  · -- I
    have h4 := hI ht
    simp only [decodeFieldValue, ht]
    norm_num
    rw [readInt32LE_chunk file pos L o (by omega)]
    simp only [Except.map]
    rw [show pos + o + f.size - pos = o + f.size from by omega]
  · -- M
    have h10 := hM ht
    simp only [decodeFieldValue, ht]
    norm_num
    rw [readInt32LE_chunk file pos L o (by omega), slice_chunk file pos L o f.size (by omega)]
    cases hbi : (if version = 48 then some (readInt32LE file (pos + o))
        else parseIntJS (iconvDecode (getEncoding encCfg (some f))
          ((file.drop (pos + o)).take f.size))) with
    | none =>
      dsimp only []
      simp only [Except.map]
      rw [show pos + o + f.size - pos = o + f.size from by omega]
    | some bi =>
      dsimp only []
      by_cases hz : bi = 0
      · rw [if_pos hz, if_pos hz]
        simp only [Except.map]
        rw [show pos + o + f.size - pos = o + f.size from by omega]
      · rw [if_neg hz, if_neg hz]
        cases memoEnv with
        | none =>
          dsimp only []
          simp only [Except.map]
          rw [show pos + o + f.size - pos = o + f.size from by omega]
        | some env =>
          dsimp only []
          cases hml : memoLoop version env.bytes env.blockSize env.fileSize
              (getEncoding encCfg (some f)) (env.fileSize + 2) bi f.size [] mst with
          | error e => rfl
          | ok p =>
            dsimp only []
            simp only [Except.map]
            rw [show pos + o + f.size - pos = o + f.size from by omega]
  · -- T
    have h8 := hT ht
    simp only [decodeFieldValue, ht]
    norm_num
    rw [byteAt_chunk file pos L o (by omega), readInt32LE_chunk file pos L o (by omega),
      readInt32LE_chunk file pos L (o + 4) (by omega),
      show pos + (o + 4) = pos + o + 4 from by omega]
    simp only [Except.map]
    rw [show pos + o + 8 - pos = o + 8 from by omega]
  · -- B
    have h8 := hB ht
    simp only [decodeFieldValue, ht]
    norm_num
    rw [readUInt32LE_chunk file pos L o (by omega), readUInt32LE_chunk file pos L (o + 4)
      (by omega), show pos + (o + 4) = pos + o + 4 from by omega]
    simp only [Except.map]
    rw [show pos + o + f.size - pos = o + f.size from by omega]

/-- Offset consumed by decoding a list of validated fields. -/
theorem decodeFieldsGo_consume (version : Nat) (loose : Bool) (encCfg : EncodingOpt)
    (memoEnv : Option MemoEnv) (buf : List Nat) :
    ∀ (fs : List FieldDescriptor) (o : Nat) (mst : MemoSt) (acc : List (JStr × Value))
      (acc' : List (JStr × Value)) (o' : Nat) (mst' : MemoSt),
      (∀ f ∈ fs, validateFieldDescriptor version f = .ok ()) →
      decodeFieldsGo version loose encCfg memoEnv buf fs o mst acc = .ok (acc', o', mst') →
      o' = o + (fs.map (fun f => f.size)).sum := by
  intro fs
  induction fs with
  | nil =>
    intro o mst acc acc' o' mst' _ h
    simp only [decodeFieldsGo, Except.ok.injEq, Prod.mk.injEq] at h
    simp
    omega
  | cons f fs ih =>
    intro o mst acc acc' o' mst' hfs h
    simp only [decodeFieldsGo] at h
    cases hd : decodeFieldValue version loose encCfg memoEnv buf o f mst with
    | error e =>
      rw [hd] at h
      exact Except.noConfusion h
    | ok t =>
      obtain ⟨v, o1, mst1⟩ := t
      rw [hd] at h
      have hc := decodeFieldValue_consume version loose encCfg memoEnv buf o f mst v o1 mst1
        (hfs f (by simp)) hd
      cases v with
      | none =>
        dsimp only [] at h
        have := ih o1 mst1 acc acc' o' mst' (fun g hg => hfs g (by simp [hg])) h
        simp only [List.map_cons, List.sum_cons]
        omega
      | some vv =>
        dsimp only [] at h
        have := ih o1 mst1 (acc ++ [(f.name, vv)]) acc' o' mst'
          (fun g hg => hfs g (by simp [hg])) h
        simp only [List.map_cons, List.sum_cons]
        omega

/-- Decoding a record's fields from the chunk equals decoding them from
the file at the absolute offset. -/
theorem decodeFieldsGo_shift (version : Nat) (loose : Bool) (encCfg : EncodingOpt)
    (memoEnv : Option MemoEnv) (file : List Nat) (pos L : Nat) :
    ∀ (fs : List FieldDescriptor) (o : Nat) (mst : MemoSt) (acc : List (JStr × Value)),
      (∀ f ∈ fs, validateFieldDescriptor version f = .ok () ∧ (f.type = 73 → f.size = 4)) →
      o + (fs.map (fun f => f.size)).sum ≤ L →
      decodeFieldsGo version loose encCfg memoEnv ((file.drop pos).take L) fs o mst acc =
        (decodeFieldsGo version loose encCfg memoEnv file fs (pos + o) mst acc).map
          (fun r => (r.1, r.2.1 - pos, r.2.2)) := by
  intro fs
  induction fs with
  | nil =>
    intro o mst acc _ _
    simp only [decodeFieldsGo, Except.map]
    rw [show pos + o - pos = o from by omega]
  | cons f fs ih =>
    intro o mst acc hfs hbound
    obtain ⟨hval, hI4⟩ := hfs f (by simp)
    have hb1 : o + f.size ≤ L := by
      simp only [List.map_cons, List.sum_cons] at hbound
      omega
    simp only [decodeFieldsGo]
    rw [decodeFieldValue_shift version loose encCfg memoEnv file pos L f o mst hval hI4 hb1]
    cases hd : decodeFieldValue version loose encCfg memoEnv file (pos + o) f mst with
    | error e =>
      rfl
    | ok t =>
      obtain ⟨v, o1, mst1⟩ := t
      have hc := decodeFieldValue_consume version loose encCfg memoEnv file (pos + o) f mst
        v o1 mst1 hval hd
      simp only [Except.map]
      cases v with
      | none =>
        dsimp only []
        rw [show o1 - pos = o + f.size from by omega]
        rw [show o1 = pos + (o + f.size) from by omega]
        exact ih (o + f.size) mst1 acc (fun g hg => hfs g (by simp [hg]))
          (by simp only [List.map_cons, List.sum_cons] at hbound; omega)
      | some vv =>
        dsimp only []
        rw [show o1 - pos = o + f.size from by omega]
        rw [show o1 = pos + (o + f.size) from by omega]
        exact ih (o + f.size) mst1 (acc ++ [(f.name, vv)]) (fun g hg => hfs g (by simp [hg]))
          (by simp only [List.map_cons, List.sum_cons] at hbound; omega)

/-- The record stream as absolute slots: decode `n` frames starting at
slot `a`, straight from the file. -/
def sliceRecords (version : Nat) (loose : Bool) (encCfg : EncodingOpt) (includeDel : Bool)
    (memoEnv : Option MemoEnv) (fields : List FieldDescriptor) (recordLength : Nat)
    (file : List Nat) (headerLength : Nat) :
    Nat → Nat → MemoSt → Except DbfErr (List RecOut × MemoSt)
  | _, 0, mst => .ok ([], mst)
  | a, n + 1, mst =>
    let base := headerLength + recordLength * a
    let isDeleted := byteAt file base = 42
    if isDeleted ∧ ¬ includeDel then
      sliceRecords version loose encCfg includeDel memoEnv fields recordLength file headerLength
        (a + 1) n mst
    else
      match decodeFieldsGo version loose encCfg memoEnv file fields (base + 1) mst [] with
      | .error e => .error e
      | .ok (entries, _, mst') =>
        match sliceRecords version loose encCfg includeDel memoEnv fields recordLength file
            headerLength (a + 1) n mst' with
        | .error e => .error e
        | .ok (rs, mst'') => .ok (⟨entries, isDeleted⟩ :: rs, mst'')

theorem sliceRecords_append (version : Nat) (loose : Bool) (encCfg : EncodingOpt)
    (includeDel : Bool) (memoEnv : Option MemoEnv) (fields : List FieldDescriptor)
    (recordLength : Nat) (file : List Nat) (headerLength : Nat) :
    ∀ (n : Nat) (a m : Nat) (mst mst1 mst2 : MemoSt) (rs1 rs2 : List RecOut),
      sliceRecords version loose encCfg includeDel memoEnv fields recordLength file headerLength
        a n mst = .ok (rs1, mst1) →
      sliceRecords version loose encCfg includeDel memoEnv fields recordLength file headerLength
        (a + n) m mst1 = .ok (rs2, mst2) →
      sliceRecords version loose encCfg includeDel memoEnv fields recordLength file headerLength
        a (n + m) mst = .ok (rs1 ++ rs2, mst2) := by
  intro n
  induction n with
  | zero =>
    intro a m mst mst1 mst2 rs1 rs2 h1 h2
    simp only [sliceRecords, Except.ok.injEq, Prod.mk.injEq] at h1
    obtain ⟨h1a, h1b⟩ := h1
    subst h1a
    subst h1b
    simpa using h2
  | succ n ih =>
    intro a m mst mst1 mst2 rs1 rs2 h1 h2
    rw [show n + 1 + m = (n + m) + 1 from by omega]
    simp only [sliceRecords] at h1 ⊢
    by_cases hdel : byteAt file (headerLength + recordLength * a) = 42 ∧ ¬ includeDel
    · rw [if_pos hdel] at h1 ⊢
      exact ih (a + 1) m mst mst1 mst2 rs1 rs2 h1
        (by rw [show a + 1 + n = a + (n + 1) from by omega]; exact h2)
    · rw [if_neg hdel] at h1 ⊢
      cases hd : decodeFieldsGo version loose encCfg memoEnv file fields
          (headerLength + recordLength * a + 1) mst [] with
      | error e =>
        rw [hd] at h1
        exact Except.noConfusion h1
      | ok t =>
        obtain ⟨entries, o1, mstx⟩ := t
        rw [hd] at h1
        dsimp only [] at h1 ⊢
        cases hs : sliceRecords version loose encCfg includeDel memoEnv fields recordLength file
            headerLength (a + 1) n mstx with
        | error e =>
          rw [hs] at h1
          exact Except.noConfusion h1
        | ok q =>
          obtain ⟨rs1', mst1'⟩ := q
          rw [hs] at h1
          dsimp only [] at h1
          rw [Except.ok.injEq, Prod.mk.injEq] at h1
          obtain ⟨h1a, h1b⟩ := h1
          subst h1b
          have hrest := ih (a + 1) m mstx mst1' mst2 rs1' rs2 hs
            (by rw [show a + 1 + n = a + (n + 1) from by omega]; exact h2)
          rw [hrest]
          dsimp only []
          rw [← h1a]
          simp

theorem sliceRecords_length_le (version : Nat) (loose : Bool) (encCfg : EncodingOpt)
    (includeDel : Bool) (memoEnv : Option MemoEnv) (fields : List FieldDescriptor)
    (recordLength : Nat) (file : List Nat) (headerLength : Nat) :
    ∀ (n : Nat) (a : Nat) (mst mst' : MemoSt) (rs : List RecOut),
      sliceRecords version loose encCfg includeDel memoEnv fields recordLength file headerLength
        a n mst = .ok (rs, mst') →
      rs.length ≤ n := by
  intro n
  induction n with
  | zero =>
    intro a mst mst' rs h
    simp only [sliceRecords, Except.ok.injEq, Prod.mk.injEq] at h
    simp [← h.1]
  | succ n ih =>
    intro a mst mst' rs h
    simp only [sliceRecords] at h
    by_cases hdel : byteAt file (headerLength + recordLength * a) = 42 ∧ ¬ includeDel
    · rw [if_pos hdel] at h
      have := ih (a + 1) mst mst' rs h
      omega
    · rw [if_neg hdel] at h
      cases hd : decodeFieldsGo version loose encCfg memoEnv file fields
          (headerLength + recordLength * a + 1) mst [] with
      | error e =>
        rw [hd] at h
        exact Except.noConfusion h
      | ok t =>
        obtain ⟨entries, o1, mstx⟩ := t
        rw [hd] at h
        dsimp only [] at h
        cases hs : sliceRecords version loose encCfg includeDel memoEnv fields recordLength file
            headerLength (a + 1) n mstx with
        | error e =>
          rw [hs] at h
          exact Except.noConfusion h
        | ok q =>
          obtain ⟨rs1, mst1⟩ := q
          rw [hs] at h
          dsimp only [] at h
          rw [Except.ok.injEq, Prod.mk.injEq] at h
          have := ih (a + 1) mstx mst1 rs1 hs
          rw [← h.1]
          simp
          omega

/-- Count of deleted-flag frames among slots `a .. a+n-1`. -/
def deletedCountIn (file : List Nat) (headerLength recordLength a n : Nat) : Nat :=
  ((List.range n).filter (fun j => byteAt file (headerLength + recordLength * (a + j)) = 42)).length

theorem deletedCountIn_succ (file : List Nat) (headerLength recordLength a n : Nat) :
    deletedCountIn file headerLength recordLength a (n + 1) =
      (if byteAt file (headerLength + recordLength * a) = 42 then 1 else 0)
        + deletedCountIn file headerLength recordLength (a + 1) n := by
  unfold deletedCountIn
  rw [List.range_succ_eq_map, List.filter_cons]
  rw [List.filter_map]
  rw [List.filter_congr (l := List.range n)
    (q := fun j => byteAt file (headerLength + recordLength * (a + 1 + j)) = 42)
    (fun j _ => by rw [Function.comp, show a + (j + 1) = a + 1 + j from by omega])]
  by_cases hb : byteAt file (headerLength + recordLength * (a + 0)) = 42
  · rw [show a + 0 = a from by omega] at hb
    simp [hb]
    try omega
  · rw [show a + 0 = a from by omega] at hb
    simp [hb]
    try omega

theorem deletedCountIn_le (file : List Nat) (headerLength recordLength a n : Nat) :
    deletedCountIn file headerLength recordLength a n ≤ n := by
  unfold deletedCountIn
  exact le_trans (List.length_filter_le _ _) (by simp)

/-- Counting a slice: with deleted records included the slice has one
entry per frame (deleted ones marked); with them excluded it has one
entry per live frame. -/
theorem sliceRecords_count (version : Nat) (loose : Bool) (encCfg : EncodingOpt)
    (includeDel : Bool) (memoEnv : Option MemoEnv) (fields : List FieldDescriptor)
    (recordLength : Nat) (file : List Nat) (headerLength : Nat) :
    ∀ (n a : Nat) (mst mst' : MemoSt) (rs : List RecOut),
      sliceRecords version loose encCfg includeDel memoEnv fields recordLength file headerLength
        a n mst = .ok (rs, mst') →
      (includeDel = true → rs.length = n ∧
        (rs.filter (fun r => r.deleted)).length
          = deletedCountIn file headerLength recordLength a n) ∧
      (includeDel = false →
        rs.length = n - deletedCountIn file headerLength recordLength a n) := by
  intro n
  induction n with
  | zero =>
    intro a mst mst' rs h
    simp only [sliceRecords, Except.ok.injEq, Prod.mk.injEq] at h
    obtain ⟨h1, -⟩ := h
    subst h1
    simp [deletedCountIn]
  | succ n ih =>
    intro a mst mst' rs h
    simp only [sliceRecords] at h
    rw [deletedCountIn_succ]
    have hcle := deletedCountIn_le file headerLength recordLength (a + 1) n
    by_cases hdel : byteAt file (headerLength + recordLength * a) = 42 ∧ ¬ includeDel
    · rw [if_pos hdel] at h
      obtain ⟨hinc, hexc⟩ := ih (a + 1) mst mst' rs h
      constructor
      · intro ht
        rw [ht] at hdel
        simp at hdel
      · intro hf
        rw [hexc hf, if_pos hdel.1]
        omega
    · rw [if_neg hdel] at h
      cases hd : decodeFieldsGo version loose encCfg memoEnv file fields
          (headerLength + recordLength * a + 1) mst [] with
      | error e =>
        rw [hd] at h
        exact Except.noConfusion h
      | ok t =>
        obtain ⟨entries, o1, mstx⟩ := t
        rw [hd] at h
        dsimp only [] at h
        cases hs : sliceRecords version loose encCfg includeDel memoEnv fields recordLength file
            headerLength (a + 1) n mstx with
        | error e =>
          rw [hs] at h
          exact Except.noConfusion h
        | ok q =>
          obtain ⟨rs', mst1⟩ := q
          rw [hs] at h
          dsimp only [] at h
          rw [Except.ok.injEq, Prod.mk.injEq] at h
          obtain ⟨h1, -⟩ := h
          subst h1
          obtain ⟨hinc, hexc⟩ := ih (a + 1) mstx mst1 rs' hs
          constructor
          · intro ht
            obtain ⟨hl1, hl2⟩ := hinc ht
            constructor
            · simp [hl1]
            · by_cases hb : byteAt file (headerLength + recordLength * a) = 42
              · simp [List.filter_cons, hb, hl2]
                try omega
              · simp [List.filter_cons, hb, hl2]
                try omega
          · intro hf
            have hb : ¬ byteAt file (headerLength + recordLength * a) = 42 := by
              intro hb
              exact hdel ⟨hb, by simp [hf]⟩
            rw [if_neg hb]
            have := hexc hf
            simp [this]
            omega

/-- Parsing `n` frames out of the chunk buffer equals decoding the same
`n` absolute slots straight from the file. -/
theorem parseChunk_slice (version : Nat) (loose : Bool) (encCfg : EncodingOpt)
    (includeDel : Bool) (memoEnv : Option MemoEnv) (fields : List FieldDescriptor)
    (recordLength : Nat) (file : List Nat) (headerLength rr rtr : Nat)
    (hfs : ∀ f ∈ fields, validateFieldDescriptor version f = .ok () ∧ (f.type = 73 → f.size = 4))
    (hrl : recordLength = calculateRecordLengthInBytes fields) :
    ∀ (n j : Nat) (mst : MemoSt) (acc : List RecOut),
      j + n ≤ rtr →
      parseChunk version loose encCfg includeDel memoEnv fields recordLength
          ((file.drop (headerLength + recordLength * rr)).take (recordLength * rtr))
          n (recordLength * j) mst acc =
        (sliceRecords version loose encCfg includeDel memoEnv fields recordLength file
            headerLength (rr + j) n mst).map (fun r => (acc ++ r.1, r.2)) := by
  have hrlpos : 1 ≤ recordLength := by
    rw [hrl]
    unfold calculateRecordLengthInBytes
    omega
  have hsum : 1 + (fields.map (fun f => f.size)).sum = recordLength := by
    rw [hrl]
    rfl
  intro n
  induction n with
  | zero =>
    intro j mst acc _
    simp [parseChunk, sliceRecords, Except.map]
  | succ n ih =>
    intro j mst acc hj
    simp only [parseChunk, sliceRecords]
    have hbyte : byteAt ((file.drop (headerLength + recordLength * rr)).take
          (recordLength * rtr)) (recordLength * j)
        = byteAt file (headerLength + recordLength * (rr + j)) := by
      rw [byteAt_chunk file _ _ _ (mul_lt_mul_of_pos_left (show j < rtr by omega)
        (show 0 < recordLength by omega))]
      rw [show headerLength + recordLength * rr + recordLength * j
        = headerLength + recordLength * (rr + j) from by ring]
    rw [hbyte]
    by_cases hdel : byteAt file (headerLength + recordLength * (rr + j)) = 42 ∧ ¬ includeDel
    · rw [if_pos hdel, if_pos hdel]
      rw [show recordLength * j + recordLength = recordLength * (j + 1) from by ring]
      rw [ih (j + 1) mst acc (by omega)]
      rw [show rr + (j + 1) = rr + j + 1 from by omega]
    · rw [if_neg hdel, if_neg hdel]
      rw [decodeFieldsGo_shift version loose encCfg memoEnv file
        (headerLength + recordLength * rr) (recordLength * rtr) fields
        (recordLength * j + 1) mst [] hfs
        (by
          have : recordLength * (j + 1) ≤ recordLength * rtr :=
            Nat.mul_le_mul_left recordLength (by omega)
          have hx : recordLength * (j + 1) = recordLength * j + recordLength := by ring
          omega)]
      rw [show headerLength + recordLength * rr + (recordLength * j + 1)
        = headerLength + recordLength * (rr + j) + 1 from by ring]
      cases hd : decodeFieldsGo version loose encCfg memoEnv file fields
          (headerLength + recordLength * (rr + j) + 1) mst [] with
      | error e => rfl
      | ok t =>
        obtain ⟨entries, o1, mstx⟩ := t
        have hcons := decodeFieldsGo_consume version loose encCfg memoEnv file fields
          (headerLength + recordLength * (rr + j) + 1) mst [] entries o1 mstx
          (fun g hg => (hfs g hg).1) hd
        simp only [Except.map]
        try dsimp only []
        rw [show o1 - (headerLength + recordLength * rr) = recordLength * (j + 1) from by
          have hx : recordLength * (j + 1) = recordLength * j + recordLength := by ring
          have hy : recordLength * (rr + j) = recordLength * rr + recordLength * j := by ring
          omega]
        have hihx := ih (j + 1) mstx (acc ++ [(⟨entries,
          decide (byteAt file (headerLength + recordLength * (rr + j)) = 42)⟩ : RecOut)])
          (by omega)
        rw [hihx]
        rw [show rr + (j + 1) = rr + j + 1 from by omega]
        cases hs : sliceRecords version loose encCfg includeDel memoEnv fields recordLength file
            headerLength (rr + j + 1) n mstx with
        | error e => rfl
        | ok q =>
          obtain ⟨rs2, mst2⟩ := q
          simp [Except.map]

/-- A successful chunked read equals decoding one contiguous range of
absolute slots: the cursor only moves forward, never past the record
count, and reaches the record count whenever the request budget covers
the remaining records. -/
theorem readLoop_slice (dbf : DBFFileState) (file : List Nat) (memoEnv : Option MemoEnv)
    (maxCount : Nat)
    (hfs : ∀ f ∈ dbf.fields, validateFieldDescriptor dbf.version f = .ok () ∧
      (f.type = 73 → f.size = 4))
    (hrl : dbf.recordLength = calculateRecordLengthInBytes dbf.fields) :
    ∀ (fuel rr : Nat) (records : List RecOut) (mst : MemoSt)
      (out : List RecOut × Nat × MemoSt),
      rr ≤ dbf.recordCount →
      readLoop dbf file memoEnv maxCount fuel rr records mst = .ok out →
      ∃ (newrecs : List RecOut),
        out.1 = records ++ newrecs ∧ rr ≤ out.2.1 ∧ out.2.1 ≤ dbf.recordCount ∧
        sliceRecords dbf.version dbf.loose dbf.encoding dbf.includeDeletedRecords memoEnv
          dbf.fields dbf.recordLength file dbf.headerLength rr (out.2.1 - rr) mst =
          .ok (newrecs, out.2.2) ∧
        (records.length + (dbf.recordCount - rr) ≤ maxCount → out.2.1 = dbf.recordCount) := by
  intro fuel
  induction fuel with
  | zero =>
    intro rr records mst out _ h
    exact absurd h (by simp [readLoop])
  | succ fuel ih =>
    intro rr records mst out hrr h
    simp only [readLoop] at h
    by_cases hz : min (min (dbf.recordCount - rr) (maxCount - records.length)) 1000 = 0
    · rw [if_pos hz] at h
      rw [Except.ok.injEq] at h
      subst h
      refine ⟨[], by simp, le_refl _, hrr, ?_, ?_⟩
      · simp only [Nat.sub_self]
        rfl
      · intro hb
        show (records, rr, mst).2.1 = dbf.recordCount
        dsimp only []
        omega
    · rw [if_neg hz] at h
      have hps := parseChunk_slice dbf.version dbf.loose dbf.encoding dbf.includeDeletedRecords
        memoEnv dbf.fields dbf.recordLength file dbf.headerLength rr
        (min (min (dbf.recordCount - rr) (maxCount - records.length)) 1000) hfs hrl
        (min (min (dbf.recordCount - rr) (maxCount - records.length)) 1000) 0 mst records
        (by omega)
      rw [show dbf.recordLength * 0 = 0 from by ring, show rr + 0 = rr from rfl] at hps
      rw [hps] at h
      cases hsl : sliceRecords dbf.version dbf.loose dbf.encoding dbf.includeDeletedRecords
          memoEnv dbf.fields dbf.recordLength file dbf.headerLength rr
          (min (min (dbf.recordCount - rr) (maxCount - records.length)) 1000) mst with
      | error e =>
        rw [hsl] at h
        exact Except.noConfusion h
      | ok q =>
        obtain ⟨rs1, mst1⟩ := q
        rw [hsl] at h
        simp only [Except.map] at h
        have hlen1 := sliceRecords_length_le dbf.version dbf.loose dbf.encoding
          dbf.includeDeletedRecords memoEnv dbf.fields dbf.recordLength file dbf.headerLength
          (min (min (dbf.recordCount - rr) (maxCount - records.length)) 1000) rr mst mst1 rs1 hsl
        obtain ⟨newrecs2, hout1, hle1, hle2, hsl2, hbud⟩ := ih
          (rr + min (min (dbf.recordCount - rr) (maxCount - records.length)) 1000)
          (records ++ rs1) mst1 out (by omega) h
        refine ⟨rs1 ++ newrecs2, by simp [hout1], by omega, hle2, ?_, ?_⟩
        · have happ := sliceRecords_append dbf.version dbf.loose dbf.encoding
            dbf.includeDeletedRecords memoEnv dbf.fields dbf.recordLength file dbf.headerLength
            (min (min (dbf.recordCount - rr) (maxCount - records.length)) 1000) rr
            (out.2.1 - (rr + min (min (dbf.recordCount - rr) (maxCount - records.length)) 1000))
            mst mst1 out.2.2 rs1 newrecs2 hsl hsl2
          rw [show min (min (dbf.recordCount - rr) (maxCount - records.length)) 1000
            + (out.2.1 - (rr + min (min (dbf.recordCount - rr) (maxCount - records.length)) 1000))
            = out.2.1 - rr from by omega] at happ
          exact happ
        · intro hb
          apply hbud
          simp only [List.length_append]
          omega

/-- The memo block size `readRecordsFromDBF` discovers (0x30: uint16 BE
at 6, `|| 512`; 0x8B: int32 LE at 4, `|| 512`; else 512). -/
def memoBlockSize (version : Nat) (mb : List Nat) : Int :=
  if version = 48 then
    (if readUInt16BE mb 6 = 0 then 512 else readUInt16BE mb 6)
  else
    (let v := if version = 139 then readInt32LE mb 4 else 0
     if v = 0 then 512 else v)

/-- The memo environment a read call builds from the memo file bytes. -/
def memoEnvOf (version : Nat) (memo : Option (List Nat)) : Option MemoEnv :=
  match memo with
  | none => none
  | some mb => some ⟨mb, (memoBlockSize version mb).toNat, mb.length⟩

/-- The freshly allocated (zeroed) memo block buffer of one read call. -/
def initialMemoSt (version : Nat) (memo : Option (List Nat)) : MemoSt :=
  match memo with
  | none => ⟨[], []⟩
  | some mb => ⟨List.replicate (memoBlockSize version mb).toNat 0, []⟩

theorem readRecordsFromDBF_ok (dbf : DBFFileState) (file : List Nat)
    (memo : Option (List Nat)) (maxCount : Nat) (out : List RecOut × DBFFileState)
    (h : readRecordsFromDBF dbf file memo maxCount = .ok out) :
    ∃ (records : List RecOut) (rr' : Nat) (mstf : MemoSt),
      readLoop dbf file (memoEnvOf dbf.version memo) maxCount (dbf.recordCount + 1)
        dbf.recordsRead [] (initialMemoSt dbf.version memo) = .ok (records, rr', mstf) ∧
      out = (records, { dbf with recordsRead := rr' }) := by
  unfold readRecordsFromDBF at h
  cases memo with
  | none =>
    dsimp only [] at h
    cases hl : readLoop dbf file none maxCount (dbf.recordCount + 1) dbf.recordsRead []
        ⟨[], []⟩ with
    | error p =>
      rw [hl] at h
      exact Except.noConfusion h
    | ok t =>
      obtain ⟨records, rr', mstf⟩ := t
      rw [hl] at h
      dsimp only [] at h
      rw [Except.ok.injEq] at h
      exact ⟨records, rr', mstf, hl, h.symm⟩
  | some mb =>
    dsimp only [] at h
    by_cases hbs : (if dbf.version = 48 then
        ((if readUInt16BE mb 6 = 0 then 512 else readUInt16BE mb 6) : Int)
      else
        (let v := if dbf.version = 139 then readInt32LE mb 4 else 0
         if v = 0 then 512 else v)) < 0
    · rw [if_pos hbs] at h
      exact Except.noConfusion h
    · rw [if_neg hbs] at h
      dsimp only [] at h
      cases hl : readLoop dbf file
          (some ⟨mb, (memoBlockSize dbf.version mb).toNat, mb.length⟩) maxCount
          (dbf.recordCount + 1) dbf.recordsRead []
          ⟨List.replicate (memoBlockSize dbf.version mb).toNat 0, []⟩ with
      | error p =>
        rw [show memoBlockSize dbf.version mb = (if dbf.version = 48 then
            ((if readUInt16BE mb 6 = 0 then 512 else readUInt16BE mb 6) : Int)
          else
            (let v := if dbf.version = 139 then readInt32LE mb 4 else 0
             if v = 0 then 512 else v)) from rfl] at hl
        rw [hl] at h
        exact Except.noConfusion h
      | ok t =>
        obtain ⟨records, rr', mstf⟩ := t
        have hl0 := hl
        rw [show memoBlockSize dbf.version mb = (if dbf.version = 48 then
            ((if readUInt16BE mb 6 = 0 then 512 else readUInt16BE mb 6) : Int)
          else
            (let v := if dbf.version = 139 then readInt32LE mb 4 else 0
             if v = 0 then 512 else v)) from rfl] at hl
        rw [hl] at h
        dsimp only [] at h
        rw [Except.ok.injEq] at h
        refine ⟨records, rr', mstf, ?_, h.symm⟩
        simp only [memoEnvOf, initialMemoSt]
        exact hl0

/-- In strict mode the open loop validates every field it returns. -/
theorem parseFieldsLoop_validated (file : List Nat) (encLabel : JStr) (version : Nat)
    (headerLength : Int) :
    ∀ (fuel : Nat) (acc fields : List FieldDescriptor),
      parseFieldsLoop file encLabel false version headerLength fuel acc = .ok fields →
      (∀ f ∈ acc, validateFieldDescriptor version f = .ok ()) →
      ∀ f ∈ fields, validateFieldDescriptor version f = .ok () := by
  intro fuel
  induction fuel with
  | zero =>
    intro acc fields h
    exact absurd h (by simp [parseFieldsLoop])
  | succ fuel ih =>
    intro acc fields h hacc
    rw [parseFieldsLoop_succ] at h
    by_cases h1 : headerLength > 32 + acc.length * 32
    case neg =>
      rw [if_neg h1] at h
      cases h
      exact hacc
    rw [if_pos h1] at h
    by_cases h2 : readUInt8 ((file.drop (32 + acc.length * 32)).take 32) 0 = 13
    case pos =>
      rw [if_pos h2] at h
      cases h
      exact hacc
    rw [if_neg h2] at h
    rw [if_pos (show ¬ (false : Bool) = true from by simp)] at h
    cases hval : validateFieldDescriptor version
        (parsedFieldAt file encLabel (32 + acc.length * 32)) with
    | error e =>
      rw [hval] at h
      exact Except.noConfusion h
    | ok u =>
      cases u
      rw [hval] at h
      by_cases h4 : acc.any (fun f =>
          f.name == (parsedFieldAt file encLabel (32 + acc.length * 32)).name)
      · rw [if_pos h4] at h
        exact Except.noConfusion h
      · rw [if_neg h4] at h
        refine ih _ _ h ?_
        intro f hf
        rcases List.mem_append.mp hf with hfa | hfn
        · exact hacc f hfa
        · rw [List.mem_singleton.mp hfn]
          exact hval

/-! ## Claim C7: reading all records of a freshly opened file -/

/-- C7 (confirmed): for a file opened strictly, reading with a request
of at least `record_count` returns `record_count − #deleted` records
when `include_deleted = false`, and all `record_count` of them — deleted
ones carrying the deleted marker — when `include_deleted = true`.
(I fields are assumed to have their conventional size 4; validation does
not pin it, and decoding an I field always reads 4 bytes.) -/
theorem c7_read_count (file : List Nat) (encCfg : EncodingOpt) (incl memoFound : Bool)
    (st : DBFFileState) (memo : Option (List Nat)) (maxCount : Nat)
    (out : List RecOut × DBFFileState)
    (hopen : openDBF file encCfg false incl memoFound = .ok st)
    (hI4 : ∀ f ∈ st.fields, f.type = 73 → f.size = 4)
    (hmax : st.recordCount ≤ maxCount)
    (hread : readRecordsFromDBF st file memo maxCount = .ok out) :
    out.1.length = (if incl then st.recordCount
      else st.recordCount - deletedCountIn file st.headerLength st.recordLength 0 st.recordCount)
    ∧ (incl = true → (out.1.filter (fun r => r.deleted)).length
        = deletedCountIn file st.headerLength st.recordLength 0 st.recordCount)
    ∧ out.2.recordsRead = st.recordCount := by
  obtain ⟨hp, hrr0, -, -, hrlc, hloose, -, hincl, hver, -⟩ :=
    openDBF_ok file encCfg false incl memoFound st hopen
  have hvalid : ∀ f ∈ st.fields, validateFieldDescriptor st.version f = .ok () := by
    rw [hver]
    exact parseFieldsLoop_validated file (getEncoding encCfg none) (readUInt8 file 0)
      (readInt16LE file 8) ((readInt16LE file 8).toNat + 1) [] st.fields hp
      (by intro f hf; simp at hf)
  obtain ⟨records, rr', mstf, hloop, hout⟩ :=
    readRecordsFromDBF_ok st file memo maxCount out hread
  obtain ⟨newrecs, hout1, -, hle2, hslice, hbud⟩ := readLoop_slice st file
    (memoEnvOf st.version memo) maxCount (fun f hf => ⟨hvalid f hf, hI4 f hf⟩) hrlc
    (st.recordCount + 1) st.recordsRead [] (initialMemoSt st.version memo)
    (records, rr', mstf) (by rw [hrr0]; omega) hloop
  have hrecs : records = newrecs := by simpa using hout1
  have hrr' : rr' = st.recordCount := by
    have := hbud (by simp only [List.length_nil, hrr0]; omega)
    simpa using this
  rw [hrr0, hrr'] at hslice
  simp only [Nat.sub_zero] at hslice
  have hcnt := sliceRecords_count st.version st.loose st.encoding st.includeDeletedRecords
    (memoEnvOf st.version memo) st.fields st.recordLength file st.headerLength
    st.recordCount 0 (initialMemoSt st.version memo) mstf newrecs hslice
  have hout2 : out.1 = newrecs := by rw [hout, ← hrecs]
  have hout3 : out.2.recordsRead = rr' := by rw [hout]
  refine ⟨?_, ?_, by rw [hout3, hrr']⟩
  · cases hi : incl with
    | false =>
      rw [hout2]
      rw [hi] at hincl
      exact hcnt.2 hincl
    | true =>
      rw [hout2]
      rw [hi] at hincl
      exact (hcnt.1 hincl).1
  · intro hi
    rw [hout2]
    rw [hi] at hincl
    exact (hcnt.1 hincl).2

/-- A concrete version-0x03 file with one C(1) field and two records,
the first deleted. -/
def c7file : List Nat :=
  [3, 1, 2, 3] ++ leBytes 4 2 ++ leBytes 2 66 ++ leBytes 2 2 ++ List.replicate 20 0
  ++ descriptorBytes ⟨[65], 67, 1, none⟩
  ++ [13, 0] ++ [42, 88] ++ [32, 65] ++ [26]

/-- C7 witness: opening the concrete two-record file (one deleted) and
reading everything returns exactly one record, and the cursor ends at
the record count. -/
theorem c7_witness :
    ((readRecordsFromDBF ⟨2, [⟨[65], 67, 1, some 0⟩], false, .single latin1Label, false, 0,
        66, 2, false, 3⟩ c7file none 10).toOption.getD
      ([], ⟨0, [], false, .single [], false, 0, 0, 0, false, 0⟩)).1.length =
      (if false then 2
        else 2 - deletedCountIn c7file 66 2 0 2) ∧
    ((false : Bool) = true →
      ((((readRecordsFromDBF ⟨2, [⟨[65], 67, 1, some 0⟩], false, .single latin1Label, false, 0,
          66, 2, false, 3⟩ c7file none 10).toOption.getD
        ([], ⟨0, [], false, .single [], false, 0, 0, 0, false, 0⟩)).1.filter
          (fun r => r.deleted)).length = deletedCountIn c7file 66 2 0 2)) ∧
    ((readRecordsFromDBF ⟨2, [⟨[65], 67, 1, some 0⟩], false, .single latin1Label, false, 0,
        66, 2, false, 3⟩ c7file none 10).toOption.getD
      ([], ⟨0, [], false, .single [], false, 0, 0, 0, false, 0⟩)).2.recordsRead = 2 :=
  c7_read_count c7file (.single latin1Label) false false
    ⟨2, [⟨[65], 67, 1, some 0⟩], false, .single latin1Label, false, 0, 66, 2, false, 3⟩
    none 10
    ((readRecordsFromDBF ⟨2, [⟨[65], 67, 1, some 0⟩], false, .single latin1Label, false, 0,
        66, 2, false, 3⟩ c7file none 10).toOption.getD
      ([], ⟨0, [], false, .single [], false, 0, 0, 0, false, 0⟩))
    (by rfl)
    (by intro f hf; simp at hf; rw [hf]; intro h; exact absurd h (by decide))
    (by decide)
    (by rfl)

/-- One successful `readRecordsFromDBF` call: cursor moves forward only,
never past `recordCount`, only `recordsRead` changes in the handle, and
the returned records are the slice of absolute slots
`[recordsRead, recordsRead')`. -/
theorem readRecords_slice (dbf : DBFFileState) (file : List Nat) (memo : Option (List Nat))
    (maxCount : Nat) (out : List RecOut × DBFFileState)
    (hfs : ∀ f ∈ dbf.fields, validateFieldDescriptor dbf.version f = .ok () ∧
      (f.type = 73 → f.size = 4))
    (hrl : dbf.recordLength = calculateRecordLengthInBytes dbf.fields)
    (hrr : dbf.recordsRead ≤ dbf.recordCount)
    (hread : readRecordsFromDBF dbf file memo maxCount = .ok out) :
    dbf.recordsRead ≤ out.2.recordsRead ∧ out.2.recordsRead ≤ dbf.recordCount ∧
    out.2 = { dbf with recordsRead := out.2.recordsRead } ∧
    ∃ mst', sliceRecords dbf.version dbf.loose dbf.encoding dbf.includeDeletedRecords
        (memoEnvOf dbf.version memo) dbf.fields dbf.recordLength file dbf.headerLength
        dbf.recordsRead (out.2.recordsRead - dbf.recordsRead)
        (initialMemoSt dbf.version memo) = .ok (out.1, mst') := by
  obtain ⟨records, rr', mstf, hloop, hout⟩ :=
    readRecordsFromDBF_ok dbf file memo maxCount out hread
  obtain ⟨newrecs, hout1, hle1, hle2, hslice, -⟩ := readLoop_slice dbf file
    (memoEnvOf dbf.version memo) maxCount hfs hrl (dbf.recordCount + 1) dbf.recordsRead []
    (initialMemoSt dbf.version memo) (records, rr', mstf) hrr hloop
  have hrecs : records = newrecs := by simpa using hout1
  have hor : out.2.recordsRead = rr' := by rw [hout]
  have ho1 : out.1 = records := by rw [hout]
  refine ⟨by rw [hor]; exact hle1, by rw [hor]; exact hle2, by rw [hor, hout], mstf, ?_⟩
  rw [hor, ho1, hrecs]
  exact hslice

/-- C8 (confirmed): the read cursor starts at 0 on open, advances only
with successful reads and never rewinds, and successive reads return
disjoint, contiguous slices of the record stream: each call returns the
decode of absolute slots `[recordsRead, recordsRead')`, and the next
call resumes at exactly `recordsRead'`. -/
theorem c8_cursor_monotone :
    (∀ (file : List Nat) (encCfg : EncodingOpt) (loose includeDel memoFound : Bool)
        (st : DBFFileState),
      openDBF file encCfg loose includeDel memoFound = .ok st → st.recordsRead = 0) ∧
    (∀ (dbf : DBFFileState) (file : List Nat) (memo : Option (List Nat)) (maxCount : Nat)
        (out : List RecOut × DBFFileState),
      (∀ f ∈ dbf.fields, validateFieldDescriptor dbf.version f = .ok () ∧
        (f.type = 73 → f.size = 4)) →
      dbf.recordLength = calculateRecordLengthInBytes dbf.fields →
      dbf.recordsRead ≤ dbf.recordCount →
      readRecordsFromDBF dbf file memo maxCount = .ok out →
      dbf.recordsRead ≤ out.2.recordsRead ∧ out.2.recordsRead ≤ dbf.recordCount ∧
      out.2 = { dbf with recordsRead := out.2.recordsRead } ∧
      ∃ mst', sliceRecords dbf.version dbf.loose dbf.encoding dbf.includeDeletedRecords
          (memoEnvOf dbf.version memo) dbf.fields dbf.recordLength file dbf.headerLength
          dbf.recordsRead (out.2.recordsRead - dbf.recordsRead)
          (initialMemoSt dbf.version memo) = .ok (out.1, mst')) ∧
    (∀ (dbf : DBFFileState) (file : List Nat) (memo1 memo2 : Option (List Nat))
        (k1 k2 : Nat) (out1 out2 : List RecOut × DBFFileState),
      (∀ f ∈ dbf.fields, validateFieldDescriptor dbf.version f = .ok () ∧
        (f.type = 73 → f.size = 4)) →
      dbf.recordLength = calculateRecordLengthInBytes dbf.fields →
      dbf.recordsRead ≤ dbf.recordCount →
      readRecordsFromDBF dbf file memo1 k1 = .ok out1 →
      readRecordsFromDBF out1.2 file memo2 k2 = .ok out2 →
      dbf.recordsRead ≤ out1.2.recordsRead ∧
      out1.2.recordsRead ≤ out2.2.recordsRead ∧ out2.2.recordsRead ≤ dbf.recordCount ∧
      ∃ mst1 mst2,
        sliceRecords dbf.version dbf.loose dbf.encoding dbf.includeDeletedRecords
          (memoEnvOf dbf.version memo1) dbf.fields dbf.recordLength file dbf.headerLength
          dbf.recordsRead (out1.2.recordsRead - dbf.recordsRead)
          (initialMemoSt dbf.version memo1) = .ok (out1.1, mst1) ∧
        sliceRecords dbf.version dbf.loose dbf.encoding dbf.includeDeletedRecords
          (memoEnvOf dbf.version memo2) dbf.fields dbf.recordLength file dbf.headerLength
          out1.2.recordsRead (out2.2.recordsRead - out1.2.recordsRead)
          (initialMemoSt dbf.version memo2) = .ok (out2.1, mst2)) := by
  refine ⟨?_, ?_, ?_⟩
  · intro file encCfg loose includeDel memoFound st h
    exact (openDBF_ok file encCfg loose includeDel memoFound st h).2.1
  · intro dbf file memo maxCount out hfs hrl hrr hread
    exact readRecords_slice dbf file memo maxCount out hfs hrl hrr hread
  · intro dbf file memo1 memo2 k1 k2 out1 out2 hfs hrl hrr hread1 hread2
    obtain ⟨hle1, hle2, hst1, mst1, hsl1⟩ :=
      readRecords_slice dbf file memo1 k1 out1 hfs hrl hrr hread1
    have hf2 : ∀ f ∈ out1.2.fields, validateFieldDescriptor out1.2.version f = .ok () ∧
        (f.type = 73 → f.size = 4) := by
      rw [hst1]
      exact hfs
    have hrl2 : out1.2.recordLength = calculateRecordLengthInBytes out1.2.fields := by
      rw [hst1]
      exact hrl
    have hrr2 : out1.2.recordsRead ≤ out1.2.recordCount := by
      have hc : out1.2.recordCount = dbf.recordCount := by rw [hst1]
      rw [hc]
      exact hle2
    obtain ⟨h2le1, h2le2, hst2, mst2, hsl2⟩ :=
      readRecords_slice out1.2 file memo2 k2 out2 hf2 hrl2 hrr2 hread2
    have h2lec : out2.2.recordsRead ≤ dbf.recordCount := by
      have hc : out1.2.recordCount = dbf.recordCount := by rw [hst1]
      rw [← hc]
      exact h2le2
    refine ⟨hle1, h2le1, h2lec, mst1, mst2, hsl1, ?_⟩
    rw [hst1] at hsl2
    exact hsl2

def c8st : DBFFileState :=
  ⟨2, [⟨[65], 67, 1, some 0⟩], false, .single latin1Label, false, 0, 66, 2, false, 3⟩

def c8out1 : List RecOut × DBFFileState :=
  (readRecordsFromDBF c8st c7file none 1).toOption.getD ([], c8st)

def c8out2 : List RecOut × DBFFileState :=
  (readRecordsFromDBF c8out1.2 c7file none 10).toOption.getD ([], c8st)

/-- C8 witness: on the concrete two-record file, a fresh handle starts
at cursor 0; reading one record and then the rest gives monotone cursors
and the two contiguous slices. -/
theorem c8_witness :
    (⟨1, [⟨[3585], 67, 1, some 0⟩], false, .single tis620Label, false, 0, 66, 2, false, 3⟩ :
        DBFFileState).recordsRead = 0 ∧
    (c8st.recordsRead ≤ c8out1.2.recordsRead ∧
      c8out1.2.recordsRead ≤ c8out2.2.recordsRead ∧
      c8out2.2.recordsRead ≤ c8st.recordCount ∧
      ∃ mst1 mst2,
        sliceRecords c8st.version c8st.loose c8st.encoding c8st.includeDeletedRecords
          (memoEnvOf c8st.version none) c8st.fields c8st.recordLength c7file c8st.headerLength
          c8st.recordsRead (c8out1.2.recordsRead - c8st.recordsRead)
          (initialMemoSt c8st.version none) = .ok (c8out1.1, mst1) ∧
        sliceRecords c8st.version c8st.loose c8st.encoding c8st.includeDeletedRecords
          (memoEnvOf c8st.version none) c8st.fields c8st.recordLength c7file c8st.headerLength
          c8out1.2.recordsRead (c8out2.2.recordsRead - c8out1.2.recordsRead)
          (initialMemoSt c8st.version none) = .ok (c8out2.1, mst2)) :=
  ⟨c8_cursor_monotone.1 c3file (.single tis620Label) false false false
      ⟨1, [⟨[3585], 67, 1, some 0⟩], false, .single tis620Label, false, 0, 66, 2, false, 3⟩
      (by rfl),
   c8_cursor_monotone.2.2 c8st c7file none none 1 10 c8out1 c8out2
     (by
       intro f hf
       simp [c8st] at hf
       rw [hf]
       exact ⟨by rfl, by intro h; exact absurd h (by decide)⟩)
     (by rfl) (by decide) (by rfl) (by rfl)⟩

/-! ## Claim C1: the append/read round trip -/

theorem iconvDecode_latin1 (bs : List Nat) : iconvDecode latin1Label bs = bs := by
  unfold iconvDecode
  rw [if_neg (by decide)]

theorem iconvEncode_latin1_id (s : JStr) (h : ∀ c ∈ s, c < 256) :
    iconvEncode latin1Label s = s := by
  rw [iconvEncode_latin1]
  conv_rhs => rw [← List.map_id s]
  exact List.map_congr_left (fun c hc => by unfold latin1EncChar; rw [if_pos (h c hc)]; rfl)

theorem byteAt_window (chunk : List Nat) (offset size : Nat) (bs : List Nat)
    (hw : (chunk.drop offset).take size = bs) (i : Nat) (hi : i < size) :
    byteAt chunk (offset + i) = byteAt bs i := by
  rw [← hw, byteAt_take _ _ _ hi, byteAt_drop]

theorem readInt32LE_window (chunk : List Nat) (offset size : Nat) (bs : List Nat)
    (hw : (chunk.drop offset).take size = bs) (k : Nat) (hk : k + 4 ≤ size) :
    readInt32LE chunk (offset + k) = readInt32LE bs k := by
  unfold readInt32LE readUInt32LE
  rw [show offset + k + 1 = offset + (k + 1) from by omega,
    show offset + k + 2 = offset + (k + 2) from by omega,
    show offset + k + 3 = offset + (k + 3) from by omega,
    byteAt_window chunk offset size bs hw k (by omega),
    byteAt_window chunk offset size bs hw (k + 1) (by omega),
    byteAt_window chunk offset size bs hw (k + 2) (by omega),
    byteAt_window chunk offset size bs hw (k + 3) (by omega)]

theorem readUInt32LE_window (chunk : List Nat) (offset size : Nat) (bs : List Nat)
    (hw : (chunk.drop offset).take size = bs) (k : Nat) (hk : k + 4 ≤ size) :
    readUInt32LE chunk (offset + k) = readUInt32LE bs k := by
  unfold readUInt32LE
  rw [show offset + k + 1 = offset + (k + 1) from by omega,
    show offset + k + 2 = offset + (k + 2) from by omega,
    show offset + k + 3 = offset + (k + 3) from by omega,
    byteAt_window chunk offset size bs hw k (by omega),
    byteAt_window chunk offset size bs hw (k + 1) (by omega),
    byteAt_window chunk offset size bs hw (k + 2) (by omega),
    byteAt_window chunk offset size bs hw (k + 3) (by omega)]

theorem slice_window (chunk : List Nat) (offset size : Nat) (bs : List Nat)
    (hw : (chunk.drop offset).take size = bs) (t : Nat) (ht : t ≤ size) :
    (chunk.drop offset).take t = bs.take t := by
  rw [← hw, List.take_take]
  congr 1
  omega

theorem dropWhile_replicate_append (p : Nat → Bool) (a : Nat) (n : Nat) (l : List Nat)
    (hp : p a = true) : (List.replicate n a ++ l).dropWhile p = l.dropWhile p := by
  induction n with
  | zero => simp
  | succ n ih => simpa [List.replicate_succ, List.dropWhile_cons, hp] using ih

/-- Trailing-0x20 trim, as the C decoder applies it. -/
def trimTrail (s : JStr) : JStr := (s.reverse.dropWhile (fun b => b == 32)).reverse

theorem trimTrail_append_spaces (s : JStr) (n : Nat) :
    trimTrail (s ++ List.replicate n 32) = trimTrail s := by
  unfold trimTrail
  rw [List.reverse_append, List.reverse_replicate,
    dropWhile_replicate_append _ _ _ _ (by decide)]

theorem decRender_chars (n e : Nat) : ∀ c ∈ decRender n e, 46 ≤ c ∧ c ≤ 57 := by
  unfold decRender
  intro c hc
  rcases List.mem_append.mp hc with h1 | h2
  · obtain ⟨d, hd, hdc⟩ := List.mem_map.mp h1
    have : d < 10 := by
      have hds := List.take_subset _ _ hd
      rcases List.mem_append.mp hds with ha | hb
      · have := List.eq_of_mem_replicate ha
        omega
      · have := natDigits_lt_10 n d hb
        omega
    omega
  · by_cases he : e = 0
    · rw [if_pos he] at h2
      cases h2
    · rw [if_neg he] at h2
      rcases List.mem_cons.mp h2 with h3 | h4
      · omega
      · obtain ⟨d, hd, hdc⟩ := List.mem_map.mp h4
        have : d < 10 := by
          have hds := List.mem_of_mem_drop hd
          rcases List.mem_append.mp hds with ha | hb
          · have := List.eq_of_mem_replicate ha
            omega
          · have := natDigits_lt_10 n d hb
            omega
        omega

theorem jsNumToString_chars (i : Int) (e : Nat) : ∀ c ∈ jsNumToString i e, c < 256 := by
  unfold jsNumToString
  intro c hc
  rcases List.mem_append.mp hc with h1 | h2
  · by_cases hi : i < 0
    · rw [if_pos hi] at h1
      simp at h1
      omega
    · rw [if_neg hi] at h1
      cases h1
  · have := decRender_chars i.natAbs e c h2
    omega

theorem natDigits_length_pos (n : Nat) : 0 < (natDigits n).length := by
  unfold natDigits
  rw [List.length_reverse]
  exact natDigitsRev_len_pos n

theorem decRender_length_pos (n e : Nat) : 0 < (decRender n e).length := by
  unfold decRender
  dsimp only []
  rw [List.length_append, List.length_map, List.length_take]
  have hpos := natDigits_length_pos n
  have hlen : (List.replicate (max (natDigits n).length (e + 1) - (natDigits n).length) 0
      ++ natDigits n).length = max (natDigits n).length (e + 1) := by
    rw [List.length_append, List.length_replicate]
    omega
  rw [hlen]
  omega

theorem decRender_head_digit (n e : Nat) :
    ∀ c, (decRender n e).head? = some c → 48 ≤ c ∧ c ≤ 57 := by
  intro c hc
  unfold decRender at hc
  dsimp only [] at hc
  have hpos := natDigits_length_pos n
  have hlen : (List.replicate (max (natDigits n).length (e + 1) - (natDigits n).length) 0
      ++ natDigits n).length = max (natDigits n).length (e + 1) := by
    rw [List.length_append, List.length_replicate]
    omega
  have htlen : 0 < ((List.replicate (max (natDigits n).length (e + 1)
      - (natDigits n).length) 0 ++ natDigits n).take
        (max (natDigits n).length (e + 1) - e)).length := by
    rw [List.length_take, hlen]
    omega
  cases ht : (List.replicate (max (natDigits n).length (e + 1) - (natDigits n).length) 0
      ++ natDigits n).take (max (natDigits n).length (e + 1) - e) with
  | nil =>
    rw [ht] at htlen
    simp at htlen
  | cons d t =>
    rw [ht] at hc
    simp only [List.map_cons, List.cons_append, List.head?_cons, Option.some.injEq] at hc
    have hdmem : d ∈ (List.replicate (max (natDigits n).length (e + 1)
        - (natDigits n).length) 0 ++ natDigits n) := by
      have : d ∈ d :: t := by simp
      rw [← ht] at this
      exact List.take_subset _ _ this
    have hd10 : d < 10 := by
      rcases List.mem_append.mp hdmem with ha | hb
      · have := List.eq_of_mem_replicate ha
        omega
      · have := natDigits_lt_10 n d hb
        omega
    omega

theorem encodeDecode_C (version : Nat) (loose : Bool) (f : FieldDescriptor) (s : JStr)
    (ht : f.type = 67) (hlt : ∀ c ∈ s, c < 256) (hle : s.length ≤ f.size) :
    encodeFieldBytes latin1Label f (.vstr s) =
      .ok (s ++ List.replicate (f.size - s.length) 32) ∧
    (s ++ List.replicate (f.size - s.length) 32).length = f.size ∧
    ∀ (chunk : List Nat) (offset : Nat) (mst : MemoSt),
      (chunk.drop offset).take f.size = s ++ List.replicate (f.size - s.length) 32 →
      decodeFieldValue version loose (.single latin1Label) none chunk offset f mst =
        .ok (some (.vstr (trimTrail s)), offset + f.size, mst) := by
  have henc : encodeFieldBytes latin1Label f (.vstr s) =
      .ok (s ++ List.replicate (f.size - s.length) 32) := by
    simp only [encodeFieldBytes, ht]
    norm_num
    rw [show (if Value.vstr s = Value.vnull then Value.vstr [] else Value.vstr s)
      = Value.vstr s from if_neg (by simp)]
    dsimp only []
    rw [iconvEncode_latin1_id s hlt, range_map_pad, List.take_of_length_le hle]
  refine ⟨henc, by simp; omega, ?_⟩
  intro chunk offset mst hw
  simp only [decodeFieldValue, ht]
  norm_num
  rw [hw]
  have htt := trimTrail_append_spaces s (f.size - s.length)
  unfold trimTrail at htt
  rw [htt]
  rw [show getEncoding (.single latin1Label) (some f) = latin1Label from rfl]
  rw [iconvDecode_latin1]
  rfl

theorem jsNumToString_ne_nil (i : Int) (e : Nat) : jsNumToString i e ≠ [] := by
  unfold jsNumToString
  intro h
  rcases List.append_eq_nil.mp h with ⟨-, h2⟩
  have := decRender_length_pos i.natAbs e
  rw [h2] at this
  simp at this

theorem jsNumToString_head_ne32 (i : Int) (e : Nat) :
    ∀ c, (jsNumToString i e).head? = some c → ¬ c = 32 := by
  unfold jsNumToString
  intro c hc
  by_cases hi : i < 0
  · rw [if_pos hi] at hc
    simp at hc
    omega
  · rw [if_neg hi] at hc
    rw [List.nil_append] at hc
    have := decRender_head_digit i.natAbs e c hc
    omega

theorem dropWhile_spaces_pad (s : JStr) (n : Nat) (hne : s ≠ [])
    (hh : ∀ c, s.head? = some c → ¬ c = 32) :
    (List.replicate n 32 ++ s).dropWhile (fun b => b == 32) = s := by
  rw [dropWhile_replicate_append _ _ _ _ (by decide)]
  cases s with
  | nil => exact absurd rfl hne
  | cons a t =>
    rw [List.dropWhile_cons, if_neg (by simp [hh a rfl])]

theorem encodeDecode_N (version : Nat) (loose : Bool) (f : FieldDescriptor) (i : Int) (e : Nat)
    (ht : f.type = 78 ∨ f.type = 70) (hcanon : IsCanonDec i e)
    (hle : (jsNumToString i e).length ≤ f.size) :
    encodeFieldBytes latin1Label f (.vnum i e) =
      .ok (List.replicate (f.size - (jsNumToString i e).length) 32 ++ jsNumToString i e) ∧
    (List.replicate (f.size - (jsNumToString i e).length) 32 ++ jsNumToString i e).length
      = f.size ∧
    ∀ (chunk : List Nat) (offset : Nat) (mst : MemoSt),
      (chunk.drop offset).take f.size
        = List.replicate (f.size - (jsNumToString i e).length) 32 ++ jsNumToString i e →
      decodeFieldValue version loose (.single latin1Label) none chunk offset f mst =
        .ok (some (.vnum i e), offset + f.size, mst) := by
  have hchars : ∀ c ∈ List.replicate (f.size - (jsNumToString i e).length) 32
      ++ jsNumToString i e, c < 256 := by
    intro c hc
    rcases List.mem_append.mp hc with h1 | h2
    · have := List.eq_of_mem_replicate h1
      omega
    · exact jsNumToString_chars i e c h2
  have hlen : (List.replicate (f.size - (jsNumToString i e).length) 32
      ++ jsNumToString i e).length = f.size := by
    simp
    omega
  have henc : encodeFieldBytes latin1Label f (.vnum i e) =
      .ok (List.replicate (f.size - (jsNumToString i e).length) 32 ++ jsNumToString i e) := by
    rcases ht with ht | ht <;>
    · simp only [encodeFieldBytes, ht]
      norm_num
      rw [show (if Value.vnum i e = Value.vnull then Value.vstr [] else Value.vnum i e)
        = Value.vnum i e from if_neg (by simp)]
      dsimp only []
      rw [show f.size ⊓ (jsNumToString i e).length = (jsNumToString i e).length from
        min_eq_right hle]
      rw [List.take_of_length_le hle]
      rw [iconvEncode_latin1_id _ hchars, List.take_of_length_le (le_of_eq hlen), hlen,
        Nat.sub_self]
      simp
  refine ⟨henc, hlen, ?_⟩
  intro chunk offset mst hw
  have hdw : (List.replicate (f.size - (jsNumToString i e).length) 32
      ++ jsNumToString i e).dropWhile (fun b => b == 32) = jsNumToString i e :=
    dropWhile_spaces_pad _ _ (jsNumToString_ne_nil i e) (jsNumToString_head_ne32 i e)
  rcases ht with ht | ht <;>
  · simp only [decodeFieldValue, ht]
    norm_num
    rw [hw, hdw]
    rw [show getEncoding (.single latin1Label) (some f) = latin1Label from rfl,
      iconvDecode_latin1]
    rw [if_pos (by
      have := decRender_length_pos i.natAbs e
      unfold jsNumToString
      simp
      omega)]
    rw [parseFloatJS_jsNumToString i e hcanon]

theorem encodeDecode_N_null (version : Nat) (loose : Bool) (f : FieldDescriptor)
    (ht : f.type = 78 ∨ f.type = 70) :
    encodeFieldBytes latin1Label f .vnull = .ok (List.replicate f.size 32) ∧
    (List.replicate f.size 32 : List Nat).length = f.size ∧
    ∀ (chunk : List Nat) (offset : Nat) (mst : MemoSt),
      (chunk.drop offset).take f.size = List.replicate f.size 32 →
      decodeFieldValue version loose (.single latin1Label) none chunk offset f mst =
        .ok (some .vnull, offset + f.size, mst) := by
  have henc : encodeFieldBytes latin1Label f .vnull = .ok (List.replicate f.size 32) := by
    rcases ht with ht | ht <;>
    · simp only [encodeFieldBytes, ht]
      norm_num
      rw [iconvEncode_latin1]
      simp [List.map_replicate, latin1EncChar]
  refine ⟨henc, by simp, ?_⟩
  intro chunk offset mst hw
  rcases ht with ht | ht <;>
  · simp only [decodeFieldValue, ht]
    norm_num
    rw [hw]
    rw [show (List.replicate f.size 32).dropWhile (fun b => b == 32)
      = (List.replicate f.size 32 ++ ([] : List Nat)).dropWhile (fun b => b == 32) from by simp,
      dropWhile_replicate_append _ _ _ _ (by decide)]
    simp

theorem encodeDecode_L (version : Nat) (loose : Bool) (f : FieldDescriptor) (b : Bool)
    (ht : f.type = 76) (hsz : f.size = 1) :
    encodeFieldBytes latin1Label f (.vbool b) = .ok (if b then [84] else [70]) ∧
    (if b then [84] else ([70] : List Nat)).length = f.size ∧
    ∀ (chunk : List Nat) (offset : Nat) (mst : MemoSt),
      (chunk.drop offset).take f.size = (if b then [84] else [70]) →
      decodeFieldValue version loose (.single latin1Label) none chunk offset f mst =
        .ok (some (.vbool b), offset + f.size, mst) := by
  refine ⟨?_, ?_, ?_⟩
  · cases b <;> simp [encodeFieldBytes, ht]
  · cases b <;> simp [hsz]
  · intro chunk offset mst hw
    cases b with
    | true =>
      have hb := byteAt_window chunk offset f.size [84] (by simpa using hw) 0 (by omega)
      rw [Nat.add_zero] at hb
      simp only [decodeFieldValue, ht]
      norm_num
      rw [hb]
      norm_num [byteAt]
      rw [hsz]
    | false =>
      have hb := byteAt_window chunk offset f.size [70] (by simpa using hw) 0 (by omega)
      rw [Nat.add_zero] at hb
      simp only [decodeFieldValue, ht]
      norm_num
      rw [hb]
      norm_num [byteAt]
      rw [hsz]

theorem encodeDecode_L_null (version : Nat) (loose : Bool) (f : FieldDescriptor)
    (ht : f.type = 76) (hsz : f.size = 1) :
    encodeFieldBytes latin1Label f .vnull = .ok [32] ∧
    ([32] : List Nat).length = f.size ∧
    ∀ (chunk : List Nat) (offset : Nat) (mst : MemoSt),
      (chunk.drop offset).take f.size = [32] →
      decodeFieldValue version loose (.single latin1Label) none chunk offset f mst =
        .ok (some .vnull, offset + f.size, mst) := by
  refine ⟨by simp [encodeFieldBytes, ht], by simp [hsz], ?_⟩
  intro chunk offset mst hw
  have hb := byteAt_window chunk offset f.size [32] hw 0 (by omega)
  rw [Nat.add_zero] at hb
  simp only [decodeFieldValue, ht]
  norm_num
  rw [hb]
  norm_num [byteAt]
  rw [hsz]

theorem padDigits_chars (w n : Nat) : ∀ c ∈ padDigits w n, 48 ≤ c ∧ c ≤ 57 := by
  unfold padDigits
  intro c hc
  rcases List.mem_append.mp hc with h1 | h2
  · have := List.eq_of_mem_replicate h1
    omega
  · obtain ⟨d, hd, hdc⟩ := List.mem_map.mp h2
    have := natDigits_lt_10 n d hd
    omega

theorem format8CharDate_chars (y m d : Int) :
    ∀ c ∈ format8CharDate y m d, 48 ≤ c ∧ c ≤ 57 := by
  unfold format8CharDate
  intro c hc
  rcases List.mem_append.mp hc with h1 | h2
  · rcases List.mem_append.mp h1 with h1a | h1b
    · exact padDigits_chars _ _ c h1a
    · exact padDigits_chars _ _ c h1b
  · exact padDigits_chars _ _ c h2

theorem format8CharDate_length (y m d : Int) (hy : 0 ≤ y) (hy2 : y ≤ 9999)
    (hm : 0 ≤ m) (hm2 : m ≤ 99) (hd : 0 ≤ d) (hd2 : d ≤ 99) :
    (format8CharDate y m d).length = 8 := by
  unfold format8CharDate
  rw [List.length_append, List.length_append,
    padDigits_length 4 y.toNat (natDigits_length_le _ 4 (by omega) (by omega)),
    padDigits_length 2 m.toNat (natDigits_length_le _ 2 (by omega) (by omega)),
    padDigits_length 2 d.toNat (natDigits_length_le _ 2 (by omega) (by omega))]

theorem encodeDecode_D (version : Nat) (loose : Bool) (f : FieldDescriptor) (y m d : Int)
    (ht : f.type = 68) (hsz : f.size = 8)
    (hy : 0 ≤ y) (hy2 : y ≤ 9999) (hm : 1 ≤ m) (hm2 : m ≤ 12) (hd : 1 ≤ d) (hd2 : d ≤ 31) :
    encodeFieldBytes latin1Label f (.vdate y m d 0 0 0) = .ok (format8CharDate y m d) ∧
    (format8CharDate y m d).length = f.size ∧
    ∀ (chunk : List Nat) (offset : Nat) (mst : MemoSt),
      (chunk.drop offset).take f.size = format8CharDate y m d →
      decodeFieldValue version loose (.single latin1Label) none chunk offset f mst =
        .ok (some (.vdate y m d 0 0 0), offset + f.size, mst) := by
  have hlen := format8CharDate_length y m d hy hy2 (by omega) (by omega) (by omega) (by omega)
  have henc : encodeFieldBytes latin1Label f (.vdate y m d 0 0 0)
      = .ok (format8CharDate y m d) := by
    simp only [encodeFieldBytes, ht]
    norm_num
    rw [show (if Value.vdate y m d 0 0 0 = Value.vnull then Value.vstr []
      else Value.vdate y m d 0 0 0) = Value.vdate y m d 0 0 0 from if_neg (by simp)]
    dsimp only []
    rw [if_pos (by omega)]
    rw [iconvEncode_latin1_id _ (fun c hc => by have := format8CharDate_chars y m d c hc; omega)]
  refine ⟨henc, by rw [hlen, hsz], ?_⟩
  intro chunk offset mst hw
  have hb0 : byteAt chunk (offset + 0) = byteAt (format8CharDate y m d) 0 :=
    byteAt_window chunk offset f.size _ hw 0 (by omega)
  have hb0mem : byteAt (format8CharDate y m d) 0 ∈ format8CharDate y m d := by
    unfold byteAt
    rw [List.getD_eq_getElem _ _ (by omega)]
    exact List.getElem_mem _
  have hb0d := format8CharDate_chars y m d _ hb0mem
  rw [Nat.add_zero] at hb0
  simp only [decodeFieldValue, ht]
  norm_num
  rw [hb0]
  rw [if_neg (by omega)]
  rw [show getEncoding (.single latin1Label) (some f) = latin1Label from rfl]
  rw [show (chunk.drop offset).take 8 = format8CharDate y m d from by rw [hsz] at hw; exact hw]
  rw [iconvDecode_latin1]
  rw [parse8CharDate_format8CharDate y m d hy hy2 (by omega) (by omega) (by omega) (by omega)]
  rw [hsz]
  exact ⟨rfl, rfl⟩

theorem encodeDecode_D_null (version : Nat) (loose : Bool) (f : FieldDescriptor)
    (ht : f.type = 68) (hsz : f.size = 8) :
    encodeFieldBytes latin1Label f .vnull = .ok (List.replicate 8 32) ∧
    (List.replicate 8 32 : List Nat).length = f.size ∧
    ∀ (chunk : List Nat) (offset : Nat) (mst : MemoSt),
      (chunk.drop offset).take f.size = List.replicate 8 32 →
      decodeFieldValue version loose (.single latin1Label) none chunk offset f mst =
        .ok (some .vnull, offset + f.size, mst) := by
  refine ⟨by simp [encodeFieldBytes, ht], by simp [hsz], ?_⟩
  intro chunk offset mst hw
  have hb := byteAt_window chunk offset f.size _ hw 0 (by omega)
  rw [Nat.add_zero] at hb
  simp only [decodeFieldValue, ht]
  norm_num
  rw [hb]
  norm_num [byteAt]
  rw [hsz]

theorem writeInt32LEBytes_length (v : Int) : (writeInt32LEBytes v).length = 4 := by
  simp [writeInt32LEBytes, leBytes_length]

theorem readInt32LE_concat_left (v : Int) (tail : List Nat) :
    readInt32LE (writeInt32LEBytes v ++ tail) 0 = readInt32LE (writeInt32LEBytes v) 0 := by
  unfold readInt32LE readUInt32LE
  rw [byteAt_append_left _ _ 0 (by rw [writeInt32LEBytes_length]; omega),
    byteAt_append_left _ _ 1 (by rw [writeInt32LEBytes_length]; omega),
    byteAt_append_left _ _ 2 (by rw [writeInt32LEBytes_length]; omega),
    byteAt_append_left _ _ 3 (by rw [writeInt32LEBytes_length]; omega)]

theorem readInt32LE_concat_right (a b : Int) :
    readInt32LE (writeInt32LEBytes a ++ writeInt32LEBytes b) 4
      = readInt32LE (writeInt32LEBytes b) 0 := by
  unfold readInt32LE readUInt32LE
  rw [show (4 : Nat) = (writeInt32LEBytes a).length + 0 from by rw [writeInt32LEBytes_length],
    byteAt_append_right,
    show (writeInt32LEBytes a).length + 0 + 1 = (writeInt32LEBytes a).length + 1 from by omega,
    byteAt_append_right,
    show (writeInt32LEBytes a).length + 0 + 2 = (writeInt32LEBytes a).length + 2 from by omega,
    byteAt_append_right,
    show (writeInt32LEBytes a).length + 0 + 3 = (writeInt32LEBytes a).length + 3 from by omega,
    byteAt_append_right]

theorem daysInMonth_le31 (y m : Int) : daysInMonth y m ≤ 31 := by
  unfold daysInMonth
  split
  · split <;> omega
  · split <;> omega

theorem daysFromCivil_bounds (y m d : Int) (hy : 1 ≤ y) (hy2 : y ≤ 9999)
    (hm : 1 ≤ m) (hm2 : m ≤ 12) (hd : 1 ≤ d) (hd2 : d ≤ 31) :
    -719469 < daysFromCivil y m d ∧ daysFromCivil y m d < 3000000 := by
  unfold daysFromCivil
  dsimp only []
  by_cases hc : m ≤ 2
  · rw [if_pos hc, if_neg (by omega)]
    omega
  · rw [if_neg hc, if_pos (by omega)]
    omega

theorem encodeDecode_T (version : Nat) (loose : Bool) (f : FieldDescriptor)
    (y m d hh mi ss : Int) (ht : f.type = 84) (hsz : f.size = 8)
    (hy : 1 ≤ y) (hy2 : y ≤ 9999) (hm : 1 ≤ m) (hm2 : m ≤ 12) (hd : 1 ≤ d)
    (hd2 : d ≤ daysInMonth y m) (hhh : 0 ≤ hh) (hhh2 : hh ≤ 23) (hmi : 0 ≤ mi)
    (hmi2 : mi ≤ 59) (hss : 0 ≤ ss) (hss2 : ss ≤ 59)
    (hlow : (daysFromCivil y m d + 2440588) % 256 ≠ 32) :
    encodeFieldBytes latin1Label f (.vdate y m d hh mi ss) =
      .ok (writeInt32LEBytes (formatVfpDateTime y m d hh mi ss).1
        ++ writeInt32LEBytes (formatVfpDateTime y m d hh mi ss).2) ∧
    (writeInt32LEBytes (formatVfpDateTime y m d hh mi ss).1
      ++ writeInt32LEBytes (formatVfpDateTime y m d hh mi ss).2).length = f.size ∧
    ∀ (chunk : List Nat) (offset : Nat) (mst : MemoSt),
      (chunk.drop offset).take f.size
        = writeInt32LEBytes (formatVfpDateTime y m d hh mi ss).1
          ++ writeInt32LEBytes (formatVfpDateTime y m d hh mi ss).2 →
      decodeFieldValue version loose (.single latin1Label) none chunk offset f mst =
        .ok (some (.vdate y m d hh mi ss), offset + f.size, mst) := by
  have hd31 : d ≤ 31 := le_trans hd2 (daysInMonth_le31 y m)
  have hdfc := daysFromCivil_bounds y m d hy hy2 hm hm2 hd hd31
  have hp1 : (formatVfpDateTime y m d hh mi ss).1 = daysFromCivil y m d + 2440588 := by
    unfold formatVfpDateTime
    dsimp only []
    omega
  have hp2 : (formatVfpDateTime y m d hh mi ss).2 = ((hh * 60 + mi) * 60 + ss) * 1000 := rfl
  have hr1a : -2147483648 ≤ (formatVfpDateTime y m d hh mi ss).1 := by rw [hp1]; omega
  have hr1b : (formatVfpDateTime y m d hh mi ss).1 < 2147483648 := by rw [hp1]; omega
  have hr2a : -2147483648 ≤ (formatVfpDateTime y m d hh mi ss).2 := by rw [hp2]; omega
  have hr2b : (formatVfpDateTime y m d hh mi ss).2 < 2147483648 := by rw [hp2]; omega
  have henc : encodeFieldBytes latin1Label f (.vdate y m d hh mi ss) =
      .ok (writeInt32LEBytes (formatVfpDateTime y m d hh mi ss).1
        ++ writeInt32LEBytes (formatVfpDateTime y m d hh mi ss).2) := by
    simp only [encodeFieldBytes, ht]
    norm_num
    rw [show (if Value.vdate y m d hh mi ss = Value.vnull then Value.vstr []
      else Value.vdate y m d hh mi ss) = Value.vdate y m d hh mi ss from if_neg (by simp)]
    dsimp only []
    rw [if_pos ⟨hr1a, hr1b, hr2a, hr2b⟩]
  refine ⟨henc, by simp [writeInt32LEBytes_length, hsz], ?_⟩
  intro chunk offset mst hw
  have hb0 : byteAt chunk (offset + 0) = byteAt (writeInt32LEBytes
      (formatVfpDateTime y m d hh mi ss).1 ++ writeInt32LEBytes
      (formatVfpDateTime y m d hh mi ss).2) 0 :=
    byteAt_window chunk offset f.size _ hw 0 (by omega)
  rw [byteAt_append_left _ _ 0 (by rw [writeInt32LEBytes_length]; omega)] at hb0
  rw [show writeInt32LEBytes (formatVfpDateTime y m d hh mi ss).1
    = leBytes 4 ((formatVfpDateTime y m d hh mi ss).1 % 4294967296).toNat from rfl,
    byteAt_leBytes_lt 4 _ 0 (by omega)] at hb0
  have hb0ne : byteAt chunk offset ≠ 32 := by
    rw [Nat.add_zero] at hb0
    rw [hb0]
    rw [hp1]
    simp only [pow_zero, Nat.div_one]
    omega
  have hi1 : readInt32LE chunk (offset + 0) = (formatVfpDateTime y m d hh mi ss).1 := by
    rw [readInt32LE_window chunk offset f.size _ hw 0 (by omega),
      readInt32LE_concat_left, readInt32LE_writeInt32LE _ hr1a hr1b]
  have hi2 : readInt32LE chunk (offset + 4) = (formatVfpDateTime y m d hh mi ss).2 := by
    rw [readInt32LE_window chunk offset f.size _ hw 4 (by omega),
      readInt32LE_concat_right, readInt32LE_writeInt32LE _ hr2a hr2b]
  rw [Nat.add_zero] at hi1
  simp only [decodeFieldValue, ht]
  norm_num
  rw [if_neg hb0ne, hi1, hi2,
    parseVfpDateTime_formatVfpDateTime y m d hh mi ss hm hm2 hd hd2 hhh hhh2 hmi hmi2 hss hss2,
    hsz]
  exact ⟨rfl, rfl⟩

theorem encodeDecode_T_null (version : Nat) (loose : Bool) (f : FieldDescriptor)
    (ht : f.type = 84) (hsz : f.size = 8) :
    encodeFieldBytes latin1Label f .vnull = .ok (List.replicate 8 32) ∧
    (List.replicate 8 32 : List Nat).length = f.size ∧
    ∀ (chunk : List Nat) (offset : Nat) (mst : MemoSt),
      (chunk.drop offset).take f.size = List.replicate 8 32 →
      decodeFieldValue version loose (.single latin1Label) none chunk offset f mst =
        .ok (some .vnull, offset + f.size, mst) := by
  refine ⟨by simp [encodeFieldBytes, ht], by simp [hsz], ?_⟩
  intro chunk offset mst hw
  have hb := byteAt_window chunk offset f.size _ hw 0 (by omega)
  rw [Nat.add_zero] at hb
  simp only [decodeFieldValue, ht]
  norm_num
  rw [hb]
  norm_num [byteAt]
  rw [hsz]

theorem encodeDecode_I (version : Nat) (loose : Bool) (f : FieldDescriptor) (i : Int)
    (ht : f.type = 73) (hsz : f.size = 4)
    (hlo : -2147483648 ≤ i) (hhi : i ≤ 2147483647) :
    encodeFieldBytes latin1Label f (.vnum i 0) = .ok (writeInt32LEBytes i) ∧
    (writeInt32LEBytes i).length = f.size ∧
    ∀ (chunk : List Nat) (offset : Nat) (mst : MemoSt),
      (chunk.drop offset).take f.size = writeInt32LEBytes i →
      decodeFieldValue version loose (.single latin1Label) none chunk offset f mst =
        .ok (some (.vnum i 0), offset + f.size, mst) := by
  have henc : encodeFieldBytes latin1Label f (.vnum i 0) = .ok (writeInt32LEBytes i) := by
    simp only [encodeFieldBytes, ht]
    norm_num
    rw [show (if Value.vnum i 0 = Value.vnull then Value.vstr [] else Value.vnum i 0)
      = Value.vnum i 0 from if_neg (by simp)]
    dsimp only []
    rw [if_pos (by norm_num; omega)]
    rw [show Int.tdiv i ((10 : Int) ^ (0 : Nat)) = i from by norm_num]
  refine ⟨henc, by rw [writeInt32LEBytes_length, hsz], ?_⟩
  intro chunk offset mst hw
  have hi1 : readInt32LE chunk (offset + 0) = i := by
    rw [readInt32LE_window chunk offset f.size _ hw 0 (by omega),
      readInt32LE_writeInt32LE _ hlo (by omega)]
  rw [Nat.add_zero] at hi1
  simp only [decodeFieldValue, ht]
  norm_num
  rw [hi1]

theorem encodeDecode_B (version : Nat) (loose : Bool) (f : FieldDescriptor) (bits : Nat)
    (ht : f.type = 66) (hsz : f.size = 8) (hb : bits < 18446744073709551616) :
    encodeFieldBytes latin1Label f (.vdbl bits) = .ok (leBytes 8 bits) ∧
    (leBytes 8 bits).length = f.size ∧
    ∀ (chunk : List Nat) (offset : Nat) (mst : MemoSt),
      (chunk.drop offset).take f.size = leBytes 8 bits →
      decodeFieldValue version loose (.single latin1Label) none chunk offset f mst =
        .ok (some (.vdbl bits), offset + f.size, mst) := by
  have henc : encodeFieldBytes latin1Label f (.vdbl bits) = .ok (leBytes 8 bits) := by
    simp only [encodeFieldBytes, ht]
    norm_num
    rw [show (if Value.vdbl bits = Value.vnull then Value.vstr [] else Value.vdbl bits)
      = Value.vdbl bits from if_neg (by simp)]
    dsimp only []
    rw [if_pos hb]
  refine ⟨henc, by rw [leBytes_length, hsz], ?_⟩
  intro chunk offset mst hw
  have hlo : readUInt32LE chunk (offset + 0) = bits % 4294967296 := by
    rw [readUInt32LE_window chunk offset f.size _ hw 0 (by omega)]
    unfold readUInt32LE
    rw [byteAt_leBytes_lt 8 bits 0 (by omega), byteAt_leBytes_lt 8 bits 1 (by omega),
      byteAt_leBytes_lt 8 bits 2 (by omega), byteAt_leBytes_lt 8 bits 3 (by omega)]
    simp only [pow_zero, pow_one, Nat.div_one]
    omega
  have hhi : readUInt32LE chunk (offset + 4) = bits / 4294967296 := by
    rw [readUInt32LE_window chunk offset f.size _ hw 4 (by omega)]
    unfold readUInt32LE
    rw [byteAt_leBytes_lt 8 bits 4 (by omega), byteAt_leBytes_lt 8 bits 5 (by omega),
      byteAt_leBytes_lt 8 bits 6 (by omega), byteAt_leBytes_lt 8 bits 7 (by omega)]
    omega
  rw [Nat.add_zero] at hlo
  simp only [decodeFieldValue, ht]
  norm_num
  rw [hlo, hhi]
  omega

/-- The values of each field type for which the stored frame decodes
back to the original (up to C-trailing-space trimming).  C strings must
be single-byte text that fits; N/F numbers canonical decimals whose
fixed notation fits; D dates at midnight; T datetimes whose stored
julian day's low byte is not 0x20 (such frames read back as null); I
int32s; B any 64-bit pattern.  `null` is admitted exactly for N/F, L, D
and T — a null C decodes as `''`, a null I as `0`, a null B as `0.0`. -/
def AdmissibleValue (f : FieldDescriptor) (v : Value) : Prop :=
  match f.type, v with
  | 67, .vstr s => (∀ c ∈ s, c < 256) ∧ s.length ≤ f.size
  | 78, .vnum i e => IsCanonDec i e ∧ (jsNumToString i e).length ≤ f.size
  | 70, .vnum i e => IsCanonDec i e ∧ (jsNumToString i e).length ≤ f.size
  | 78, .vnull => True
  | 70, .vnull => True
  | 76, .vbool _ => True
  | 76, .vnull => True
  | 68, .vdate y m d hh mi ss =>
    0 ≤ y ∧ y ≤ 9999 ∧ 1 ≤ m ∧ m ≤ 12 ∧ 1 ≤ d ∧ d ≤ 31 ∧ hh = 0 ∧ mi = 0 ∧ ss = 0
  | 68, .vnull => True
  | 84, .vdate y m d hh mi ss =>
    1 ≤ y ∧ y ≤ 9999 ∧ 1 ≤ m ∧ m ≤ 12 ∧ 1 ≤ d ∧ d ≤ daysInMonth y m ∧
    0 ≤ hh ∧ hh ≤ 23 ∧ 0 ≤ mi ∧ mi ≤ 59 ∧ 0 ≤ ss ∧ ss ≤ 59 ∧
    (daysFromCivil y m d + 2440588) % 256 ≠ 32
  | 84, .vnull => True
  | 73, .vnum i e => e = 0 ∧ -2147483648 ≤ i ∧ i ≤ 2147483647
  | 66, .vdbl bits => bits < 18446744073709551616
  | _, _ => False

/-- What the round trip returns: the value itself, except that C fields
come back with trailing spaces trimmed. -/
def ExpectedValue (f : FieldDescriptor) (v : Value) : Value :=
  match f.type, v with
  | 67, .vstr s => .vstr (trimTrail s)
  | _, _ => v

/-- The bytes the append path writes for one field. -/
def encodedFieldBytes (f : FieldDescriptor) (v : Value) : List Nat :=
  (encodeFieldBytes latin1Label f v).toOption.getD []

theorem encodeDecode_field (version : Nat) (loose : Bool) (f : FieldDescriptor) (v : Value)
    (hval : validateFieldDescriptor version f = .ok ()) (hI4 : f.type = 73 → f.size = 4)
    (hadm : AdmissibleValue f v) :
    encodeFieldBytes latin1Label f v = .ok (encodedFieldBytes f v) ∧
    (encodedFieldBytes f v).length = f.size ∧
    ∀ (chunk : List Nat) (offset : Nat) (mst : MemoSt),
      (chunk.drop offset).take f.size = encodedFieldBytes f v →
      decodeFieldValue version loose (.single latin1Label) none chunk offset f mst =
        .ok (some (ExpectedValue f v), offset + f.size, mst) := by
  obtain ⟨-, -, htype, hsz1, hC, hN, hF, hL, hD, hM, hT, hB⟩ :=
    validateFieldDescriptor_ok_implies version f hval
  simp only [FieldTypes, List.mem_cons, List.not_mem_nil, or_false] at htype
  rcases htype with ht | ht | ht | ht | ht | ht | ht | ht | ht
  · -- C = 67
    cases v with
    | vstr s =>
      simp only [AdmissibleValue, ht] at hadm
      obtain ⟨h1, h2⟩ := hadm
      have hcase := encodeDecode_C version loose f s ht h1 h2
      have hbytes : encodedFieldBytes f (.vstr s)
          = s ++ List.replicate (f.size - s.length) 32 := by
        unfold encodedFieldBytes
        rw [hcase.1]
        rfl
      rw [hbytes, show ExpectedValue f (.vstr s) = .vstr (trimTrail s) from by
        simp [ExpectedValue, ht]]
      exact hcase
    | vnull => simp [AdmissibleValue, ht] at hadm
    | vnum i e => simp [AdmissibleValue, ht] at hadm
    | vnan => simp [AdmissibleValue, ht] at hadm
    | vdbl bits => simp [AdmissibleValue, ht] at hadm
    | vbool b => simp [AdmissibleValue, ht] at hadm
    | vdate y m d hh mi ss => simp [AdmissibleValue, ht] at hadm
  · -- N = 78
    cases v with
    | vnum i e =>
      simp only [AdmissibleValue, ht] at hadm
      obtain ⟨h1, h2⟩ := hadm
      have hcase := encodeDecode_N version loose f i e (Or.inl ht) h1 h2
      have hbytes : encodedFieldBytes f (.vnum i e)
          = List.replicate (f.size - (jsNumToString i e).length) 32 ++ jsNumToString i e := by
        unfold encodedFieldBytes
        rw [hcase.1]
        rfl
      rw [hbytes, show ExpectedValue f (.vnum i e) = .vnum i e from by simp [ExpectedValue, ht]]
      exact hcase
    | vnull =>
      have hcase := encodeDecode_N_null version loose f (Or.inl ht)
      have hbytes : encodedFieldBytes f .vnull = List.replicate f.size 32 := by
        unfold encodedFieldBytes
        rw [hcase.1]
        rfl
      rw [hbytes, show ExpectedValue f .vnull = .vnull from by simp [ExpectedValue, ht]]
      exact hcase
    | vstr s => simp [AdmissibleValue, ht] at hadm
    | vnan => simp [AdmissibleValue, ht] at hadm
    | vdbl bits => simp [AdmissibleValue, ht] at hadm
    | vbool b => simp [AdmissibleValue, ht] at hadm
    | vdate y m d hh mi ss => simp [AdmissibleValue, ht] at hadm
  · -- F = 70
    cases v with
    | vnum i e =>
      simp only [AdmissibleValue, ht] at hadm
      obtain ⟨h1, h2⟩ := hadm
      have hcase := encodeDecode_N version loose f i e (Or.inr ht) h1 h2
      have hbytes : encodedFieldBytes f (.vnum i e)
          = List.replicate (f.size - (jsNumToString i e).length) 32 ++ jsNumToString i e := by
        unfold encodedFieldBytes
        rw [hcase.1]
        rfl
      rw [hbytes, show ExpectedValue f (.vnum i e) = .vnum i e from by simp [ExpectedValue, ht]]
      exact hcase
    | vnull =>
      have hcase := encodeDecode_N_null version loose f (Or.inr ht)
      have hbytes : encodedFieldBytes f .vnull = List.replicate f.size 32 := by
        unfold encodedFieldBytes
        rw [hcase.1]
        rfl
      rw [hbytes, show ExpectedValue f .vnull = .vnull from by simp [ExpectedValue, ht]]
      exact hcase
    | vstr s => simp [AdmissibleValue, ht] at hadm
    | vnan => simp [AdmissibleValue, ht] at hadm
    | vdbl bits => simp [AdmissibleValue, ht] at hadm
    | vbool b => simp [AdmissibleValue, ht] at hadm
    | vdate y m d hh mi ss => simp [AdmissibleValue, ht] at hadm
  · -- L = 76
    cases v with
    | vbool b =>
      have hcase := encodeDecode_L version loose f b ht (hL ht)
      have hbytes : encodedFieldBytes f (.vbool b) = (if b then [84] else [70]) := by
        unfold encodedFieldBytes
        rw [hcase.1]
        rfl
      rw [hbytes, show ExpectedValue f (.vbool b) = .vbool b from by simp [ExpectedValue, ht]]
      exact hcase
    | vnull =>
      have hcase := encodeDecode_L_null version loose f ht (hL ht)
      have hbytes : encodedFieldBytes f .vnull = [32] := by
        unfold encodedFieldBytes
        rw [hcase.1]
        rfl
      rw [hbytes, show ExpectedValue f .vnull = .vnull from by simp [ExpectedValue, ht]]
      exact hcase
    | vstr s => simp [AdmissibleValue, ht] at hadm
    | vnum i e => simp [AdmissibleValue, ht] at hadm
    | vnan => simp [AdmissibleValue, ht] at hadm
    | vdbl bits => simp [AdmissibleValue, ht] at hadm
    | vdate y m d hh mi ss => simp [AdmissibleValue, ht] at hadm
  · -- D = 68
    cases v with
    | vdate y m d hh mi ss =>
      simp only [AdmissibleValue, ht] at hadm
      obtain ⟨hy, hy2, hm, hm2, hd, hd2, hhh, hmi, hss⟩ := hadm
      subst hhh
      subst hmi
      subst hss
      have hcase := encodeDecode_D version loose f y m d ht (hD ht) hy hy2 hm hm2 hd hd2
      have hbytes : encodedFieldBytes f (.vdate y m d 0 0 0) = format8CharDate y m d := by
        unfold encodedFieldBytes
        rw [hcase.1]
        rfl
      rw [hbytes, show ExpectedValue f (.vdate y m d 0 0 0) = .vdate y m d 0 0 0 from by
        simp [ExpectedValue, ht]]
      exact hcase
    | vnull =>
      have hcase := encodeDecode_D_null version loose f ht (hD ht)
      have hbytes : encodedFieldBytes f .vnull = List.replicate 8 32 := by
        unfold encodedFieldBytes
        rw [hcase.1]
        rfl
      rw [hbytes, show ExpectedValue f .vnull = .vnull from by simp [ExpectedValue, ht]]
      exact hcase
    | vstr s => simp [AdmissibleValue, ht] at hadm
    | vnum i e => simp [AdmissibleValue, ht] at hadm
    | vnan => simp [AdmissibleValue, ht] at hadm
    | vdbl bits => simp [AdmissibleValue, ht] at hadm
    | vbool b => simp [AdmissibleValue, ht] at hadm
  · -- I = 73
    cases v with
    | vnum i e =>
      simp only [AdmissibleValue, ht] at hadm
      obtain ⟨he, hlo, hhi⟩ := hadm
      subst he
      have hcase := encodeDecode_I version loose f i ht (hI4 ht) hlo hhi
      have hbytes : encodedFieldBytes f (.vnum i 0) = writeInt32LEBytes i := by
        unfold encodedFieldBytes
        rw [hcase.1]
        rfl
      rw [hbytes, show ExpectedValue f (.vnum i 0) = .vnum i 0 from by simp [ExpectedValue, ht]]
      exact hcase
    | vnull => simp [AdmissibleValue, ht] at hadm
    | vstr s => simp [AdmissibleValue, ht] at hadm
    | vnan => simp [AdmissibleValue, ht] at hadm
    | vdbl bits => simp [AdmissibleValue, ht] at hadm
    | vbool b => simp [AdmissibleValue, ht] at hadm
    | vdate y m d hh mi ss => simp [AdmissibleValue, ht] at hadm
  · -- M = 77
    exfalso
    cases v <;> simp [AdmissibleValue, ht] at hadm
  · -- T = 84
    cases v with
    | vdate y m d hh mi ss =>
      simp only [AdmissibleValue, ht] at hadm
      obtain ⟨hy, hy2, hm, hm2, hd, hd2, hhh, hhh2, hmi, hmi2, hss, hss2, hlow⟩ := hadm
      have hcase := encodeDecode_T version loose f y m d hh mi ss ht (hT ht)
        hy hy2 hm hm2 hd hd2 hhh hhh2 hmi hmi2 hss hss2 hlow
      have hbytes : encodedFieldBytes f (.vdate y m d hh mi ss)
          = writeInt32LEBytes (formatVfpDateTime y m d hh mi ss).1
            ++ writeInt32LEBytes (formatVfpDateTime y m d hh mi ss).2 := by
        unfold encodedFieldBytes
        rw [hcase.1]
        rfl
      rw [hbytes, show ExpectedValue f (.vdate y m d hh mi ss) = .vdate y m d hh mi ss from by
        simp [ExpectedValue, ht]]
      exact hcase
    | vnull =>
      have hcase := encodeDecode_T_null version loose f ht (hT ht)
      have hbytes : encodedFieldBytes f .vnull = List.replicate 8 32 := by
        unfold encodedFieldBytes
        rw [hcase.1]
        rfl
      rw [hbytes, show ExpectedValue f .vnull = .vnull from by simp [ExpectedValue, ht]]
      exact hcase
    | vstr s => simp [AdmissibleValue, ht] at hadm
    | vnum i e => simp [AdmissibleValue, ht] at hadm
    | vnan => simp [AdmissibleValue, ht] at hadm
    | vdbl bits => simp [AdmissibleValue, ht] at hadm
    | vbool b => simp [AdmissibleValue, ht] at hadm
  · -- B = 66
    cases v with
    | vdbl bits =>
      simp only [AdmissibleValue, ht] at hadm
      have hcase := encodeDecode_B version loose f bits ht (hB ht) hadm
      have hbytes : encodedFieldBytes f (.vdbl bits) = leBytes 8 bits := by
        unfold encodedFieldBytes
        rw [hcase.1]
        rfl
      rw [hbytes, show ExpectedValue f (.vdbl bits) = .vdbl bits from by simp [ExpectedValue, ht]]
      exact hcase
    | vnull => simp [AdmissibleValue, ht] at hadm
    | vstr s => simp [AdmissibleValue, ht] at hadm
    | vnum i e => simp [AdmissibleValue, ht] at hadm
    | vnan => simp [AdmissibleValue, ht] at hadm
    | vbool b => simp [AdmissibleValue, ht] at hadm
    | vdate y m d hh mi ss => simp [AdmissibleValue, ht] at hadm

theorem validateRecordField_adm (version : Nat) (f : FieldDescriptor) (rec : RecordData)
    (hval : validateFieldDescriptor version f = .ok ())
    (hadm : AdmissibleValue f (recGet rec f.name)) :
    validateRecordField f rec = .ok () := by
  obtain ⟨-, -, htype, hsz1, hC, hN, hF, hL, hD, hM, hT, hB⟩ :=
    validateFieldDescriptor_ok_implies version f hval
  simp only [FieldTypes, List.mem_cons, List.not_mem_nil, or_false] at htype
  unfold validateRecordField
  by_cases hnull : recGet rec f.name = .vnull
  · rw [if_pos hnull]
  · rw [if_neg hnull]
    rcases htype with ht | ht | ht | ht | ht | ht | ht | ht | ht
    · -- C
      rw [if_pos ht]
      cases hv : recGet rec f.name with
      | vstr s =>
        rw [hv] at hadm
        simp only [AdmissibleValue, ht] at hadm
        dsimp only []
        rw [if_neg (by have := hC ht; omega)]
      | vnull => exact absurd hv hnull
      | vnum i e => rw [hv] at hadm; simp [AdmissibleValue, ht] at hadm
      | vnan => rw [hv] at hadm; simp [AdmissibleValue, ht] at hadm
      | vdbl bits => rw [hv] at hadm; simp [AdmissibleValue, ht] at hadm
      | vbool b => rw [hv] at hadm; simp [AdmissibleValue, ht] at hadm
      | vdate y m d hh mi ss => rw [hv] at hadm; simp [AdmissibleValue, ht] at hadm
    · -- N
      rw [if_neg (by omega), if_pos (by omega)]
      cases hv : recGet rec f.name with
      | vnum i e => rfl
      | vnull => exact absurd hv hnull
      | vstr s => rw [hv] at hadm; simp [AdmissibleValue, ht] at hadm
      | vnan => rfl
      | vdbl bits => rfl
      | vbool b => rw [hv] at hadm; simp [AdmissibleValue, ht] at hadm
      | vdate y m d hh mi ss => rw [hv] at hadm; simp [AdmissibleValue, ht] at hadm
    · -- F
      rw [if_neg (by omega), if_pos (by omega)]
      cases hv : recGet rec f.name with
      | vnum i e => rfl
      | vnull => exact absurd hv hnull
      | vstr s => rw [hv] at hadm; simp [AdmissibleValue, ht] at hadm
      | vnan => rfl
      | vdbl bits => rfl
      | vbool b => rw [hv] at hadm; simp [AdmissibleValue, ht] at hadm
      | vdate y m d hh mi ss => rw [hv] at hadm; simp [AdmissibleValue, ht] at hadm
    · -- L
      rw [if_neg (by omega), if_neg (by omega), if_neg (by omega), if_pos ht]
      cases hv : recGet rec f.name with
      | vbool b => rfl
      | vnull => exact absurd hv hnull
      | vstr s => rw [hv] at hadm; simp [AdmissibleValue, ht] at hadm
      | vnum i e => rw [hv] at hadm; simp [AdmissibleValue, ht] at hadm
      | vnan => rw [hv] at hadm; simp [AdmissibleValue, ht] at hadm
      | vdbl bits => rw [hv] at hadm; simp [AdmissibleValue, ht] at hadm
      | vdate y m d hh mi ss => rw [hv] at hadm; simp [AdmissibleValue, ht] at hadm
    · -- D
      rw [if_neg (by omega), if_neg (by omega), if_pos ht]
      cases hv : recGet rec f.name with
      | vdate y m d hh mi ss => rfl
      | vnull => exact absurd hv hnull
      | vstr s => rw [hv] at hadm; simp [AdmissibleValue, ht] at hadm
      | vnum i e => rw [hv] at hadm; simp [AdmissibleValue, ht] at hadm
      | vnan => rw [hv] at hadm; simp [AdmissibleValue, ht] at hadm
      | vdbl bits => rw [hv] at hadm; simp [AdmissibleValue, ht] at hadm
      | vbool b => rw [hv] at hadm; simp [AdmissibleValue, ht] at hadm
    · -- I
      rw [if_neg (by omega), if_pos (by omega)]
      cases hv : recGet rec f.name with
      | vnum i e => rfl
      | vnull => exact absurd hv hnull
      | vstr s => rw [hv] at hadm; simp [AdmissibleValue, ht] at hadm
      | vnan => rfl
      | vdbl bits => rfl
      | vbool b => rw [hv] at hadm; simp [AdmissibleValue, ht] at hadm
      | vdate y m d hh mi ss => rw [hv] at hadm; simp [AdmissibleValue, ht] at hadm
    · -- M: no admissible non-null value
      exfalso
      cases hv : recGet rec f.name <;> rw [hv] at hadm <;>
        simp [AdmissibleValue, ht] at hadm
    · -- T: falls through every branch
      rw [if_neg (by omega), if_neg (by omega), if_neg (by omega), if_neg (by omega)]
    · -- B: falls through every branch
      rw [if_neg (by omega), if_neg (by omega), if_neg (by omega), if_neg (by omega)]

theorem forM_except_ok_of (g : FieldDescriptor → Except DbfErr Unit) :
    ∀ (l : List FieldDescriptor), (∀ x ∈ l, g x = .ok ()) → l.forM g = .ok () := by
  intro l
  induction l with
  | nil => intro _; rfl
  | cons a l ih =>
    intro h
    have hstep : (a :: l).forM g = g a >>= fun _ => l.forM g := rfl
    rw [hstep, h a (by simp)]
    simp only [bind, Except.bind]
    exact ih (fun x hx => h x (by simp [hx]))

theorem validateRecord_adm (version : Nat) (fields : List FieldDescriptor) (rec : RecordData)
    (h : ∀ f ∈ fields, validateFieldDescriptor version f = .ok () ∧
      AdmissibleValue f (recGet rec f.name)) :
    validateRecord fields rec = .ok () := by
  unfold validateRecord
  exact forM_except_ok_of _ fields
    (fun f hf => validateRecordField_adm version f rec (h f hf).1 (h f hf).2)

theorem foldlM_encode (rec : RecordData) :
    ∀ (fields : List FieldDescriptor),
      (∀ f ∈ fields, encodeFieldBytes latin1Label f (recGet rec f.name)
        = .ok (encodedFieldBytes f (recGet rec f.name))) →
      ∀ (acc : List Nat),
        (fields.foldlM (fun acc f => do
          let b ← encodeFieldBytes (getEncoding (.single latin1Label) (some f)) f
            (recGet rec f.name)
          pure (acc ++ b)) acc)
        = .ok (acc ++ (fields.map (fun f => encodedFieldBytes f (recGet rec f.name))).flatten) := by
  intro fields
  induction fields with
  | nil =>
    intro _ acc
    simp only [List.foldlM, List.map_nil, List.flatten_nil, List.append_nil]
    rfl
  | cons f fs ih =>
    intro h acc
    rw [List.foldlM_cons]
    have hg : getEncoding (.single latin1Label) (some f) = latin1Label := rfl
    have hhead : ((do
        let b ← encodeFieldBytes (getEncoding (.single latin1Label) (some f)) f
          (recGet rec f.name)
        pure (acc ++ b)) : Except DbfErr (List Nat))
        = .ok (acc ++ encodedFieldBytes f (recGet rec f.name)) := by
      rw [hg, h f (by simp)]
      rfl
    rw [hhead]
    have hbind : ∀ (e : List Nat) (g : List Nat → Except DbfErr (List Nat)),
        (Except.ok e >>= g : Except DbfErr (List Nat)) = g e := fun _ _ => rfl
    rw [hbind]
    rw [ih (fun g hg' => h g (by simp [hg'])) (acc ++ encodedFieldBytes f (recGet rec f.name))]
    simp

theorem encodeRecordFrame_adm (fields : List FieldDescriptor) (rec : RecordData)
    (h : ∀ f ∈ fields, encodeFieldBytes latin1Label f (recGet rec f.name)
      = .ok (encodedFieldBytes f (recGet rec f.name))) :
    encodeRecordFrame (.single latin1Label) fields rec =
      .ok (32 :: (fields.map (fun f => encodedFieldBytes f (recGet rec f.name))).flatten) := by
  unfold encodeRecordFrame
  rw [foldlM_encode rec fields h []]
  rfl

theorem slice_eq_of_byteAt (file : List Nat) (pos : Nat) (bs : List Nat)
    (hlen : pos + bs.length ≤ file.length)
    (hb : ∀ i, i < bs.length → byteAt file (pos + i) = byteAt bs i) :
    (file.drop pos).take bs.length = bs := by
  apply List.ext_getElem
  · rw [List.length_take, List.length_drop]
    omega
  · intro i h1 h2
    have hbi := hb i h2
    unfold byteAt at hbi
    rw [List.getD_eq_getElem _ _ (by omega), List.getD_eq_getElem _ _ h2] at hbi
    rw [List.getElem_take, List.getElem_drop]
    exact hbi

theorem byteAt_writeAt_after (file : List Nat) (pos : Nat) (data : List Nat) (i : Nat)
    (hpos : pos ≤ file.length) (hi : pos + data.length ≤ i) :
    byteAt (writeAt file pos data) i = byteAt file i := by
  unfold writeAt
  have hrep : (List.replicate (pos - file.length) 0 : List Nat) = [] := by
    rw [List.replicate_eq_nil_iff]
    omega
  rw [hrep]
  rw [show file.take pos ++ [] ++ data ++ file.drop (pos + data.length)
    = (file.take pos ++ data) ++ file.drop (pos + data.length) from by simp]
  rw [show i = (file.take pos ++ data).length + (i - pos - data.length) from by simp; omega]
  rw [byteAt_append_right, byteAt_drop]
  congr 1
  simp only [List.length_append, List.length_take]
  omega

theorem decodeFieldsGo_roundtrip (version : Nat) (loose : Bool) (rec : RecordData)
    (file1 : List Nat) :
    ∀ (fs : List FieldDescriptor) (offset : Nat) (mst : MemoSt) (acc : List (JStr × Value)),
      (∀ f ∈ fs, validateFieldDescriptor version f = .ok () ∧ (f.type = 73 → f.size = 4) ∧
        AdmissibleValue f (recGet rec f.name)) →
      (file1.drop offset).take ((fs.map (fun f => f.size)).sum)
        = (fs.map (fun f => encodedFieldBytes f (recGet rec f.name))).flatten →
      decodeFieldsGo version loose (.single latin1Label) none file1 fs offset mst acc =
        .ok (acc ++ fs.map (fun f => (f.name, ExpectedValue f (recGet rec f.name))),
          offset + (fs.map (fun f => f.size)).sum, mst) := by
  intro fs
  induction fs with
  | nil =>
    intro offset mst acc _ _
    simp [decodeFieldsGo]
  | cons f fs ih =>
    intro offset mst acc hfs hwin
    obtain ⟨hval, hI4, hadm⟩ := hfs f (by simp)
    obtain ⟨henc, hlen, hdec⟩ :=
      encodeDecode_field version loose f (recGet rec f.name) hval hI4 hadm
    simp only [List.map_cons, List.sum_cons, List.flatten_cons] at hwin
    have hw1 : (file1.drop offset).take f.size = encodedFieldBytes f (recGet rec f.name) := by
      have h1 := congrArg (List.take f.size) hwin
      rw [List.take_take, min_eq_left (by omega)] at h1
      rw [h1, List.take_left' hlen]
    have hw2 : (file1.drop (offset + f.size)).take ((fs.map (fun f => f.size)).sum)
        = (fs.map (fun f => encodedFieldBytes f (recGet rec f.name))).flatten := by
      have h2 := congrArg (List.drop f.size) hwin
      rw [List.drop_take, List.drop_drop] at h2
      rw [show f.size + (fs.map (fun f => f.size)).sum - f.size
        = (fs.map (fun f => f.size)).sum from by omega] at h2
      rw [h2, List.drop_left' hlen]
    simp only [decodeFieldsGo]
    rw [hdec file1 offset mst hw1]
    dsimp only []
    rw [ih (offset + f.size) mst (acc ++ [(f.name, ExpectedValue f (recGet rec f.name))])
      (fun g hg => hfs g (by simp [hg])) hw2]
    rw [show acc ++ [(f.name, ExpectedValue f (recGet rec f.name))]
        ++ fs.map (fun g => (g.name, ExpectedValue g (recGet rec g.name)))
      = acc ++ (f :: fs).map (fun g => (g.name, ExpectedValue g (recGet rec g.name))) from by
        simp]
    rw [show offset + f.size + (fs.map (fun f => f.size)).sum
      = offset + ((f :: fs).map (fun f => f.size)).sum from by
        rw [List.map_cons, List.sum_cons]
        omega]

theorem appendOne_eq (encCfg : EncodingOpt) (fields : List FieldDescriptor) (rec : RecordData)
    (file0 : List Nat) (hl rl version : Nat) (frame : List Nat)
    (hvr : validateRecord fields rec = .ok ())
    (henc : encodeRecordFrame encCfg fields rec = .ok frame)
    (hrl : rl = calculateRecordLengthInBytes fields) :
    appendRecordsToDBF ⟨0, fields, false, encCfg, false, 0, hl, rl, false, version⟩ [rec] file0
      = (writeAt (writeAt (writeAt file0 hl frame) (hl + rl) [26]) 4 (writeInt32LEBytes 1),
         [(hl, frame), (hl + rl, [26]), (4, writeInt32LEBytes 1)],
         .ok ⟨1, fields, false, encCfg, false, 0, hl, rl, false, version⟩) := by
  unfold appendRecordsToDBF
  dsimp only []
  rw [← hrl]
  simp only [appendRecordsGo, hvr, henc]
  try dsimp only []
  simp only [Nat.zero_mul, Nat.mul_zero, Nat.add_zero, Nat.zero_add, List.nil_append,
    List.length_cons, List.length_nil, Nat.cast_one]
  rfl

theorem parseChunk_zero (version : Nat) (loose : Bool) (encCfg : EncodingOpt) (includeDel : Bool)
    (memoEnv : Option MemoEnv) (fields : List FieldDescriptor) (recordLength : Nat)
    (chunk : List Nat) (offset : Nat) (mst : MemoSt) (acc : List RecOut) :
    parseChunk version loose encCfg includeDel memoEnv fields recordLength chunk 0 offset mst acc
      = .ok (acc, mst) := by
  simp only [parseChunk]

theorem parseChunk_step (version : Nat) (loose : Bool) (encCfg : EncodingOpt) (includeDel : Bool)
    (memoEnv : Option MemoEnv) (fields : List FieldDescriptor) (recordLength : Nat)
    (chunk : List Nat) (n offset off' : Nat) (mst mst' : MemoSt) (acc : List RecOut)
    (entries : List (JStr × Value)) (out : Except DbfErr (List RecOut × MemoSt))
    (hnd : ¬ (byteAt chunk offset = 42 ∧ ¬ includeDel))
    (hdec : decodeFieldsGo version loose encCfg memoEnv chunk fields (offset + 1) mst []
      = .ok (entries, off', mst'))
    (hrest : parseChunk version loose encCfg includeDel memoEnv fields recordLength chunk
      n off' mst' (acc ++ [⟨entries, decide (byteAt chunk offset = 42)⟩]) = out) :
    parseChunk version loose encCfg includeDel memoEnv fields recordLength chunk (n + 1)
      offset mst acc = out := by
  simp only [parseChunk]
  rw [if_neg hnd, hdec]
  exact hrest

theorem readLoop_stop (dbf : DBFFileState) (file : List Nat) (memoEnv : Option MemoEnv)
    (maxCount fuel recordsRead : Nat) (records : List RecOut) (mst : MemoSt)
    (h : min (min (dbf.recordCount - recordsRead) (maxCount - records.length)) 1000 = 0) :
    readLoop dbf file memoEnv maxCount (fuel + 1) recordsRead records mst
      = .ok (records, recordsRead, mst) := by
  simp only [readLoop]
  rw [h]
  rfl

theorem readLoop_step (dbf : DBFFileState) (file : List Nat) (memoEnv : Option MemoEnv)
    (maxCount fuel recordsRead k : Nat) (records records' : List RecOut) (mst mst' : MemoSt)
    (chunk : List Nat) (out : Except (DbfErr × Nat) (List RecOut × Nat × MemoSt))
    (hrc : min (min (dbf.recordCount - recordsRead) (maxCount - records.length)) 1000 = k)
    (hk : k ≠ 0)
    (hchunk : (file.drop (dbf.headerLength + dbf.recordLength * recordsRead)).take
      (dbf.recordLength * k) = chunk)
    (hparse : parseChunk dbf.version dbf.loose dbf.encoding dbf.includeDeletedRecords memoEnv
      dbf.fields dbf.recordLength chunk k 0 mst records = .ok (records', mst'))
    (hrec : readLoop dbf file memoEnv maxCount fuel (recordsRead + k) records' mst' = out) :
    readLoop dbf file memoEnv maxCount (fuel + 1) recordsRead records mst = out := by
  simp only [readLoop]
  rw [hrc, if_neg hk, hchunk, hparse]
  exact hrec

theorem readRecordsFromDBF_none (dbf : DBFFileState) (file : List Nat) (maxCount : Nat)
    (records : List RecOut) (rr' : Nat) (mstf : MemoSt)
    (h : readLoop dbf file none maxCount (dbf.recordCount + 1) dbf.recordsRead [] ⟨[], []⟩
      = .ok (records, rr', mstf)) :
    readRecordsFromDBF dbf file none maxCount
      = .ok (records, { dbf with recordsRead := rr' }) := by
  unfold readRecordsFromDBF
  try dsimp only []
  rw [h]

theorem flatten_map_length_eq (g : FieldDescriptor → List Nat) (sz : FieldDescriptor → Nat) :
    ∀ (fs : List FieldDescriptor), (∀ f ∈ fs, (g f).length = sz f) →
      ((fs.map g).flatten).length = (fs.map sz).sum := by
  intro fs
  induction fs with
  | nil => intro _; simp
  | cons f fs ih =>
    intro h
    simp only [List.map_cons, List.flatten_cons, List.length_append, List.sum_cons,
      h f (by simp), ih (fun x hx => h x (by simp [hx]))]

theorem sum_map_const32 : ∀ (fs : List FieldDescriptor),
    (fs.map (fun _ => (32 : Nat))).sum = fs.length * 32 := by
  intro fs
  induction fs with
  | nil => simp
  | cons f fs ih =>
    simp only [List.map_cons, List.sum_cons, List.length_cons, ih]
    ring

/-- C1 (corrected): after `createDBF` (version 3, ISO-8859-1 encoding), appending a
record whose values are admissible for their field types — C text of single-byte
characters fitting the field size, canonical N/F decimal strings that fit, L booleans,
D dates, T datetimes whose stored julian-day low byte is not 0x20, I int32s, B 64-bit
doubles, with nulls admitted only in N/F/L/D/T fields — and then reading the file back
returns exactly the record's values, except that C strings come back with trailing
spaces trimmed (`ExpectedValue`).  As literally stated the claim is false: nulls in C,
I and B fields do not survive the round trip, so admissibility excludes them. -/
theorem c1_append_read_roundtrip (fields : List FieldDescriptor) (rec : RecordData)
    (yy mm dd maxCount : Nat) (file0 : List Nat) (st0 : DBFFileState)
    (hcreate : createDBF fields 3 (.single latin1Label) yy mm dd = .ok (file0, st0))
    (hI4 : ∀ f ∈ fields, f.type = 73 → f.size = 4)
    (hadm : ∀ f ∈ fields, AdmissibleValue f (recGet rec f.name))
    (hmax : 1 ≤ maxCount) :
    (appendRecordsToDBF st0 [rec] file0).2.2 = .ok { st0 with recordCount := 1 } ∧
    readRecordsFromDBF { st0 with recordCount := 1 } (appendRecordsToDBF st0 [rec] file0).1
        none maxCount
      = .ok ([⟨fields.map (fun f => (f.name, ExpectedValue f (recGet rec f.name))), false⟩],
          { st0 with recordCount := 1, recordsRead := 1 }) := by
  obtain ⟨hval, hb1, hb2, hfile0, hst0⟩ :=
    createDBF_ok fields 3 (.single latin1Label) yy mm dd file0 st0 hcreate
  have hvf := validateFieldDescriptors_ok 3 fields hval
  have hencf : ∀ f ∈ fields, encodeFieldBytes latin1Label f (recGet rec f.name)
      = .ok (encodedFieldBytes f (recGet rec f.name)) := fun f hf =>
    (encodeDecode_field 3 false f (recGet rec f.name) (hvf f hf) (hI4 f hf) (hadm f hf)).1
  have hlenf : ∀ f ∈ fields, (encodedFieldBytes f (recGet rec f.name)).length = f.size :=
    fun f hf =>
      (encodeDecode_field 3 false f (recGet rec f.name) (hvf f hf) (hI4 f hf) (hadm f hf)).2.1
  have hflat : ((fields.map (fun f => encodedFieldBytes f (recGet rec f.name))).flatten).length
      = (fields.map (fun f => f.size)).sum :=
    flatten_map_length_eq (fun f => encodedFieldBytes f (recGet rec f.name)) (fun f => f.size)
      fields hlenf
  have hvr : validateRecord fields rec = .ok () :=
    validateRecord_adm 3 fields rec (fun f hf => ⟨hvf f hf, hadm f hf⟩)
  have henc := encodeRecordFrame_adm fields rec hencf
  set frame := 32 :: (fields.map (fun f => encodedFieldBytes f (recGet rec f.name))).flatten
    with hframe
  have hframelen : frame.length = calculateRecordLengthInBytes fields := by
    rw [hframe, List.length_cons, hflat]
    unfold calculateRecordLengthInBytes
    omega
  have hdlen : ((fields.map descriptorBytes).flatten).length = fields.length * 32 := by
    rw [flatten_map_length_eq descriptorBytes (fun _ => 32) fields (fun g hg =>
      descriptorBytes_length g
        (by have := (validateFieldDescriptor_ok_implies 3 g (hvf g hg)).2.1; omega))]
    exact sum_map_const32 fields
  have hfl0 : file0.length = 35 + fields.length * 32 := by
    rw [hfile0]
    simp only [List.length_append, List.length_cons, List.length_nil, List.length_replicate,
      leBytes_length, hdlen]
    omega
  have hrlpos : 1 ≤ calculateRecordLengthInBytes fields := by
    unfold calculateRecordLengthInBytes
    omega
  subst hst0
  rw [appendOne_eq (.single latin1Label) fields rec file0 (34 + fields.length * 32)
    (calculateRecordLengthInBytes fields) 3 frame hvr henc rfl]
  refine ⟨rfl, ?_⟩
  try dsimp only []
  set file3 := writeAt (writeAt (writeAt file0 (34 + fields.length * 32) frame)
    (34 + fields.length * 32 + calculateRecordLengthInBytes fields) [26]) 4
    (writeInt32LEBytes 1) with hfile3
  have hfl1 : (writeAt file0 (34 + fields.length * 32) frame).length
      = 34 + fields.length * 32 + calculateRecordLengthInBytes fields := by
    rw [writeAt_length _ _ _ (by omega)]
    rw [hframelen]
    omega
  have hfl2 : (writeAt (writeAt file0 (34 + fields.length * 32) frame)
      (34 + fields.length * 32 + calculateRecordLengthInBytes fields) [26]).length
      = 34 + fields.length * 32 + calculateRecordLengthInBytes fields + 1 := by
    rw [writeAt_length _ _ _ (by omega)]
    simp only [List.length_cons, List.length_nil]
    omega
  have hfl3 : file3.length
      = 34 + fields.length * 32 + calculateRecordLengthInBytes fields + 1 := by
    rw [hfile3, writeAt_length _ _ _ (by omega)]
    rw [writeInt32LEBytes_length]
    omega
  have hbyte : ∀ i, i < calculateRecordLengthInBytes fields →
      byteAt file3 (34 + fields.length * 32 + i) = byteAt frame i := by
    intro i hi
    rw [hfile3]
    rw [byteAt_writeAt_after _ 4 (writeInt32LEBytes 1) _ (by omega)
      (by rw [writeInt32LEBytes_length]; omega)]
    rw [byteAt_writeAt_before_all _ _ [26] _ (by omega)]
    exact byteAt_writeAt_inside file0 (34 + fields.length * 32) frame i
      (by rw [hframelen]; exact hi) (by omega)
  have hchunk : (file3.drop
        (34 + fields.length * 32 + calculateRecordLengthInBytes fields * 0)).take
      (calculateRecordLengthInBytes fields * 1) = frame := by
    rw [Nat.mul_zero, Nat.add_zero, Nat.mul_one, ← hframelen]
    refine slice_eq_of_byteAt file3 (34 + fields.length * 32) frame (by rw [hframelen]; omega)
      (fun i hi => ?_)
    rw [hframelen] at hi
    exact hbyte i hi
  have hwin : (frame.drop 1).take ((fields.map (fun f => f.size)).sum)
      = (fields.map (fun f => encodedFieldBytes f (recGet rec f.name))).flatten := by
    rw [show frame.drop 1
      = (fields.map (fun f => encodedFieldBytes f (recGet rec f.name))).flatten from rfl]
    rw [← hflat, List.take_length]
  have hdec := decodeFieldsGo_roundtrip 3 false rec frame fields 1 ⟨[], []⟩ []
    (fun f hf => ⟨hvf f hf, hI4 f hf, hadm f hf⟩) hwin
  rw [List.nil_append] at hdec
  have hdel : decide (byteAt frame 0 = 42) = false := by
    rw [hframe]
    simp [byteAt]
  have hp0 : parseChunk 3 false (.single latin1Label) false none fields
      (calculateRecordLengthInBytes fields) frame 0
      (1 + (fields.map (fun f => f.size)).sum) ⟨[], []⟩
      (([] : List RecOut)
        ++ [⟨fields.map (fun f => (f.name, ExpectedValue f (recGet rec f.name))),
            decide (byteAt frame 0 = 42)⟩])
      = .ok ([⟨fields.map (fun f => (f.name, ExpectedValue f (recGet rec f.name))), false⟩],
          ⟨[], []⟩) := by
    rw [hdel, List.nil_append]
    exact parseChunk_zero 3 false (.single latin1Label) false none fields
      (calculateRecordLengthInBytes fields) frame (1 + (fields.map (fun f => f.size)).sum)
      ⟨[], []⟩ [⟨fields.map (fun f => (f.name, ExpectedValue f (recGet rec f.name))), false⟩]
  have hp1 : parseChunk 3 false (.single latin1Label) false none fields
      (calculateRecordLengthInBytes fields) frame 1 0 ⟨[], []⟩ []
      = .ok ([⟨fields.map (fun f => (f.name, ExpectedValue f (recGet rec f.name))), false⟩],
          ⟨[], []⟩) :=
    parseChunk_step 3 false (.single latin1Label) false none fields
      (calculateRecordLengthInBytes fields) frame 0 0
      (1 + (fields.map (fun f => f.size)).sum) ⟨[], []⟩ ⟨[], []⟩ []
      (fields.map (fun f => (f.name, ExpectedValue f (recGet rec f.name))))
      (.ok ([⟨fields.map (fun f => (f.name, ExpectedValue f (recGet rec f.name))), false⟩],
        ⟨[], []⟩))
      (by rw [hframe]; simp [byteAt])
      hdec
      hp0
  have hstop : readLoop ⟨1, fields, false, .single latin1Label, false, 0,
      34 + fields.length * 32, calculateRecordLengthInBytes fields, false, 3⟩ file3 none
      maxCount 1 (0 + 1)
      [⟨fields.map (fun f => (f.name, ExpectedValue f (recGet rec f.name))), false⟩] ⟨[], []⟩
      = .ok ([⟨fields.map (fun f => (f.name, ExpectedValue f (recGet rec f.name))), false⟩],
          0 + 1, ⟨[], []⟩) :=
    readLoop_stop _ _ _ _ 0 _ _ _
      (by show min (min ((1 : Nat) - (0 + 1)) (maxCount - 1)) 1000 = 0; omega)
  have hloop : readLoop ⟨1, fields, false, .single latin1Label, false, 0,
      34 + fields.length * 32, calculateRecordLengthInBytes fields, false, 3⟩ file3 none
      maxCount (1 + 1) 0 [] ⟨[], []⟩
      = .ok ([⟨fields.map (fun f => (f.name, ExpectedValue f (recGet rec f.name))), false⟩],
          0 + 1, ⟨[], []⟩) :=
    readLoop_step _ file3 none maxCount 1 0 1 []
      [⟨fields.map (fun f => (f.name, ExpectedValue f (recGet rec f.name))), false⟩]
      ⟨[], []⟩ ⟨[], []⟩ frame _
      (by show min (min ((1 : Nat) - 0) (maxCount - 0)) 1000 = 1; omega)
      (by omega) hchunk hp1 hstop
  exact readRecordsFromDBF_none ⟨1, fields, false, .single latin1Label, false, 0,
    34 + fields.length * 32, calculateRecordLengthInBytes fields, false, 3⟩ file3 maxCount
    [⟨fields.map (fun f => (f.name, ExpectedValue f (recGet rec f.name))), false⟩] (0 + 1)
    ⟨[], []⟩ hloop

def c1wFields : List FieldDescriptor :=
  [⟨[67], 67, 5, none⟩, ⟨[73], 73, 4, none⟩, ⟨[76], 76, 1, none⟩]

def c1wRec : RecordData :=
  [([67], .vstr [72, 73, 32]), ([73], .vnum (-42) 0), ([76], .vbool true)]

/-- The file/state pair `createDBF` returns for the witness fixture. -/
def c1wOut : List Nat × DBFFileState :=
  (createDBF c1wFields 3 (.single latin1Label) 26 1 1).toOption.getD
    ([], ⟨0, [], false, .single latin1Label, false, 0, 0, 0, false, 0⟩)

set_option maxRecDepth 1000000 in
/-- Witness for C1: a C/I/L file; the record `{C: "HI ", I: -42, L: true}`
round-trips, the C value coming back as "HI". -/
theorem c1_witness :
    createDBF c1wFields 3 (.single latin1Label) 26 1 1 = .ok (c1wOut.1, c1wOut.2) ∧
    (appendRecordsToDBF c1wOut.2 [c1wRec] c1wOut.1).2.2
      = .ok { c1wOut.2 with recordCount := 1 } ∧
    readRecordsFromDBF { c1wOut.2 with recordCount := 1 }
        (appendRecordsToDBF c1wOut.2 [c1wRec] c1wOut.1).1 none 7
      = .ok ([⟨c1wFields.map (fun f => (f.name, ExpectedValue f (recGet c1wRec f.name))),
            false⟩],
          { c1wOut.2 with recordCount := 1, recordsRead := 1 }) := by
  have h := c1_append_read_roundtrip c1wFields c1wRec 26 1 1 7 c1wOut.1 c1wOut.2 (by rfl)
    (by decide)
    (by
      intro f hf
      simp only [c1wFields, List.mem_cons, List.not_mem_nil, or_false] at hf
      rcases hf with h | h | h <;> subst h
      · exact ⟨by decide, by decide⟩
      · exact ⟨rfl, by decide, by decide⟩
      · exact trivial)
    (by omega)
  exact ⟨by rfl, h.1, h.2⟩

def c1xFields : List FieldDescriptor := [⟨[65], 67, 3, none⟩]

def c1xRec : RecordData := [([65], Value.vnull)]

/-- The file/state pair `createDBF` returns for the counterexample fixture. -/
def c1xOut : List Nat × DBFFileState :=
  (createDBF c1xFields 3 (.single latin1Label) 26 1 1).toOption.getD
    ([], ⟨0, [], false, .single latin1Label, false, 0, 0, 0, false, 0⟩)

set_option maxRecDepth 1000000 in
/-- Counterexample to C1 as stated: the claim admits nulls in every field
type, but a null written to a C field comes back as the empty string, not
as null (similarly I nulls come back as 0 and B nulls as 0.0). -/
theorem c1_counterexample :
    createDBF c1xFields 3 (.single latin1Label) 26 1 1 = .ok (c1xOut.1, c1xOut.2) ∧
    recGet c1xRec [65] = Value.vnull ∧
    (appendRecordsToDBF c1xOut.2 [c1xRec] c1xOut.1).2.2
      = .ok { c1xOut.2 with recordCount := 1 } ∧
    readRecordsFromDBF { c1xOut.2 with recordCount := 1 }
        (appendRecordsToDBF c1xOut.2 [c1xRec] c1xOut.1).1 none 7
      = .ok ([⟨[([65], Value.vstr [])], false⟩],
          { c1xOut.2 with recordCount := 1, recordsRead := 1 }) ∧
    Value.vstr [] ≠ Value.vnull :=
  ⟨by rfl, by rfl, by rfl, by rfl, by decide⟩
